import Mathlib

/-!
# Thread pool (homework-04/thread_pool.c)

A shallow embedding of the thread pool: the pool and task records, the task
heap with its intrusive `next` links, and the code of every function cut into
the segments it executes while holding the pool mutex.  Each segment is a pure
function on the shared state; an execution of the program is a sequence of
such segments (`Event`), because every segment starts by acquiring the pool
mutex and ends by releasing it (`pthread_mutex_unlock` or `pthread_cond_wait`).
Condition-variable signals are not represented: a waiting thread may re-test
its loop condition at any time, which covers every wake-up (also spurious
ones) that POSIX allows.
-/

namespace ThreadPool

/-! ## Data model -/

/-- Modelled from the spec: the error kinds of `thread_pool.h`, a header that is
not part of the sources.  They are pairwise distinct and different from the
success value 0. -/
inductive thread_pool_errcode where
  | TPOOL_ERR_INVALID_ARGUMENT
  | TPOOL_ERR_TOO_MANY_TASKS
  | TPOOL_ERR_HAS_TASKS
  | TPOOL_ERR_TASK_NOT_PUSHED
  | TPOOL_ERR_TASK_IN_POOL
  | TPOOL_ERR_TIMEOUT
  deriving DecidableEq, Repr

/-- The `int` returned by an API function: `ok` is the value 0. -/
inductive Ret where
  | ok
  | err (e : thread_pool_errcode)
  deriving DecidableEq, Repr

/-- Modelled from the spec: the two implementation ceilings of `thread_pool.h`
(not part of the sources); they are parameters of the development. -/
structure Config where
  TPOOL_MAX_THREADS : Int
  TPOOL_MAX_TASKS : Int
  deriving DecidableEq, Repr

/-- The record `struct thread_task`.  Pointers are addresses (`Nat`), `NULL` is
`none`; `void *` values are integers and the `NULL` result is 0.  The mutex and
the condition variable of the task are implicit. -/
structure thread_task where
  function : Int → Int
  arg : Int
  pool : Option Nat
  is_detached : Bool
  is_running : Bool
  is_finished : Bool
  result : Int
  next : Option Nat

/-- The record `struct thread_pool`.  The array `threads` holds thread
handles; `none` is the `NULL` array. -/
structure thread_pool where
  threads : Option (List Nat)
  max_thread_count : Int
  thread_count : Int
  idle_thread_count : Int
  thread_idx_that_should_exit : Int
  pending_task_count : Int
  running_task_count : Int
  pending_task_list : Option Nat
  deriving DecidableEq, Repr

/-- The task heap: the task stored at each address, `none` where no task is
allocated (never allocated, or freed). -/
abbrev Heap := Nat → Option thread_task

/-- Store `v` at address `a`. -/
def Heap.set (h : Heap) (a : Nat) (v : Option thread_task) : Heap :=
  fun b => if b = a then v else h b

/-- What a call that may suspend its caller does in one atomic segment. -/
inductive Outcome (σ : Type) where
  /-- the call returned `code`, leaving the state `s` -/
  | ret (code : Ret) (s : σ)
  /-- the caller is suspended (`pthread_cond_wait`, `pthread_join`) in state `s` -/
  | blocked (s : σ)
  /-- the segment cannot run: it dereferences `NULL` or an address that holds no
  task, or no thread stands at its entry -/
  | fault

/-! ## Task functions -/

/-- The task built by `thread_task_new` (which always returns 0). -/
def thread_task_new (function : Int → Int) (arg : Int) : thread_task :=
  { function := function, arg := arg, pool := none, is_detached := false,
    is_running := false, is_finished := false, result := 0, next := none }

/-- The getter `thread_task_is_finished`. -/
def thread_task_is_finished (task : thread_task) : Bool := task.is_finished

/-- The getter `thread_task_is_running`. -/
def thread_task_is_running (task : thread_task) : Bool := task.is_running

/-- The function `thread_task_join` on the task record; `out` is the current content
of `*result`.  The call returns the code, the new content of `*result` and the
task; it is suspended while the task is not finished. -/
def thread_task_join (task : thread_task) (out : Int) : Outcome (Int × thread_task) :=
  match task.pool with
  | none => .ret (.err .TPOOL_ERR_TASK_NOT_PUSHED) (out, task)
  | some _ =>
    if task.is_finished then .ret .ok (task.result, { task with pool := none })
    else .blocked (out, task)

/-- The function `thread_task_delete` on the task record: the code returned and what
is left at the task's address (`none` once freed). -/
def thread_task_delete (task : thread_task) : Ret × Option thread_task :=
  match task.pool with
  | some _ => (.err .TPOOL_ERR_TASK_IN_POOL, some task)
  | none => (.ok, none)

/-- The function `thread_task_timed_join` (compiled under `NEED_TIMED_JOIN`), from
its entry to its return or to its first `pthread_cond_timedwait`.  The
`double` timeout is a rational number; `out` is the current content of
`*result`. -/
def thread_task_timed_join (task : thread_task) (timeout : ℚ) (out : Int) :
    Outcome (Int × thread_task) :=
  match task.pool with
  | none => .ret (.err .TPOOL_ERR_TASK_NOT_PUSHED) (out, task)
  | some _ =>
    if timeout < 1 / 1000000000 then
      if !task.is_finished then .ret (.err .TPOOL_ERR_TIMEOUT) (out, task)
      else .ret .ok (task.result, { task with pool := none })
    else if !task.is_finished then .blocked (out, task)
    else .ret .ok (task.result, { task with pool := none })

/-- The function `thread_task_timed_join` continued: the caller returns from
`pthread_cond_timedwait`, with `ETIMEDOUT` when `timed_out` holds, and tests
the loop condition of line 280 again. -/
def thread_task_timed_join_resume (task : thread_task) (timed_out : Bool) (out : Int) :
    Outcome (Int × thread_task) :=
  if !task.is_finished && !timed_out then .blocked (out, task)
  else if timed_out then .ret (.err .TPOOL_ERR_TIMEOUT) (out, task)
  else .ret .ok (task.result, { task with pool := none })

/-- The function `thread_task_detach` (compiled under `NEED_DETACH`) on the task
record: the code returned and what is left at the task's address. -/
def thread_task_detach (task : thread_task) : Ret × Option thread_task :=
  match task.pool with
  | none => (.err .TPOOL_ERR_TASK_NOT_PUSHED, some task)
  | some _ =>
    if task.is_finished then (.ok, (thread_task_delete { task with pool := none }).2)
    else (.ok, some { task with pool := none, is_detached := true })

/-! ## Pool functions -/

/-- The function `thread_pool_new`: the error code, or the pool written to `*pool`. -/
def thread_pool_new (cfg : Config) (max_thread_count : Int) :
    Except thread_pool_errcode thread_pool :=
  if max_thread_count < 1 ∨ max_thread_count > cfg.TPOOL_MAX_THREADS then
    .error .TPOOL_ERR_INVALID_ARGUMENT
  else
    .ok { threads := none, max_thread_count := max_thread_count, thread_count := 0,
          idle_thread_count := 0, thread_idx_that_should_exit := -1,
          pending_task_count := 0, running_task_count := 0,
          pending_task_list := none }

/-- The getter `thread_pool_thread_count`. -/
def thread_pool_thread_count (pool : thread_pool) : Int := pool.thread_count

/-! ## Worker threads

The function `_thread_worker` is cut at the points where it gives up the pool
mutex; its segments carry the names `thread_worker_*`. -/

/-- Where a worker thread stands between two atomic segments of
`_thread_worker`. -/
inductive WorkerPc where
  /-- created by `pthread_create`, not yet past the first `pthread_mutex_lock` -/
  | spawned
  /-- suspended in `pthread_cond_wait(&pool->cv, ...)` -/
  | waiting
  /-- has dequeued `task` and released the mutex, `is_running` not yet set -/
  | claimed (task : Nat)
  /-- has set `is_running` and is calling the task's function -/
  | executing (task : Nat)
  /-- has left its loop -/
  | exited
  deriving DecidableEq, Repr

/-- A worker thread: its `idx` argument and its position in the code. -/
structure Worker where
  idx : Int
  pc : WorkerPc
  deriving DecidableEq, Repr

/-- Lines 75-80 of `_thread_worker`: unlink the head of the pending list. -/
def thread_worker_take (pool : thread_pool) (h : Heap) : Option (thread_pool × Heap × Nat) :=
  match pool.pending_task_list with
  | none => none
  | some t =>
    match h t with
    | none => none
    | some task =>
      some ({ pool with pending_task_list := task.next,
                        idle_thread_count := pool.idle_thread_count - 1,
                        pending_task_count := pool.pending_task_count - 1,
                        running_task_count := pool.running_task_count + 1 },
            h.set t (some { task with next := none }), t)

/-- Lines 70-82 of `_thread_worker`: the worker has left the wait loop; it exits
when it is the one told to, otherwise it dequeues a task. -/
def thread_worker_after_wait (pool : thread_pool) (h : Heap) (idx : Int) :
    Option (thread_pool × Heap × WorkerPc) :=
  if pool.thread_idx_that_should_exit = idx then some (pool, h, .exited)
  else
    match thread_worker_take pool h with
    | none => none
    | some (pool1, h1, t) => some (pool1, h1, .claimed t)

/-- The wait condition of the inner loop of `_thread_worker` (line 65). -/
def thread_worker_must_wait (pool : thread_pool) (idx : Int) : Bool :=
  decide (pool.pending_task_count < 1) && decide (pool.thread_idx_that_should_exit ≠ idx)

/-- Lines 64-82 of `_thread_worker`: one pass from the top of the outer loop,
entered with the pool mutex held. -/
def thread_worker_loop (pool : thread_pool) (h : Heap) (idx : Int) :
    Option (thread_pool × Heap × WorkerPc) :=
  let pool1 := { pool with idle_thread_count := pool.idle_thread_count + 1 }
  if thread_worker_must_wait pool1 idx then some (pool1, h, .waiting)
  else thread_worker_after_wait pool1 h idx

/-- Lines 60-82 of `_thread_worker`: a new worker registers itself as live and
enters the loop. -/
def thread_worker_register (pool : thread_pool) (h : Heap) (idx : Int) :
    Option (thread_pool × Heap × WorkerPc) :=
  thread_worker_loop { pool with thread_count := pool.thread_count + 1 } h idx

/-- Lines 65-82 of `_thread_worker`: a waiting worker returns from
`pthread_cond_wait` and tests the loop condition again. -/
def thread_worker_wake (pool : thread_pool) (h : Heap) (idx : Int) :
    Option (thread_pool × Heap × WorkerPc) :=
  if thread_worker_must_wait pool idx then some (pool, h, .waiting)
  else thread_worker_after_wait pool h idx

/-- Line 86 of `_thread_worker`: `task->is_running = true`, outside the mutex. -/
def thread_worker_start (h : Heap) (t : Nat) : Option Heap :=
  match h t with
  | none => none
  | some task => some (h.set t (some { task with is_running := true }))

/-- Lines 89-102 of `_thread_worker`: call the task's function, then, holding the
pool mutex and the task mutex, publish the result or delete the detached
task.  On the detached branch `thread_task_delete` (line 95) runs while the
worker holds the task's mutex, and line 102 then unlocks `task->mutex`
whatever the branch: when the delete has freed the task, this unlock
dereferences a freed address and the segment gives `none`; when the delete
has refused (`TPOOL_ERR_TASK_IN_POOL`), the task is still there and the
unlock is sound. -/
def thread_worker_finish (pool : thread_pool) (h : Heap) (t : Nat) : Option (thread_pool × Heap) :=
  match h t with
  | none => none
  | some task =>
    let result := task.function task.arg
    let pool1 := { pool with running_task_count := pool.running_task_count - 1 }
    if task.is_detached then
      match (thread_task_delete task).2 with
      | none => none
      | some task1 => some (pool1, h.set t (some task1))
    else
      some (pool1, h.set t (some { task with is_running := false, is_finished := true,
                                             result := result }))

/-! ## The system: one pool, the task heap and the threads -/

/-- What a caller of `thread_pool_delete` has reached: it is suspended in
`pthread_join(pool->threads[i], NULL)`, or it has freed the pool. -/
inductive DeletePc where
  | joining (i : Int)
  | freed
  deriving DecidableEq, Repr

/-- The shared state of a program that uses one pool.  The thread handle of
a worker is its position in `workers`.  The fields `pushed` and `calls` are
histories kept for the statements only: the tasks enqueued so far, and the
tasks whose function has been called so far, in order. -/
structure System where
  pool_addr : Nat
  pool : thread_pool
  tasks : Heap
  workers : List Worker
  /-- the callers of `thread_pool_push_task` suspended at the spawn barrier,
  each with its task and its local `required_thread_count` -/
  pushers : List (Nat × Int)
  /-- where the caller of a successful `thread_pool_delete` stands, if any -/
  deleter : Option DeletePc
  pushed : List Nat
  calls : List Nat

/-- The array returned by `realloc(threads, sizeof(pthread_t) * n)`. -/
def realloc (threads : List Nat) (n : Nat) : List Nat :=
  threads.take n ++ List.replicate (n - threads.length) 0

/-- Lines 170-191 of `thread_pool_push_task`: create a worker when one is
needed.  The call gives the pool, the threads and
`required_thread_count`. -/
def push_spawn (pool : thread_pool) (workers : List Worker) :
    thread_pool × List Worker × Int :=
  match pool.threads with
  | none =>
    ({ pool with threads := some [workers.length] },
     workers ++ [{ idx := 0, pc := .spawned }], 1)
  | some threads =>
    if pool.idle_thread_count = 0 ∧ pool.thread_count < pool.max_thread_count then
      let threads1 := realloc threads (pool.thread_count + 1).toNat
      ({ pool with threads := some (threads1.set pool.thread_count.toNat workers.length) },
       workers ++ [{ idx := pool.thread_count, pc := .spawned }],
       pool.thread_count + 1)
    else (pool, workers, pool.thread_count)

/-- Lines 198-205 of `thread_pool_push_task`: link the task in front of the
pending list. -/
def push_enqueue (pool_addr : Nat) (pool : thread_pool) (h : Heap) (t : Nat) :
    Option (thread_pool × Heap) :=
  match h t with
  | none => none
  | some task =>
    some ({ pool with pending_task_list := some t,
                      pending_task_count := pool.pending_task_count + 1 },
          h.set t (some { task with pool := some pool_addr,
                                    next := pool.pending_task_list,
                                    is_finished := false, is_running := false }))

/-- Lines 193-207 of `thread_pool_push_task`, run by a caller with the task `t`
and the local `required`: wait at the spawn barrier, then enqueue and
return 0. -/
def push_finish (s : System) (t : Nat) (required : Int) (others : List (Nat × Int)) :
    Outcome System :=
  if s.pool.thread_count ≠ required then
    .blocked { s with pushers := (t, required) :: others }
  else
    match push_enqueue s.pool_addr s.pool s.tasks t with
    | none => .fault
    | some (pool1, tasks1) =>
      .ret .ok { s with pool := pool1, tasks := tasks1, pushers := others,
                        pushed := s.pushed ++ [t] }

/-- The function `thread_pool_push_task`, from its entry to its return or to
its first suspension at the spawn barrier. -/
def thread_pool_push_task (cfg : Config) (s : System) (t : Nat) : Outcome System :=
  if s.pool.pending_task_count ≥ cfg.TPOOL_MAX_TASKS then
    .ret (.err .TPOOL_ERR_TOO_MANY_TASKS) s
  else
    let r := push_spawn s.pool s.workers
    push_finish { s with pool := r.1, workers := r.2.1 } t r.2.2 s.pushers

/-- The function `thread_pool_push_task` continued: the first suspended caller
returns from `pthread_cond_wait(&pool->spawn_cv, ...)`. -/
def thread_pool_push_task_resume (s : System) : Outcome System :=
  match s.pushers with
  | [] => .fault
  | (t, required) :: others => push_finish s t required others

/-- The test at the head of `thread_pool_delete` (line 136). -/
def thread_pool_has_tasks (pool : thread_pool) : Bool :=
  decide (pool.running_task_count > 0) || decide (pool.pending_task_count > 0) ||
    decide (pool.idle_thread_count ≠ pool.thread_count)

/-- Lines 143-160 of `thread_pool_delete`: the loop that tells worker `i` to exit,
entered at index `i` with the mutex held. -/
def thread_pool_delete_loop (pool : thread_pool) (i : Int) : thread_pool × DeletePc :=
  if i < pool.thread_count then
    ({ pool with thread_idx_that_should_exit := i }, .joining i)
  else (pool, .freed)

/-- The function `thread_pool_delete`, from its entry to its return or to its first
`pthread_join`. -/
def thread_pool_delete (s : System) : Outcome System :=
  if thread_pool_has_tasks s.pool then
    .ret (.err .TPOOL_ERR_HAS_TASKS) s
  else
    match s.pool.threads with
    | none => .ret .ok { s with deleter := some .freed }
    | some _ =>
      match thread_pool_delete_loop s.pool 0 with
      | (pool1, .joining i) => .blocked { s with pool := pool1, deleter := some (.joining i) }
      | (pool1, .freed) => .ret .ok { s with pool := pool1, deleter := some .freed }

/-- The function `thread_pool_delete` continued: the caller suspended in
`pthread_join(pool->threads[i], NULL)` goes on once that thread has exited. -/
def thread_pool_delete_resume (s : System) : Outcome System :=
  match s.deleter, s.pool.threads with
  | some (.joining i), some threads =>
    match threads[i.toNat]? with
    | none => .fault
    | some w =>
      match s.workers[w]? with
      | none => .fault
      | some ⟨_, .exited⟩ =>
        match thread_pool_delete_loop s.pool (i + 1) with
        | (pool1, .joining j) => .blocked { s with pool := pool1, deleter := some (.joining j) }
        | (pool1, .freed) => .ret .ok { s with pool := pool1, deleter := some .freed }
      | some _ => .blocked s
  | _, _ => .fault

/-! ## Executions -/

/-- One atomic segment of one thread. -/
inductive Event where
  /-- the client calls `thread_pool_push_task` on the task at address `t` -/
  | push (t : Nat)
  /-- the client suspended at the spawn barrier goes on -/
  | resume
  /-- the new worker with handle `w` passes lines 60-82 -/
  | register (w : Nat)
  /-- the waiting worker `w` returns from `pthread_cond_wait` -/
  | wake (w : Nat)
  /-- the worker `w` sets `is_running` of the task it dequeued -/
  | start (w : Nat)
  /-- the worker `w` gets the result of its task, completes it and passes the
  top of its loop -/
  | complete (w : Nat)
  deriving DecidableEq, Repr

/-- The event is a call of `thread_pool_push_task`. -/
def Event.is_push : Event → Bool
  | .push _ => true
  | _ => false

/-- Put the outcome of a worker segment into the system state. -/
def System.worker_update (s : System) (w : Nat) (wk : Worker)
    (r : thread_pool × Heap × WorkerPc) : System :=
  { s with pool := r.1, tasks := r.2.1, workers := s.workers.set w { wk with pc := r.2.2 } }

/-- One step of the system.  The client's calls to `thread_pool_push_task` do not
overlap: a new call starts only when no caller is suspended at the spawn
barrier.  A step that is not enabled, or that dereferences `NULL` or a
dangling address, gives `none`. -/
def step (cfg : Config) (s : System) : Event → Option System
  | .push t =>
    match s.pushers with
    | [] =>
      match thread_pool_push_task cfg s t with
      | .ret _ s1 => some s1
      | .blocked s1 => some s1
      | .fault => none
    | _ :: _ => none
  | .resume =>
    match thread_pool_push_task_resume s with
    | .ret _ s1 => some s1
    | .blocked s1 => some s1
    | .fault => none
  | .register w =>
    match s.workers[w]? with
    | some ⟨idx, .spawned⟩ =>
      (thread_worker_register s.pool s.tasks idx).map (s.worker_update w ⟨idx, .spawned⟩)
    | _ => none
  | .wake w =>
    match s.workers[w]? with
    | some ⟨idx, .waiting⟩ =>
      (thread_worker_wake s.pool s.tasks idx).map (s.worker_update w ⟨idx, .waiting⟩)
    | _ => none
  | .start w =>
    match s.workers[w]? with
    | some ⟨idx, .claimed t⟩ =>
      (thread_worker_start s.tasks t).map
        (fun h => { s with tasks := h, workers := s.workers.set w ⟨idx, .executing t⟩ })
    | _ => none
  | .complete w =>
    match s.workers[w]? with
    | some ⟨idx, .executing t⟩ =>
      match thread_worker_finish s.pool s.tasks t with
      | none => none
      | some (pool1, h1) =>
        (thread_worker_loop pool1 h1 idx).map
          (fun r => { s.worker_update w ⟨idx, .executing t⟩ r with calls := s.calls ++ [t] })
    | _ => none

/-- Run a sequence of steps. -/
def run (cfg : Config) : System → List Event → Option System
  | s, [] => some s
  | s, e :: es =>
    match step cfg s e with
    | none => none
    | some s1 => run cfg s1 es

/-- The heap after one `thread_task_new` for each entry of `specs` (function
and argument), the i-th task at address i. -/
def heap_of (specs : List ((Int → Int) × Int)) : Heap :=
  fun a => (specs[a]?).map (fun fa => thread_task_new fa.1 fa.2)

/-- The system right after `thread_pool_new` gave `pool`, stored at `pool_addr`. -/
def System.init (pool_addr : Nat) (pool : thread_pool) (tasks : Heap) : System :=
  { pool_addr := pool_addr, pool := pool, tasks := tasks, workers := [],
    pushers := [], deleter := none, pushed := [], calls := [] }

/-! ## Invariants of the executions -/

/-- The worker was created and has not yet registered itself. -/
def Worker.is_spawned (w : Worker) : Bool :=
  match w.pc with
  | .spawned => true
  | _ => false

/-- The worker is suspended in `pthread_cond_wait`. -/
def Worker.is_waiting (w : Worker) : Bool :=
  match w.pc with
  | .waiting => true
  | _ => false

/-- The worker has a task in hand (dequeued, not yet completed). -/
def Worker.is_busy (w : Worker) : Bool :=
  match w.pc with
  | .claimed _ => true
  | .executing _ => true
  | _ => false

/-- The worker has left its loop. -/
def Worker.is_exited (w : Worker) : Bool :=
  match w.pc with
  | .exited => true
  | _ => false

/-- The worker has the task `t` in hand. -/
def Worker.holds (t : Nat) (w : Worker) : Bool :=
  match w.pc with
  | .claimed u => decide (u = t)
  | .executing u => decide (u = t)
  | _ => false

/-- The relation between the counters of the pool and the worker threads that
holds between any two atomic segments of an execution without
`thread_pool_delete` on a pool created with the maximum `M`. -/
structure CountInv (M : Int) (s : System) : Prop where
  exit_idx : s.pool.thread_idx_that_should_exit = -1
  idx_nonneg : ∀ wk ∈ s.workers, 0 ≤ wk.idx
  no_exited : s.workers.countP Worker.is_exited = 0
  thread_count : s.pool.thread_count =
    s.workers.countP Worker.is_waiting + s.workers.countP Worker.is_busy
  idle : s.pool.idle_thread_count = s.workers.countP Worker.is_waiting
  running : s.pool.running_task_count = s.workers.countP Worker.is_busy
  threads_none : s.pool.threads = none ↔ s.workers = []
  max_pos : 1 ≤ s.pool.max_thread_count
  bound : s.pool.thread_count + s.workers.countP Worker.is_spawned ≤ s.pool.max_thread_count
  barrier :
    match s.pushers with
    | [] => s.workers.countP Worker.is_spawned = 0
    | [(_, required)] =>
      s.workers.countP Worker.is_spawned ≤ 1 ∧
      required = s.pool.thread_count + s.workers.countP Worker.is_spawned
    | _ => False
  max_eq : s.pool.max_thread_count = M

/-- Every task of `h` that is associated with the pool at address `a` is still
allocated and associated with it in `h1`. -/
def Heap.KeepsPool (a : Nat) (h h1 : Heap) : Prop :=
  ∀ t task, h t = some task → task.pool = some a →
    ∃ task1, h1 t = some task1 ∧ task1.pool = some a

/-- Every task pushed so far is allocated and associated with the pool. -/
def PushedInv (s : System) : Prop :=
  ∀ t ∈ s.pushed, ∃ task, s.tasks t = some task ∧ task.pool = some s.pool_addr

/-- The pending list that starts at `hd` holds exactly the tasks `L`, in this
order: each is allocated, its `next` leads to the following one, and the last
`next` is `NULL`. -/
def Chain (h : Heap) : Option Nat → List Nat → Prop
  | hd, [] => hd = none
  | hd, t :: L => hd = some t ∧ ∃ task, h t = some task ∧ Chain h task.next L

/-- Every allocated task has the function and argument it was created with, and is
not detached. -/
def Heap.Static (specs : List ((Int → Int) × Int)) (h : Heap) : Prop :=
  ∀ t task, h t = some task →
    ∃ fa, specs[t]? = some fa ∧ task.function = fa.1 ∧ task.arg = fa.2 ∧
      task.is_detached = false

/-- Where the pushed tasks are, in an execution on tasks created from `specs`: each
pushed task is in the pending list, in the hands of a worker, or completed
(as often as it was pushed), and a completed task holds its result. -/
structure TaskInv (specs : List ((Int → Int) × Int)) (s : System) : Prop where
  queue : ∃ L, Chain s.tasks s.pool.pending_task_list L ∧
    (L.length : Int) = s.pool.pending_task_count ∧
    ∀ t, s.pushed.count t = L.count t + s.workers.countP (Worker.holds t) + s.calls.count t
  static : Heap.Static specs s.tasks
  done : ∀ t ∈ s.calls, ∃ task, s.tasks t = some task ∧ task.is_finished = true ∧
    task.result = task.function task.arg

/-- The pending counter stays between 0 and the ceiling, and below the ceiling
while a caller of `thread_pool_push_task` waits at the spawn barrier. -/
structure PendingInv (cfg : Config) (s : System) : Prop where
  nonneg : 0 ≤ s.pool.pending_task_count
  ceiling : s.pool.pending_task_count ≤ cfg.TPOOL_MAX_TASKS ∨ s.pool.pending_task_count = 0
  barrier : s.pushers ≠ [] → s.pool.pending_task_count < cfg.TPOOL_MAX_TASKS

/-! ## The pending list as a list -/

/-- The tasks met when the pending list is read from `hd` along `next`, for at
most `n` links. -/
def pending_tasks (h : Heap) : Nat → Option Nat → List Nat
  | 0, _ => []
  | _ + 1, none => []
  | n + 1, some t =>
    t :: (match h t with
          | none => []
          | some task => pending_tasks h n task.next)

/-- The pending list of the pool, read for `pending_task_count` links. -/
def System.queue (s : System) : List Nat :=
  pending_tasks s.tasks s.pool.pending_task_count.toNat s.pool.pending_task_list

/-- A push is allowed only for a task that is not in the pending list. -/
def push_not_queued (s : System) : Event → Bool
  | .push t => !s.queue.contains t
  | _ => true

/-- A push is allowed only for a task that is neither in the pending list nor in
the hands of a worker. -/
def push_idle (s : System) : Event → Bool
  | .push t => !s.queue.contains t && !s.workers.any (Worker.holds t)
  | _ => true

/-- Run a sequence of steps, each of which must pass `guard` in the state where it
is taken. -/
def run_guarded (cfg : Config) (guard : System → Event → Bool) :
    System → List Event → Option System
  | s, [] => some s
  | s, e :: es =>
    if guard s e then
      match step cfg s e with
      | none => none
      | some s1 => run_guarded cfg guard s1 es
    else none

/-- The pending list is well formed: the links from the head give the list
`queue`, of `pending_task_count` different tasks, all associated with the
pool, and no task that a caller at the spawn barrier is about to enqueue. -/
structure QueueInv (s : System) : Prop where
  chain : Chain s.tasks s.pool.pending_task_list s.queue
  length : (s.queue.length : Int) = s.pool.pending_task_count
  nodup : s.queue.Nodup
  owned : ∀ t ∈ s.queue, ∃ task, s.tasks t = some task ∧ task.pool = some s.pool_addr
  barrier : ∀ p ∈ s.pushers, p.1 ∉ s.queue

/-- The worker has set `is_running` of the task `t` and has not completed it. -/
def Worker.runs (t : Nat) (w : Worker) : Bool :=
  match w.pc with
  | .executing u => decide (u = t)
  | _ => false

/-- The life cycle of the tasks, in an execution on tasks created from `specs` where
a task is pushed only when it is neither pending nor in the hands of a
worker: a task is in at most one of these places, `is_running` is set exactly
while a worker is past line 86 with the task, and `is_finished` is set
exactly while the task is in neither place and has been completed. -/
structure LifeInv (specs : List ((Int → Int) × Int)) (s : System) : Prop where
  static : Heap.Static specs s.tasks
  excl : ∀ t, s.queue.count t + s.workers.countP (Worker.holds t) ≤ 1
  barrier : ∀ p ∈ s.pushers, s.queue.count p.1 + s.workers.countP (Worker.holds p.1) = 0
  running : ∀ t task, s.tasks t = some task →
    (task.is_running = true ↔ 0 < s.workers.countP (Worker.runs t))
  finished : ∀ t task, s.tasks t = some task →
    (task.is_finished = true ↔
      (s.queue.count t = 0 ∧ s.workers.countP (Worker.holds t) = 0 ∧ t ∈ s.calls))

/-! ## Concrete instances used to exercise the definitions -/

/-- A configuration with the ceilings 20 (threads) and 100000 (tasks). -/
def cfg_demo : Config := { TPOOL_MAX_THREADS := 20, TPOOL_MAX_TASKS := 100000 }

/-- A configuration whose task ceiling is 1. -/
def cfg_one : Config := { TPOOL_MAX_THREADS := 20, TPOOL_MAX_TASKS := 1 }

/-- A new pool with the given maximum, as `thread_pool_new` builds it. -/
def pool_demo (max_thread_count : Int) : thread_pool :=
  { threads := none, max_thread_count := max_thread_count, thread_count := 0,
    idle_thread_count := 0, thread_idx_that_should_exit := -1,
    pending_task_count := 0, running_task_count := 0, pending_task_list := none }

/-- The task specifications of `n` tasks, the i-th returning `i` whatever its
argument. -/
def specs_index (n : Nat) : List ((Int → Int) × Int) :=
  (List.range n).map (fun i => (fun _ => (i : Int), 0))

/-- A system with a new pool of maximum `m` at address 1000 and `n` new tasks, the
i-th returning `i`. -/
def sys_demo (m : Int) (n : Nat) : System :=
  System.init 1000 (pool_demo m) (heap_of (specs_index n))

/-- The state reached from `init` by `evs`, or `init` itself when some step is not
possible. -/
def state_after (cfg : Config) (init : System) (evs : List Event) : System :=
  (run cfg init evs).getD init

/-- Two pushes on a pool of one worker, both before the worker dequeues. -/
def trace_two_pushes : List Event :=
  [.push 0, .register 0, .resume, .push 1]

/-- One push, and the worker dequeues the task. -/
def trace_one_running : List Event :=
  [.push 0, .register 0, .resume, .wake 0]

/-- A pool with 99999 pending tasks and one running task on one worker. -/
def pool_nearly_full : thread_pool :=
  { threads := some [0], max_thread_count := 1, thread_count := 1,
    idle_thread_count := 0, thread_idx_that_should_exit := -1,
    pending_task_count := 99999, running_task_count := 1,
    pending_task_list := some 1 }

/-- A run on a pool of four workers in which every worker is spawned, the last one
dequeuing an older task while the submitter of task 4 is at the spawn
barrier. -/
def trace_four_workers : List Event :=
  [.push 0, .register 0, .resume, .wake 0, .push 1, .register 1, .resume, .wake 1,
   .push 2, .register 2, .resume, .push 3, .wake 2, .push 4, .register 3]

/-- A run on a pool of two workers that ends quiescent: three tasks are pushed and
completed. -/
def trace_quiescent : List Event :=
  [.push 0, .register 0, .resume, .push 1, .wake 0, .start 0, .push 2, .register 1,
   .resume, .complete 0, .start 1, .start 0, .complete 1, .complete 0]

/-- A run on a pool of one worker after which task 1 is finished, task 0 is running
and task 2 is queued. -/
def trace_mixed : List Event :=
  [.push 0, .register 0, .resume, .push 1, .wake 0, .start 0, .complete 0, .start 0, .push 2]

/-- A run of 100 tasks on a pool of four workers: the first four pushes spawn the
workers, each of which dequeues the task just pushed; the other 96 tasks are
pushed while all workers are busy; then the workers complete their tasks and
dequeue the pending ones until the pool is quiescent. -/
def trace_hundred : List Event :=
  [.push 0, .register 0, .resume, .wake 0, .push 1, .register 1, .resume, .wake 1,
   .push 2, .register 2, .resume, .wake 2, .push 3, .register 3, .resume, .wake 3] ++
  (List.range 96).map (fun i => Event.push (i + 4)) ++
  [.start 0, .start 1, .start 2, .start 3] ++
  (List.range 96).flatMap (fun k => [Event.complete (k % 4), Event.start (k % 4)]) ++
  [.complete 0, .complete 1, .complete 2, .complete 3]

/-- The value that `thread_task_join` writes for the task at address `t`, when it
returns 0. -/
def join_result (s : System) (t : Nat) : Option Int :=
  match s.tasks t with
  | none => none
  | some task =>
    match thread_task_join task 0 with
    | .ret .ok (r, _) => some r
    | _ => none

/-- A continuation of `trace_mixed` that ends quiescent. -/
def trace_mixed_rest : List Event :=
  [.complete 0, .start 0, .complete 0]

/-- A run with the task ceiling 1 that reaches the ceiling. -/
def trace_full : List Event :=
  [.push 0, .register 0, .resume]

/-- Two pushes on a pool of one worker, then a second push of task 1 while it is
still in the pending list. -/
def trace_double_push : List Event :=
  [.push 0, .register 0, .resume, .push 1, .push 1]

/-- The worker dequeues and completes what the pending list gives it, twice. -/
def trace_double_push_rest : List Event :=
  [.wake 0, .start 0, .complete 0, .start 0, .complete 0]

/-- What an outcome returned, if it returned. -/
def Outcome.code {σ : Type} : Outcome σ → Option Ret
  | .ret c _ => some c
  | _ => none

/-- The state an outcome leaves, if any. -/
def Outcome.state {σ : Type} : Outcome σ → Option σ
  | .ret _ s => some s
  | .blocked s => some s
  | .fault => none

/-! ## Overlapping calls of `thread_pool_push_task` -/

/-- One atomic segment of one thread, when calls of `thread_pool_push_task` may
overlap. -/
inductive OverlapEvent where
  /-- a thread calls `thread_pool_push_task` on the task at address `t`, whether
  or not another caller is suspended at the spawn barrier -/
  | call (t : Nat)
  /-- the caller at position `i` among the suspended ones returns from
  `pthread_cond_wait(&pool->spawn_cv, ...)` -/
  | resume_at (i : Nat)
  /-- a segment of a worker thread -/
  | worker (e : Event)
  deriving DecidableEq, Repr

/-- The function `thread_pool_push_task` continued by the suspended caller at
position `i`: lines 193-207. -/
def thread_pool_push_task_resume_at (s : System) (i : Nat) : Outcome System :=
  match s.pushers[i]? with
  | none => .fault
  | some (t, required) => push_finish s t required (s.pushers.eraseIdx i)

/-- One step of the system when calls of `thread_pool_push_task` may overlap: a
call may start while other callers wait at the spawn barrier (the wait
releases the pool mutex), and any suspended caller may go on. -/
def step_overlap (cfg : Config) (s : System) : OverlapEvent → Option System
  | .call t => (thread_pool_push_task cfg s t).state
  | .resume_at i => (thread_pool_push_task_resume_at s i).state
  | .worker (.push _) => none
  | .worker .resume => none
  | .worker e => step cfg s e

/-- Run a sequence of steps with overlapping calls. -/
def run_overlap (cfg : Config) : System → List OverlapEvent → Option System
  | s, [] => some s
  | s, e :: es =>
    match step_overlap cfg s e with
    | none => none
    | some s1 => run_overlap cfg s1 es

/-- The state reached from `init` by `evs` with overlapping calls, or `init` itself
when some step is not possible. -/
def state_after_overlap (cfg : Config) (init : System) (evs : List OverlapEvent) : System :=
  (run_overlap cfg init evs).getD init

/-- Thread A pushes task 0 on a new pool and waits at the spawn barrier; thread B
pushes task 1 before the new worker has registered, and waits too; then the
two new workers register. -/
def trace_overlap : List OverlapEvent :=
  [.call 0, .call 1, .worker (.register 0), .worker (.register 1)]

/-- As `trace_overlap`, but thread A goes on as soon as the first worker has
registered. -/
def trace_overlap_one_returns : List OverlapEvent :=
  [.call 0, .call 1, .worker (.register 0), .resume_at 1, .worker (.register 1)]

/-! ## Worker indices and shutdown -/

/-- Positions, indices and handles of the worker threads agree: the worker whose
handle is `i` has the index `i`, `threads[i]` holds the handle `i`, and a
worker that has not yet registered is the last one created. -/
structure IdxInv (s : System) : Prop where
  idx : ∀ (i : Nat) (w : Worker), s.workers[i]? = some w → w.idx = (i : Int)
  threads : ∀ L, s.pool.threads = some L → L = List.range s.workers.length
  last : ∀ (i : Nat) (w : Worker), s.workers[i]? = some w → w.pc = .spawned →
    i + 1 = s.workers.length

/-- One atomic segment of one thread once `thread_pool_delete` has passed its test:
no call of `thread_pool_push_task` runs any more. -/
inductive ShutdownEvent where
  /-- the waiting worker `w` returns from `pthread_cond_wait` after the broadcast
  of line 145 -/
  | wake (w : Nat)
  /-- the caller of `thread_pool_delete` looks whether `pthread_join` can return -/
  | join
  deriving DecidableEq, Repr

/-- One step of the system during `thread_pool_delete`. -/
def step_shutdown (cfg : Config) (s : System) : ShutdownEvent → Option System
  | .wake w => step cfg s (.wake w)
  | .join => (thread_pool_delete_resume s).state

/-- Run a sequence of steps during `thread_pool_delete`. -/
def run_shutdown (cfg : Config) : System → List ShutdownEvent → Option System
  | s, [] => some s
  | s, e :: es =>
    match step_shutdown cfg s e with
    | none => none
    | some s1 => run_shutdown cfg s1 es

/-- Where the workers are while `thread_pool_delete` runs on a pool of `n` workers:
while the caller joins worker `i`, the index told to exit is `i`, the workers
below `i` have exited, those above `i` wait, and worker `i` waits or has
exited; once the pool is freed, all workers have exited. -/
structure ShutInv (n : Nat) (s : System) : Prop where
  length : s.workers.length = n
  idx : ∀ (j : Nat) (w : Worker), s.workers[j]? = some w → w.idx = (j : Int)
  pending : s.pool.pending_task_count < 1
  thread_count : s.pool.thread_count = n
  threads : 0 < n → s.pool.threads = some (List.range n)
  phase :
    match s.deleter with
    | none => False
    | some (.joining i) =>
      0 ≤ i ∧ i < n ∧ s.pool.thread_idx_that_should_exit = i ∧
      ∀ (j : Nat) (w : Worker), s.workers[j]? = some w →
        ((j : Int) < i → w.pc = .exited) ∧ (i < (j : Int) → w.pc = .waiting) ∧
        ((j : Int) = i → w.pc = .waiting ∨ w.pc = .exited)
    | some .freed => ∀ w ∈ s.workers, w.pc = .exited

/-- A shutdown of two workers in which worker 1 wakes up first, finds that it is
not the one told to exit and waits again. -/
def trace_shutdown : List ShutdownEvent :=
  [.wake 1, .join, .wake 0, .join, .wake 1, .join]

/-! ## Detaching a task of the system, and pushing a task that is being executed -/

/-- The client calls `thread_task_detach` on the task at address `t`: the code
returned and the system it leaves; `none` when no task is allocated at `t`.
The call takes only the task's mutex, which the worker takes in its
completion step (line 92), so it is one segment. -/
def System.detach (s : System) (t : Nat) : Option (Ret × System) :=
  match s.tasks t with
  | none => none
  | some task =>
    some ((thread_task_detach task).1,
      { s with tasks := s.tasks.set t (thread_task_detach task).2 })

/-- The state of one worker executing task 0, in which the client then calls
`thread_task_detach` on task 0. -/
def state_detached_running : System :=
  match (state_after cfg_demo (sys_demo 1 2) (trace_one_running ++ [.start 0])).detach 0 with
  | none => state_after cfg_demo (sys_demo 1 2) (trace_one_running ++ [.start 0])
  | some r => r.2

/-- One push, the worker dequeues the task and starts it, and the client pushes
the same task again while it is being executed. -/
def trace_repush_running : List Event :=
  [.push 0, .register 0, .resume, .wake 0, .start 0, .push 0]

/-- The worker completes the task, dequeues it again and starts it again. -/
def trace_repush_running_rest : List Event :=
  [.complete 0, .start 0]

end ThreadPool

/-!
# Coroutine file sorter (homework-01/solution.c)

A shallow embedding of `heap_sort` and of the merge loop of `main`.  An `int`
is an integer between `INT_MIN` and `INT_MAX`; an `int` operation whose result
leaves this range is undefined behaviour and stops the model with
`Err.overflow`.  The calls of `yield_if_necessary_record_work_time` touch only
the timers and the scheduler, never the array, and are left out.
-/

namespace Sorter

/-- The value of `INT_MAX` (`limits.h`, 32-bit `int`). -/
def INT_MAX : Int := 2147483647

/-- The value of `INT_MIN` (`limits.h`, 32-bit `int`). -/
def INT_MIN : Int := -2147483648

/-- Why an execution stopped without a result. -/
inductive Err where
  /-- an `int` operation overflowed -/
  | overflow
  /-- an array was read or written outside its bounds -/
  | out_of_bounds
  /-- the model was given too few steps -/
  | out_of_fuel
  deriving DecidableEq, Repr

/-- The result of an `int` operation whose mathematical value is `v`. -/
def int_result (v : Int) : Except Err Int :=
  if INT_MIN ≤ v ∧ v ≤ INT_MAX then .ok v else .error .overflow

/-- The read `array[i]`. -/
def array_get (array : List Int) (i : Int) : Except Err Int :=
  if 0 ≤ i then
    match array[i.toNat]? with
    | some v => .ok v
    | none => .error .out_of_bounds
  else .error .out_of_bounds

/-- The write `array[i] = v`. -/
def array_set (array : List Int) (i : Int) (v : Int) : Except Err (List Int) :=
  if 0 ≤ i ∧ i.toNat < array.length then .ok (array.set i.toNat v)
  else .error .out_of_bounds

/-- Lines 69-77 of `heap_sort` (and 98-106, with `bound = i`): the position of the
greatest among `array[j]` and its children below `bound`. -/
def pick_largest (array : List Int) (bound j : Int) : Except Err Int := do
  let left ← int_result (2 * j + 1)
  let right ← int_result (2 * j + 2)
  let largest1 ←
    if left < bound then do
      let al ← array_get array left
      let aj ← array_get array j
      pure (if al > aj then left else j)
    else pure j
  if right < bound then do
    let ar ← array_get array right
    let al ← array_get array largest1
    pure (if ar > al then right else largest1)
  else pure largest1

/-- Lines 81-83 of `heap_sort` (and 93-95, 110-112): exchange `array[i]` and
`array[j]`. -/
def exchange (array : List Int) (i j : Int) : Except Err (List Int) := do
  let tmp ← array_get array i
  let v ← array_get array j
  let array1 ← array_set array i v
  array_set array1 j tmp

/-- The loop `while (true)` of `heap_sort` (lines 68-90 with `bound = size`, lines
97-119 with `bound = i`): move `array[j]` down until no child below `bound`
is greater. -/
def sift_down : Nat → List Int → Int → Int → Except Err (List Int)
  | 0, _, _, _ => .error .out_of_fuel
  | fuel + 1, array, bound, j => do
    let largest ← pick_largest array bound j
    if largest = j then pure array
    else do
      let array1 ← exchange array j largest
      sift_down fuel array1 bound largest

/-- The first loop of `heap_sort` (lines 66-91), with `n` passes left: the next
pass has `i = n - 1`. -/
def build_heap (size : Int) : Nat → List Int → Except Err (List Int)
  | 0, array => pure array
  | n + 1, array => do
    let array1 ← sift_down size.toNat array size (n : Int)
    build_heap size n array1

/-- The second loop of `heap_sort` (lines 92-120), entered with `i = n`; it runs
while `i > 0`. -/
def sort_loop (size : Int) : Nat → List Int → Except Err (List Int)
  | 0, array => pure array
  | n + 1, array => do
    let array1 ← exchange array 0 ((n : Int) + 1)
    let array2 ← sift_down size.toNat array1 ((n : Int) + 1) 0
    sort_loop size n array2

/-- The function `heap_sort` on the array, without the timer arguments. -/
def heap_sort (array : List Int) (size : Int) : Except Err (List Int) := do
  let array1 ← build_heap size (size / 2).toNat array
  sort_loop size (size - 1).toNat array1

/-! ## The merge loop of `main` -/

/-- One pass of the body of the `for` loop at lines 312-320: `acc` is
`(min_value, min_value_idx)`. -/
def merge_scan_step (arrays : List (List Int)) (current_indices : List Nat)
    (acc : Int × Int) (i : Nat) : Int × Int :=
  match arrays[i]?, current_indices[i]? with
  | some a, some k =>
    match a[k]? with
    | some value => if value < acc.1 then (value, (i : Int)) else acc
    | none => acc
  | _, _ => acc

/-- Lines 310-320: find the smallest current value, starting from
`min_value = INT_MAX` and `min_value_idx = -1`. -/
def merge_scan (arrays : List (List Int)) (current_indices : List Nat) : Int × Int :=
  (List.range arrays.length).foldl (merge_scan_step arrays current_indices) (INT_MAX, -1)

/-- The loop `while (true)` at lines 306-327; `out` holds the values written so
far. -/
def merge_loop (arrays : List (List Int)) :
    Nat → List Nat → List Int → Except Err (List Int)
  | 0, _, _ => .error .out_of_fuel
  | fuel + 1, current_indices, out =>
    let r := merge_scan arrays current_indices
    if r.2 = -1 then .ok out
    else
      merge_loop arrays fuel
        (current_indices.set r.2.toNat (current_indices.getD r.2.toNat 0 + 1))
        (out ++ [r.1])

/-- Lines 299-327 of `main`: the values written to the output file, from the
arrays `global_sorted_arrays` (with `global_sorted_arrays_sizes[i]` the
length of the i-th array). -/
def merge (arrays : List (List Int)) : Except Err (List Int) :=
  merge_loop arrays ((arrays.map List.length).sum + 1) (List.replicate arrays.length 0) []

/-! ## Notions used to state what `heap_sort` does -/

/-- The array after the exchange of lines 81-83: the entries at `i` and `j` trade
places. -/
def swap (array : List Int) (i j : Nat) : List Int :=
  (array.set i (array.getD j 0)).set j (array.getD i 0)

/-- The index that lines 69-77 compute: the position of the greatest among
`array[j]` and its children below `bound`, the left child winning a tie with
the right one and `j` winning a tie with both. -/
def largest (array : List Int) (bound j : Nat) : Nat :=
  let largest1 :=
    if 2 * j + 1 < bound ∧ array.getD (2 * j + 1) 0 > array.getD j 0 then 2 * j + 1 else j
  if 2 * j + 2 < bound ∧ array.getD (2 * j + 2) 0 > array.getD largest1 0 then 2 * j + 2
  else largest1

/-- Every position from `lo` on holds a value that is not below the values of its
children below `bound`. -/
def HeapFrom (array : List Int) (lo bound : Nat) : Prop :=
  ∀ k, lo ≤ k →
    (2 * k + 1 < bound → array.getD (2 * k + 1) 0 ≤ array.getD k 0) ∧
    (2 * k + 2 < bound → array.getD (2 * k + 2) 0 ≤ array.getD k 0)

/-- As `HeapFrom`, except that the value at `j` may be too small: the positions
other than `j` are in order with their children, and the children of `j` are
in order with the parent of `j`. -/
def AlmostHeap (array : List Int) (lo bound j : Nat) : Prop :=
  (∀ k, lo ≤ k → k ≠ j →
    (2 * k + 1 < bound → array.getD (2 * k + 1) 0 ≤ array.getD k 0) ∧
    (2 * k + 2 < bound → array.getD (2 * k + 2) 0 ≤ array.getD k 0)) ∧
  (∀ p, lo ≤ p → (j = 2 * p + 1 ∨ j = 2 * p + 2) →
    (2 * j + 1 < bound → array.getD (2 * j + 1) 0 ≤ array.getD p 0) ∧
    (2 * j + 2 < bound → array.getD (2 * j + 2) 0 ≤ array.getD p 0))

/-- The array of `n` entries that holds `-k` at position `k`. -/
def descending (n : Nat) : List Int :=
  (List.range n).map (fun (k : Nat) => -(k : Int))

end Sorter

/-!
# User-space file system (homework-03/userfs.c)

A shallow embedding of `ufs_open`, `ufs_write` and `ufs_read`.  The blocks of
a file, linked through `next` from `first_block`, are the list `blocks`;
`last_block` is its last element (the code appends at `last_block` only, and
never reads `prev`).  A `struct block *` that walks the chain is a position in
that list, `NULL` past its end.  File records live at the positions of
`files`; `file_list` holds their addresses in list order.  A call whose
behaviour is undefined (it dereferences `NULL` or a pointer that was never
set) gives `none`.
-/

namespace UserFs

/-- The constant `BLOCK_SIZE`. -/
def BLOCK_SIZE : Nat := 512

/-- The constant `MAX_FILE_SIZE`. -/
def MAX_FILE_SIZE : Nat := 1024 * 1024 * 100

/-- The error codes that the source uses; `userfs.h`, which declares them, is not
part of the sources. -/
inductive ufs_error_code where
  | UFS_ERR_NO_ERR
  | UFS_ERR_NO_FILE
  | UFS_ERR_NO_MEM
  | UFS_ERR_NO_PERMISSION
  | UFS_ERR_NOT_IMPLEMENTED
  deriving DecidableEq, Repr

/-- What the source takes from outside: the open flags of `userfs.h` (a header that
is not part of the sources), and the bytes that `malloc(BLOCK_SIZE)` memory
holds before it is written. -/
structure Config where
  UFS_CREATE : Nat
  UFS_READ_ONLY : Nat
  UFS_WRITE_ONLY : Nat
  UFS_READ_WRITE : Nat
  malloc_bytes : Nat → Nat

/-- The record `struct block`: `memory` gives the byte at each position. -/
structure block where
  memory : Nat → Nat
  occupied : Int

/-- The record `struct file`. -/
structure file where
  blocks : List block
  refs : Int
  size : Nat
  name : String

/-- The record `struct filedesc`; `file` is the address of the file record. -/
structure filedesc where
  file : Nat
  open_flags : Nat
  offset : Nat
  deriving DecidableEq, Repr

/-- An entry of the array `file_descriptors`: `NULL`, a descriptor, or memory that
`realloc` added and nobody has set. -/
inductive Slot where
  | null
  | unset
  | desc (d : filedesc)
  deriving DecidableEq, Repr

/-- The global variables of `userfs.c`. -/
structure State where
  ufs_error_code : ufs_error_code
  files : List file
  file_list : List Nat
  file_descriptors : List Slot
  file_descriptor_used : Int
  file_descriptor_capacity : Int

/-- The state before the first call. -/
def State.init : State :=
  { ufs_error_code := .UFS_ERR_NO_ERR, files := [], file_list := [],
    file_descriptors := [], file_descriptor_used := 0, file_descriptor_capacity := 0 }

/-- Lines 138-143 of `ufs_open` (and 396-401 of `ufs_delete`): the first file of
`file_list` with this name. -/
def find_file (st : State) (filename : String) : Option Nat :=
  st.file_list.find? (fun a =>
    match st.files[a]? with
    | some f => f.name == filename
    | none => false)

/-- Lines 132-134 of `ufs_open`: the flags the descriptor gets. -/
def open_flags (cfg : Config) (flags : Nat) : Nat :=
  if flags &&& cfg.UFS_READ_ONLY = 0 ∧ flags &&& cfg.UFS_WRITE_ONLY = 0 then
    flags ||| cfg.UFS_READ_WRITE
  else flags

/-- The test of lines 238-239 of `ufs_write`, negated. -/
def can_write (cfg : Config) (flags : Nat) : Bool :=
  !(decide (flags &&& cfg.UFS_WRITE_ONLY = 0) && decide (flags &&& cfg.UFS_READ_WRITE = 0))

/-- The test of lines 321-322 of `ufs_read`, negated. -/
def can_read (cfg : Config) (flags : Nat) : Bool :=
  !(decide (flags &&& cfg.UFS_READ_ONLY = 0) && decide (flags &&& cfg.UFS_READ_WRITE = 0))

/-- Lines 145-172 of `ufs_open`: the file with this name, created when there is
none and `UFS_CREATE` is set. -/
def open_file (cfg : Config) (st : State) (filename : String) (flags : Nat) :
    Option (State × Nat) :=
  match find_file st filename with
  | some a => some (st, a)
  | none =>
    if flags &&& cfg.UFS_CREATE = 0 then none
    else
      some ({ st with files := st.files ++ [{ blocks := [], refs := 0, size := 0,
                                               name := filename }],
                      file_list := st.files.length :: st.file_list },
            st.files.length)

/-- Lines 174-185 of `ufs_open`: create the descriptor array on first use. -/
def init_descriptors (st : State) : State :=
  if st.file_descriptor_capacity ≤ 0 then
    { st with file_descriptors := List.replicate 10 Slot.null,
              file_descriptor_capacity := 10, file_descriptor_used := 0 }
  else st

/-- Lines 213-220 of `ufs_open`: put a new descriptor of the file at address `a`
into the slot `idx` and return `idx + 1`. -/
def install_descriptor (st : State) (idx : Nat) (a : Nat) (flags : Nat) :
    Option (Int × State) :=
  match st.files[a]? with
  | none => none
  | some f =>
    if idx < st.file_descriptors.length then
      some ((idx : Int) + 1,
        { st with
          file_descriptors :=
            st.file_descriptors.set idx (.desc { file := a, open_flags := flags, offset := 0 }),
          file_descriptor_used := st.file_descriptor_used + 1,
          files := st.files.set a { f with refs := f.refs + 1 } })
    else none

/-- The function `ufs_open`. -/
def ufs_open (cfg : Config) (st : State) (filename : String) (flags : Nat) :
    Option (Int × State) :=
  let flags1 := open_flags cfg flags
  match open_file cfg st filename flags1 with
  | none => some (-1, { st with ufs_error_code := .UFS_ERR_NO_FILE })
  | some (st1, a) =>
    let st2 := init_descriptors st1
    if st2.file_descriptor_used < st2.file_descriptor_capacity then
      match (st2.file_descriptors.take st2.file_descriptor_capacity.toNat).findIdx?
          (fun s => decide (s = Slot.null)) with
      | none => some (-1, { st2 with ufs_error_code := .UFS_ERR_NOT_IMPLEMENTED })
      | some idx => install_descriptor st2 idx a flags1
    else
      install_descriptor
        { st2 with
          file_descriptors := st2.file_descriptors ++
            List.replicate st2.file_descriptor_capacity.toNat Slot.unset,
          file_descriptor_capacity := st2.file_descriptor_capacity * 2 }
        st2.file_descriptor_used.toNat a flags1

/-- The descriptor that `fd` names, as `ufs_write` and `ufs_read` look it up (lines
224-236 and 307-319): `some none` stands for the error return. -/
def lookup (st : State) (fd : Int) : Option (Option filedesc) :=
  if fd - 1 < 0 ∨ fd - 1 ≥ st.file_descriptor_capacity then some none
  else
    match st.file_descriptors[(fd - 1).toNat]? with
    | none => none
    | some .null => some none
    | some .unset => none
    | some (.desc d) => some (some d)

/-- Lines 256-259 of `ufs_write`: follow `next` for `n` blocks, from the position
`k` in a chain of `len` blocks; `none` is the dereference of `NULL`. -/
def walk_write (len : Nat) : Nat → Nat → Option Nat
  | 0, k => some k
  | n + 1, k => if k < len then walk_write len n (k + 1) else none

/-- The copy `memcpy(memory + at, src, n)` with `n` the length of `src`. -/
def memcpy (memory : Nat → Nat) (pos : Nat) (src : List Nat) : Nat → Nat :=
  fun i => if pos ≤ i ∧ i < pos + src.length then src.getD (i - pos) 0 else memory i

/-- Lines 265-281 of `ufs_write`: the block to write into, a new one at the end of
the file when `block` is `NULL` or full.  The result is the chain and the
position of the block. -/
def write_block (cfg : Config) (blocks : List block) (k : Nat) : List block × Nat :=
  match blocks[k]? with
  | none => (blocks ++ [{ memory := cfg.malloc_bytes, occupied := 0 }], blocks.length)
  | some b =>
    if b.occupied = BLOCK_SIZE then
      (blocks ++ [{ memory := cfg.malloc_bytes, occupied := 0 }], blocks.length)
    else (blocks, k)

/-- Lines 283-295 of `ufs_write`: copy what fits into the block at position `k`. -/
def write_bytes (blocks : List block) (k : Nat) (write_from : Nat) (src : List Nat) :
    List block :=
  match blocks[k]? with
  | none => blocks
  | some b =>
    blocks.set k
      { memory := memcpy b.memory write_from src,
        occupied :=
          if ((write_from + src.length : Nat) : Int) > b.occupied then
            ((write_from + src.length : Nat) : Int)
          else b.occupied }

/-- The loop of lines 262-296 of `ufs_write`: `k` is the position of `block` (past
the end for `NULL`), `buf` holds the bytes not yet written.  The result is
the chain and the offset. -/
def write_loop (cfg : Config) : Nat → List block → Nat → Nat → List Nat →
    Option (List block × Nat)
  | 0, blocks, _, offset, buf => if buf = [] then some (blocks, offset) else none
  | fuel + 1, blocks, k, offset, buf =>
    if buf = [] then some (blocks, offset)
    else
      let write_from := offset % BLOCK_SIZE
      let r := write_block cfg blocks k
      let bytes_to_write :=
        if buf.length > BLOCK_SIZE - write_from then BLOCK_SIZE - write_from else buf.length
      write_loop cfg fuel (write_bytes r.1 r.2 write_from (buf.take bytes_to_write)) r.2
        (offset + bytes_to_write) (buf.drop bytes_to_write)

/-- The function `ufs_write`; `size` is the length of `buf`. -/
def ufs_write (cfg : Config) (st : State) (fd : Int) (buf : List Nat) : Option (Int × State) :=
  match lookup st fd with
  | none => none
  | some none => some (-1, { st with ufs_error_code := .UFS_ERR_NO_FILE })
  | some (some d) =>
    if can_write cfg d.open_flags = false then
      some (-1, { st with ufs_error_code := .UFS_ERR_NO_PERMISSION })
    else if buf.length = 0 then some (0, st)
    else
      match st.files[d.file]? with
      | none => none
      | some f =>
        if (f.size + buf.length) % 2 ^ 64 > MAX_FILE_SIZE then
          some (-1, { st with ufs_error_code := .UFS_ERR_NO_MEM })
        else
          match walk_write f.blocks.length (d.offset / BLOCK_SIZE) 0 with
          | none => none
          | some k =>
            match write_loop cfg buf.length f.blocks k d.offset buf with
            | none => none
            | some (blocks1, offset1) =>
              some ((buf.length : Int),
                { st with
                  file_descriptors :=
                    st.file_descriptors.set (fd - 1).toNat (.desc { d with offset := offset1 }),
                  files := st.files.set d.file
                    { f with blocks := blocks1,
                             size := if offset1 > f.size then offset1 else f.size } })

/-- Lines 328-335 of `ufs_read`: follow `next` for `n` blocks; `none` is the early
return at `NULL`. -/
def walk_read : Nat → List block → Option (List block)
  | 0, bs => some bs
  | _ + 1, [] => none
  | n + 1, _ :: bs => walk_read n bs

/-- The conversion `(int)` of a `size_t`. -/
def to_int (n : Nat) : Int :=
  if n % 2 ^ 32 < 2 ^ 31 then ((n % 2 ^ 32 : Nat) : Int) else ((n % 2 ^ 32 : Nat) : Int) - 2 ^ 32

/-- The conversion `(ssize_t)` of a `size_t`. -/
def to_ssize (n : Nat) : Int :=
  if n % 2 ^ 64 < 2 ^ 63 then ((n % 2 ^ 64 : Nat) : Int) else ((n % 2 ^ 64 : Nat) : Int) - 2 ^ 64

/-- The loop of lines 343-360 of `ufs_read`: `bs` is the chain from `block` on,
`out` the bytes copied to `buf` so far.  The result is `read_count`, the
bytes copied and the offset. -/
def read_loop (size : Nat) : List block → Nat → Int → List Nat → Option (Int × List Nat × Nat)
  | [], offset, read_count, out => some (read_count, out, offset)
  | b :: bs, offset, read_count, out =>
    if read_count < to_ssize size then
      let block_offset := Int.tmod (to_int offset) BLOCK_SIZE
      if block_offset - b.occupied ≥ 0 then some (read_count, out, offset)
      else if block_offset < 0 then none
      else
        let bytes_to_copy :=
          if (b.occupied - block_offset).toNat > size - read_count.toNat then
            size - read_count.toNat
          else (b.occupied - block_offset).toNat
        read_loop size bs (offset + bytes_to_copy) (read_count + bytes_to_copy)
          (out ++ (List.range bytes_to_copy).map (fun i => b.memory (block_offset.toNat + i)))
    else some (read_count, out, offset)

/-- The function `ufs_read`: the return value, the bytes copied to `buf` and the
new state. -/
def ufs_read (cfg : Config) (st : State) (fd : Int) (size : Nat) :
    Option (Int × List Nat × State) :=
  match lookup st fd with
  | none => none
  | some none => some (-1, [], { st with ufs_error_code := .UFS_ERR_NO_FILE })
  | some (some d) =>
    if can_read cfg d.open_flags = false then
      some (-1, [], { st with ufs_error_code := .UFS_ERR_NO_PERMISSION })
    else
      match st.files[d.file]? with
      | none => none
      | some f =>
        match walk_read (d.offset / BLOCK_SIZE) f.blocks with
        | none => some (0, [], st)
        | some bs =>
          if d.offset ≥ f.size then some (0, [], st)
          else
            match read_loop size bs d.offset 0 [] with
            | none => none
            | some (read_count, out, offset1) =>
              some (read_count, out,
                { st with
                  file_descriptors :=
                    st.file_descriptors.set (fd - 1).toNat (.desc { d with offset := offset1 }) })

/-! ## What a file holds -/

/-- The chain `blocks` has `len` blocks and holds the bytes `c`, laid out block
after block: the block at position `i` holds the bytes of `c` from
`BLOCK_SIZE * i` on, as many as there are, at most `BLOCK_SIZE`. -/
structure Laid (blocks : List block) (c : List Nat) (len : Nat) : Prop where
  length : blocks.length = len
  occupied : ∀ (i : Nat) (b : block), blocks[i]? = some b →
    b.occupied = ((min BLOCK_SIZE (c.length - BLOCK_SIZE * i) : Nat) : Int)
  memory : ∀ (i : Nat) (b : block) (j : Nat), blocks[i]? = some b → j < BLOCK_SIZE →
    BLOCK_SIZE * i + j < c.length → b.memory j = c.getD (BLOCK_SIZE * i + j) 0

/-- The file at address `a` has the name `name`, the recorded size of `c`, and
holds exactly the bytes `c` in as few blocks as possible. -/
def FileHas (st : State) (a : Nat) (name : String) (c : List Nat) : Prop :=
  ∃ f, st.files[a]? = some f ∧ f.name = name ∧ f.size = c.length ∧
    Laid f.blocks c ((c.length + (BLOCK_SIZE - 1)) / BLOCK_SIZE)

/-- The descriptor array has as many entries as `file_descriptor_capacity` says. -/
def WellFormed (st : State) : Prop :=
  (st.file_descriptors.length : Int) = st.file_descriptor_capacity

/-- What successive reads with the buffer sizes `sizes` give on a file that holds
`b` from the current offset on: each read returns the next bytes, as many as
the buffer takes and the file still has. -/
def chop : List Nat → List Nat → List (Int × List Nat)
  | _, [] => []
  | b, m :: ms => (((b.take m).length : Int), b.take m) :: chop (b.drop m) ms

/-! ## Concrete instances used to exercise the definitions -/

/-- A configuration with the flag values 1, 2, 4, 8 and new memory filled with
the byte 170. -/
def cfg_fs : Config :=
  { UFS_CREATE := 1, UFS_READ_ONLY := 2, UFS_WRITE_ONLY := 4, UFS_READ_WRITE := 8,
    malloc_bytes := fun _ => 170 }

/-- Write each of `chunks` in turn through `fd`; the result is the return values
and the last state. -/
def write_all (cfg : Config) (fd : Int) : State → List (List Nat) → Option (List Int × State)
  | st, [] => some ([], st)
  | st, c :: cs =>
    match ufs_write cfg st fd c with
    | none => none
    | some (r, st1) =>
      match write_all cfg fd st1 cs with
      | none => none
      | some (rs, st2) => some (r :: rs, st2)

/-- Read with each of the buffer sizes `sizes` in turn through `fd`; the result is
the return value and the bytes of each call, and the last state. -/
def read_all (cfg : Config) (fd : Int) :
    State → List Nat → Option (List (Int × List Nat) × State)
  | st, [] => some ([], st)
  | st, m :: ms =>
    match ufs_read cfg st fd m with
    | none => none
    | some (r, out, st1) =>
      match read_all cfg fd st1 ms with
      | none => none
      | some (rs, st2) => some ((r, out) :: rs, st2)

/-- Create the file "f" and write `data` to it; open it again, read `skip` bytes
and write `patch` at that offset; open it a third time and read up to 2000
bytes.  The result is what the two writes returned, what the last read
returned with its bytes, and the recorded size of the file. -/
def overwrite_run (data : List Nat) (skip : Nat) (patch : List Nat) :
    Option (Int × Int × Int × List Nat × Nat) :=
  match ufs_open cfg_fs State.init "f" 1 with
  | none => none
  | some (fd1, st1) =>
    match ufs_write cfg_fs st1 fd1 data with
    | none => none
    | some (w1, st2) =>
      match ufs_open cfg_fs st2 "f" 0 with
      | none => none
      | some (fd2, st3) =>
        match ufs_read cfg_fs st3 fd2 skip with
        | none => none
        | some (_, _, st4) =>
          match ufs_write cfg_fs st4 fd2 patch with
          | none => none
          | some (w2, st5) =>
            match ufs_open cfg_fs st5 "f" 0 with
            | none => none
            | some (fd3, st6) =>
              match ufs_read cfg_fs st6 fd3 2000 with
              | none => none
              | some (r, out, st7) =>
                match st7.files[0]? with
                | none => none
                | some f => some (w1, w2, r, out, f.size)

/-- Create the file "f", write `chunks` to it one after the other, open it again
for reading and read with the buffer sizes `sizes`.  The result is what the
writes returned and what each read returned, with its bytes. -/
def round_trip_run (chunks : List (List Nat)) (sizes : List Nat) :
    Option (List Int × List (Int × List Nat)) :=
  match ufs_open cfg_fs State.init "f" 1 with
  | none => none
  | some (fd1, st1) =>
    match write_all cfg_fs fd1 st1 chunks with
    | none => none
    | some (ws, st2) =>
      match ufs_open cfg_fs st2 "f" 2 with
      | none => none
      | some (fd2, st3) =>
        match read_all cfg_fs fd2 st3 sizes with
        | none => none
        | some (rs, _) => some (ws, rs)

/-- The state after `ufs_open("f", UFS_CREATE)` as the first call. -/
def state_opened : State :=
  ((ufs_open cfg_fs State.init "f" 1).map (fun r => r.2)).getD State.init

end UserFs

/-! # Theorems -/

namespace ThreadPool

/-! ## Basic facts about the segments -/

theorem countP_set_add {α : Type} (p : α → Bool) (l : List α) (i : Nat) (a x : α)
    (h : l[i]? = some x) :
    (l.set i a).countP p + (if p x then 1 else 0) = l.countP p + (if p a then 1 else 0) := by
  induction l generalizing i with
  | nil => simp at h
  | cons y ys ih =>
    cases i with
    | zero =>
      simp only [List.getElem?_cons_zero, Option.some.injEq] at h
      subst h
      simp only [List.set_cons_zero, List.countP_cons]
      omega
    | succ j =>
      simp only [List.getElem?_cons_succ] at h
      have := ih j h
      simp only [List.set_cons_succ, List.countP_cons]
      omega

theorem run_state_after {cfg : Config} {init : System} {evs : List Event}
    (h : (run cfg init evs).isSome = true) :
    run cfg init evs = some (state_after cfg init evs) := by
  unfold state_after
  cases hr : run cfg init evs with
  | none => simp [hr] at h
  | some s => rfl

theorem run_invariant (cfg : Config) (Inv : System → Prop)
    (hstep : ∀ s e s1, Inv s → step cfg s e = some s1 → Inv s1) :
    ∀ (evs : List Event) (s s1 : System), Inv s → run cfg s evs = some s1 → Inv s1 := by
  intro evs
  induction evs with
  | nil =>
    intro s s1 hs h
    simp only [run, Option.some.injEq] at h
    exact h ▸ hs
  | cons e es ih =>
    intro s s1 hs h
    simp only [run] at h
    cases hst : step cfg s e with
    | none => simp [hst] at h
    | some s2 =>
      rw [hst] at h
      exact ih s2 s1 (hstep s e s2 hs hst) h

theorem thread_worker_take_inv {pool p1 : thread_pool} {h h1 : Heap} {t : Nat}
    (e : thread_worker_take pool h = some (p1, h1, t)) :
    ∃ task, pool.pending_task_list = some t ∧ h t = some task ∧
      p1 = { pool with pending_task_list := task.next,
                       idle_thread_count := pool.idle_thread_count - 1,
                       pending_task_count := pool.pending_task_count - 1,
                       running_task_count := pool.running_task_count + 1 } ∧
      h1 = h.set t (some { task with next := none }) := by
  unfold thread_worker_take at e
  cases hh : pool.pending_task_list with
  | none => simp [hh] at e
  | some u =>
    rw [hh] at e
    cases hu : h u with
    | none => simp [hu] at e
    | some task =>
      simp only [hu, Option.some.injEq, Prod.mk.injEq] at e
      obtain ⟨e1, e2, e3⟩ := e
      subst e3
      exact ⟨task, rfl, hu, e1.symm, e2.symm⟩

theorem thread_worker_after_wait_inv {pool p1 : thread_pool} {h h1 : Heap} {idx : Int}
    {pc : WorkerPc} (hx : pool.thread_idx_that_should_exit ≠ idx)
    (e : thread_worker_after_wait pool h idx = some (p1, h1, pc)) :
    ∃ t, pc = .claimed t ∧ thread_worker_take pool h = some (p1, h1, t) := by
  unfold thread_worker_after_wait at e
  rw [if_neg hx] at e
  cases ht : thread_worker_take pool h with
  | none => simp [ht] at e
  | some r =>
    obtain ⟨p2, h2, t⟩ := r
    simp only [ht, Option.some.injEq, Prod.mk.injEq] at e
    obtain ⟨e1, e2, e3⟩ := e
    subst e1 e2 e3
    exact ⟨t, rfl, rfl⟩

theorem thread_worker_wake_inv {pool p1 : thread_pool} {h h1 : Heap} {idx : Int}
    {pc : WorkerPc} (hx : pool.thread_idx_that_should_exit ≠ idx)
    (e : thread_worker_wake pool h idx = some (p1, h1, pc)) :
    (pc = .waiting ∧ p1 = pool ∧ h1 = h ∧ pool.pending_task_count < 1) ∨
    (∃ t, pc = .claimed t ∧ 1 ≤ pool.pending_task_count ∧
      thread_worker_take pool h = some (p1, h1, t)) := by
  unfold thread_worker_wake at e
  by_cases hw : pool.pending_task_count < 1
  · have : thread_worker_must_wait pool idx = true := by
      simp [thread_worker_must_wait, hw, hx]
    rw [if_pos this] at e
    simp only [Option.some.injEq, Prod.mk.injEq] at e
    exact Or.inl ⟨e.2.2.symm, e.1.symm, e.2.1.symm, hw⟩
  · have : ¬ thread_worker_must_wait pool idx = true := by
      simp [thread_worker_must_wait, hw]
    rw [if_neg this] at e
    obtain ⟨t, h1t, h2t⟩ := thread_worker_after_wait_inv hx e
    exact Or.inr ⟨t, h1t, by omega, h2t⟩

theorem thread_worker_loop_inv {pool p1 : thread_pool} {h h1 : Heap} {idx : Int}
    {pc : WorkerPc} (hx : pool.thread_idx_that_should_exit ≠ idx)
    (e : thread_worker_loop pool h idx = some (p1, h1, pc)) :
    (pc = .waiting ∧ p1 = { pool with idle_thread_count := pool.idle_thread_count + 1 } ∧
      h1 = h ∧ pool.pending_task_count < 1) ∨
    (∃ t, pc = .claimed t ∧ 1 ≤ pool.pending_task_count ∧
      thread_worker_take { pool with idle_thread_count := pool.idle_thread_count + 1 } h =
        some (p1, h1, t)) :=
  @thread_worker_wake_inv { pool with idle_thread_count := pool.idle_thread_count + 1 }
    p1 h h1 idx pc hx e

theorem Heap.set_same (h : Heap) (a : Nat) (v : Option thread_task) : h.set a v a = v := by
  simp [Heap.set]

theorem Heap.set_other (h : Heap) (a b : Nat) (v : Option thread_task) (hne : b ≠ a) :
    h.set a v b = h b := by
  simp [Heap.set, hne]

theorem push_enqueue_eq {pool_addr : Nat} {pool : thread_pool} {h : Heap} {t : Nat}
    {task : thread_task} (ht : h t = some task) :
    push_enqueue pool_addr pool h t =
      some ({ pool with pending_task_list := some t,
                        pending_task_count := pool.pending_task_count + 1 },
            h.set t (some { task with pool := some pool_addr,
                                      next := pool.pending_task_list,
                                      is_finished := false, is_running := false })) := by
  simp [push_enqueue, ht]

theorem thread_worker_take_eq {pool : thread_pool} {h : Heap} {t : Nat} {task : thread_task}
    (hh : pool.pending_task_list = some t) (ht : h t = some task) :
    thread_worker_take pool h =
      some ({ pool with pending_task_list := task.next,
                        idle_thread_count := pool.idle_thread_count - 1,
                        pending_task_count := pool.pending_task_count - 1,
                        running_task_count := pool.running_task_count + 1 },
            h.set t (some { task with next := none }), t) := by
  simp [thread_worker_take, hh, ht]

theorem step_push_inv {cfg : Config} {s s1 : System} {t : Nat}
    (e : step cfg s (.push t) = some s1) :
    s.pushers = [] ∧ (thread_pool_push_task cfg s t).state = some s1 := by
  simp only [step] at e
  cases hp : s.pushers with
  | cons a l => simp [hp] at e
  | nil =>
    simp only [hp] at e
    refine ⟨rfl, ?_⟩
    cases ho : thread_pool_push_task cfg s t with
    | ret c s2 => simpa [ho, Outcome.state] using e
    | blocked s2 => simpa [ho, Outcome.state] using e
    | fault => simp [ho] at e

theorem step_resume_inv {cfg : Config} {s s1 : System}
    (e : step cfg s .resume = some s1) :
    (thread_pool_push_task_resume s).state = some s1 := by
  simp only [step] at e
  cases ho : thread_pool_push_task_resume s with
  | ret c s2 => simpa [ho, Outcome.state] using e
  | blocked s2 => simpa [ho, Outcome.state] using e
  | fault => simp [ho] at e

theorem step_register_inv {cfg : Config} {s s1 : System} {w : Nat}
    (e : step cfg s (.register w) = some s1) :
    ∃ idx r, s.workers[w]? = some ⟨idx, .spawned⟩ ∧
      thread_worker_register s.pool s.tasks idx = some r ∧
      s1 = s.worker_update w ⟨idx, .spawned⟩ r := by
  simp only [step] at e
  split at e
  · rename_i idx hw
    cases hr : thread_worker_register s.pool s.tasks idx with
    | none => simp [hr] at e
    | some r =>
      simp only [hr, Option.map_some', Option.some.injEq] at e
      exact ⟨idx, r, hw, hr, e.symm⟩
  · simp at e

theorem step_wake_inv {cfg : Config} {s s1 : System} {w : Nat}
    (e : step cfg s (.wake w) = some s1) :
    ∃ idx r, s.workers[w]? = some ⟨idx, .waiting⟩ ∧
      thread_worker_wake s.pool s.tasks idx = some r ∧
      s1 = s.worker_update w ⟨idx, .waiting⟩ r := by
  simp only [step] at e
  split at e
  · rename_i idx hw
    cases hr : thread_worker_wake s.pool s.tasks idx with
    | none => simp [hr] at e
    | some r =>
      simp only [hr, Option.map_some', Option.some.injEq] at e
      exact ⟨idx, r, hw, hr, e.symm⟩
  · simp at e

theorem step_start_inv {cfg : Config} {s s1 : System} {w : Nat}
    (e : step cfg s (.start w) = some s1) :
    ∃ idx t h, s.workers[w]? = some ⟨idx, .claimed t⟩ ∧
      thread_worker_start s.tasks t = some h ∧
      s1 = { s with tasks := h, workers := s.workers.set w ⟨idx, .executing t⟩ } := by
  simp only [step] at e
  split at e
  · rename_i idx t hw
    cases hr : thread_worker_start s.tasks t with
    | none => simp [hr] at e
    | some h =>
      simp only [hr, Option.map_some', Option.some.injEq] at e
      exact ⟨idx, t, h, hw, hr, e.symm⟩
  · simp at e

theorem step_complete_inv {cfg : Config} {s s1 : System} {w : Nat}
    (e : step cfg s (.complete w) = some s1) :
    ∃ idx t pool1 h1 r, s.workers[w]? = some ⟨idx, .executing t⟩ ∧
      thread_worker_finish s.pool s.tasks t = some (pool1, h1) ∧
      thread_worker_loop pool1 h1 idx = some r ∧
      s1 = { s.worker_update w ⟨idx, .executing t⟩ r with calls := s.calls ++ [t] } := by
  simp only [step] at e
  split at e
  · rename_i idx t hw
    cases hf : thread_worker_finish s.pool s.tasks t with
    | none => simp [hf] at e
    | some q =>
      obtain ⟨pool1, h1⟩ := q
      simp only [hf] at e
      cases hr : thread_worker_loop pool1 h1 idx with
      | none => simp [hr] at e
      | some r =>
        simp only [hr, Option.map_some', Option.some.injEq] at e
        exact ⟨idx, t, pool1, h1, r, hw, hf, hr, e.symm⟩
  · simp at e

theorem push_finish_inv {s s1 : System} {t : Nat} {required : Int}
    {others : List (Nat × Int)}
    (e : (push_finish s t required others).state = some s1) :
    (s.pool.thread_count ≠ required ∧ s1 = { s with pushers := (t, required) :: others }) ∨
    (s.pool.thread_count = required ∧ ∃ task, s.tasks t = some task ∧
      s1 = { s with
        pool := { s.pool with pending_task_list := some t,
                              pending_task_count := s.pool.pending_task_count + 1 },
        tasks := s.tasks.set t (some { task with pool := some s.pool_addr,
                                                 next := s.pool.pending_task_list,
                                                 is_finished := false, is_running := false }),
        pushers := others, pushed := s.pushed ++ [t] }) := by
  unfold push_finish at e
  by_cases hc : s.pool.thread_count = required
  · right
    refine ⟨hc, ?_⟩
    simp only [hc, ne_eq, not_true_eq_false, if_false] at e
    cases ht : s.tasks t with
    | none => simp [push_enqueue, ht, Outcome.state] at e
    | some task =>
      rw [push_enqueue_eq ht] at e
      simp only [Outcome.state, Option.some.injEq] at e
      exact ⟨task, rfl, e.symm⟩
  · left
    simp only [ne_eq, hc, not_false_eq_true, if_true, Outcome.state, Option.some.injEq] at e
    exact ⟨hc, e.symm⟩

theorem push_spawn_cases (pool : thread_pool) (workers : List Worker) :
    (pool.threads = none ∧
      push_spawn pool workers =
        ({ pool with threads := some [workers.length] },
         workers ++ [{ idx := 0, pc := .spawned }], 1)) ∨
    (∃ ths ths1, pool.threads = some ths ∧ pool.idle_thread_count = 0 ∧
      pool.thread_count < pool.max_thread_count ∧
      push_spawn pool workers =
        ({ pool with threads := some ths1 },
         workers ++ [{ idx := pool.thread_count, pc := .spawned }],
         pool.thread_count + 1)) ∨
    (∃ ths, pool.threads = some ths ∧
      ¬ (pool.idle_thread_count = 0 ∧ pool.thread_count < pool.max_thread_count) ∧
      push_spawn pool workers = (pool, workers, pool.thread_count)) := by
  unfold push_spawn
  cases hth : pool.threads with
  | none => exact Or.inl ⟨rfl, rfl⟩
  | some ths =>
    by_cases hc : pool.idle_thread_count = 0 ∧ pool.thread_count < pool.max_thread_count
    · exact Or.inr (Or.inl ⟨ths, _, rfl, hc.1, hc.2, by dsimp only; rw [if_pos hc]⟩)
    · exact Or.inr (Or.inr ⟨ths, rfl, hc, by dsimp only; rw [if_neg hc]⟩)

/-! ## The counters and the worker threads -/

theorem countP_set_int (p : Worker → Bool) (ws : List Worker) (w : Nat) (wk wk1 : Worker)
    (hw : ws[w]? = some wk) :
    ((ws.set w wk1).countP p : Int) =
      ws.countP p + ((if p wk1 then 1 else 0) - (if p wk then 1 else 0)) := by
  have := countP_set_add p ws w wk1 wk hw
  split <;> split <;> simp_all
  all_goals omega

theorem CountInv.congr {M : Int} {s s1 : System} (inv : CountInv M s) (hp : s1.pool = s.pool)
    (hw : s1.workers = s.workers) (hq : s1.pushers = s.pushers) : CountInv M s1 := by
  obtain ⟨a1, a2, a3, a4, a5, a6, a7, a8, a9, a10, a11⟩ := inv
  constructor <;> simp only [hp, hw, hq] <;> assumption

theorem CountInv.update {M : Int} {s : System} (inv : CountInv M s) (pool1 : thread_pool) (h1 : Heap)
    (ws1 : List Worker) (dS dW dB : Int)
    (hS : (ws1.countP Worker.is_spawned : Int) = s.workers.countP Worker.is_spawned + dS)
    (hW : (ws1.countP Worker.is_waiting : Int) = s.workers.countP Worker.is_waiting + dW)
    (hB : (ws1.countP Worker.is_busy : Int) = s.workers.countP Worker.is_busy + dB)
    (hE : ws1.countP Worker.is_exited = 0)
    (hidx : ∀ wk ∈ ws1, 0 ≤ wk.idx)
    (hnil : ws1 = [] ↔ s.workers = [])
    (hexit : pool1.thread_idx_that_should_exit = -1)
    (hth : pool1.threads = s.pool.threads)
    (hmax : pool1.max_thread_count = s.pool.max_thread_count)
    (htc : pool1.thread_count = s.pool.thread_count + dW + dB)
    (hidle : pool1.idle_thread_count = s.pool.idle_thread_count + dW)
    (hrun : pool1.running_task_count = s.pool.running_task_count + dB)
    (hsum : dS + dW + dB = 0) (hdS : dS ≤ 0) :
    CountInv M { s with pool := pool1, tasks := h1, workers := ws1 } := by
  obtain ⟨a1, a2, a3, a4, a5, a6, a7, a8, a9, a10, a11⟩ := inv
  refine ⟨hexit, hidx, hE, ?_, ?_, ?_, ?_, ?_, ?_, ?_, hmax.trans a11⟩
  · simp only; omega
  · simp only; omega
  · simp only; omega
  · simp only [hth, hnil]; exact a7
  · simp only [hmax]; exact a8
  · simp only [hmax]; omega
  · simp only
    cases hq : s.pushers with
    | nil =>
      rw [hq] at a10
      simp only at a10 ⊢
      omega
    | cons a l =>
      obtain ⟨t, required⟩ := a
      cases l with
      | nil =>
        rw [hq] at a10
        simp only at a10 ⊢
        omega
      | cons b l2 =>
        rw [hq] at a10
        exact a10.elim

theorem set_idx_nonneg {ws : List Worker} (h : ∀ wk ∈ ws, 0 ≤ wk.idx) (w : Nat)
    (wk : Worker) (hwk : 0 ≤ wk.idx) : ∀ x ∈ ws.set w wk, 0 ≤ x.idx := by
  intro x hx
  rcases List.mem_or_eq_of_mem_set hx with h1 | h1
  · exact h x h1
  · exact h1 ▸ hwk

theorem CountInv.exit_ne {M : Int} {s : System} (inv : CountInv M s) {w : Nat} {wk : Worker}
    (hw : s.workers[w]? = some wk) : s.pool.thread_idx_that_should_exit ≠ wk.idx := by
  have := inv.idx_nonneg wk (List.getElem?_mem hw)
  rw [inv.exit_idx]
  omega

theorem CountInv.at_init (pool_addr : Nat) (pool : thread_pool) (tasks : Heap) (cfg : Config)
    (m : Int) (h : thread_pool_new cfg m = .ok pool) :
    CountInv m (System.init pool_addr pool tasks) := by
  unfold thread_pool_new at h
  split at h
  · simp at h
  · rename_i hc
    simp only [Except.ok.injEq] at h
    subst h
    constructor <;> simp [System.init] <;> omega

theorem thread_worker_finish_inv {pool pool1 : thread_pool} {h h1 : Heap} {t : Nat}
    (e : thread_worker_finish pool h t = some (pool1, h1)) :
    pool1 = { pool with running_task_count := pool.running_task_count - 1 } ∧
    ∃ task, h t = some task ∧
      ((task.is_detached = true ∧ h1 = h.set t (thread_task_delete task).2) ∨
       (task.is_detached = false ∧
        h1 = h.set t (some { task with is_running := false, is_finished := true,
                                       result := task.function task.arg }))) := by
  unfold thread_worker_finish at e
  cases ht : h t with
  | none => simp [ht] at e
  | some task =>
    simp only [ht] at e
    rcases Bool.eq_false_or_eq_true task.is_detached with hd | hd
    · rw [if_pos hd] at e
      cases hdel : (thread_task_delete task).2 with
      | none => simp [hdel] at e
      | some task1 =>
        simp only [hdel, Option.some.injEq, Prod.mk.injEq] at e
        exact ⟨e.1.symm, task, rfl, Or.inl ⟨hd, by rw [hdel]; exact e.2.symm⟩⟩
    · rw [if_neg (by simp [hd])] at e
      simp only [Option.some.injEq, Prod.mk.injEq] at e
      exact ⟨e.1.symm, task, rfl, Or.inr ⟨hd, e.2.symm⟩⟩

/-- A worker thread moves from one place of its code to another, and the
counters move with it. -/
theorem CountInv.worker_move {M : Int} {s : System} (inv : CountInv M s) {w : Nat} {wk wk1 : Worker}
    (hw : s.workers[w]? = some wk) (pool1 : thread_pool) (h1 : Heap)
    (hidx : wk1.idx = wk.idx) (hE : wk1.is_exited = false) (hS : wk1.is_spawned = false)
    (hexit : pool1.thread_idx_that_should_exit = -1)
    (hth : pool1.threads = s.pool.threads)
    (hmax : pool1.max_thread_count = s.pool.max_thread_count)
    (hidle : pool1.idle_thread_count = s.pool.idle_thread_count +
      ((if wk1.is_waiting then 1 else 0) - (if wk.is_waiting then 1 else 0)))
    (hrun : pool1.running_task_count = s.pool.running_task_count +
      ((if wk1.is_busy then 1 else 0) - (if wk.is_busy then 1 else 0)))
    (htc : pool1.thread_count = s.pool.thread_count +
      (if wk.is_spawned then 1 else 0)) :
    CountInv M { s with pool := pool1, tasks := h1, workers := s.workers.set w wk1 } := by
  have cS := countP_set_int Worker.is_spawned s.workers w wk wk1 hw
  have cW := countP_set_int Worker.is_waiting s.workers w wk wk1 hw
  have cB := countP_set_int Worker.is_busy s.workers w wk wk1 hw
  have cE := countP_set_int Worker.is_exited s.workers w wk wk1 hw
  have hmem := List.getElem?_mem hw
  have hEwk : wk.is_exited = false := by
    have := inv.no_exited
    rw [List.countP_eq_zero] at this
    simpa using this wk hmem
  have hcen : ∀ x : Worker, (if x.is_spawned then (1 : Int) else 0) +
      (if x.is_waiting then 1 else 0) + (if x.is_busy then 1 else 0) +
      (if x.is_exited then 1 else 0) = 1 := by
    intro x
    obtain ⟨i, pc⟩ := x
    cases pc <;> simp [Worker.is_spawned, Worker.is_waiting, Worker.is_busy, Worker.is_exited]
  have c1 := hcen wk
  have c2 := hcen wk1
  rw [hE, hS] at c2
  rw [hEwk] at c1
  rw [hE, hEwk] at cE
  rw [hS] at cS
  simp only [Bool.false_eq_true, if_false, add_zero, zero_add, sub_zero] at c1 c2 cE cS
  have hne : s.workers.set w wk1 = [] ↔ s.workers = [] := by simp
  refine inv.update pool1 h1 _ (0 - (if wk.is_spawned then 1 else 0))
    ((if wk1.is_waiting then 1 else 0) - (if wk.is_waiting then 1 else 0))
    ((if wk1.is_busy then 1 else 0) - (if wk.is_busy then 1 else 0))
    cS cW cB ?_ ?_ hne hexit hth hmax ?_ hidle hrun ?_ ?_
  · have := inv.no_exited
    omega
  · exact set_idx_nonneg inv.idx_nonneg w wk1 (hidx ▸ inv.idx_nonneg wk hmem)
  · rw [htc]
    split at c1 <;> split at c1 <;> split at c2 <;> simp_all
    all_goals omega
  · split at c1 <;> split at c1 <;> split at c2 <;> simp_all
    all_goals omega
  · split <;> omega

theorem CountInv.after_push_finish {M : Int} {s0 s1 : System} {t : Nat} {required : Int}
    (inv : CountInv M { s0 with pushers := [(t, required)] })
    (e : (push_finish s0 t required []).state = some s1) : CountInv M s1 := by
  rcases push_finish_inv e with ⟨_, h1⟩ | ⟨hc, task, _, h1⟩
  · exact h1 ▸ inv
  · subst h1
    obtain ⟨a1, a2, a3, a4, a5, a6, a7, a8, a9, a10, a11⟩ := inv
    simp only at a1 a2 a3 a4 a5 a6 a7 a8 a9 a10 a11
    refine ⟨a1, a2, a3, a4, a5, a6, a7, a8, a9, ?_, a11⟩
    simp only
    omega

theorem CountInv.spawn {M : Int} {s : System} (inv : CountInv M s) (hq : s.pushers = [])
    (t : Nat) :
    CountInv M { s with pool := (push_spawn s.pool s.workers).1,
                        workers := (push_spawn s.pool s.workers).2.1,
                        pushers := [(t, (push_spawn s.pool s.workers).2.2)] } := by
  obtain ⟨a1, a2, a3, a4, a5, a6, a7, a8, a9, a10, a11⟩ := inv
  rw [hq] at a10
  simp only at a10
  have hsp : ∀ i : Int, ([({ idx := i, pc := .spawned } : Worker)]).countP Worker.is_spawned = 1 ∧
      ([({ idx := i, pc := .spawned } : Worker)]).countP Worker.is_waiting = 0 ∧
      ([({ idx := i, pc := .spawned } : Worker)]).countP Worker.is_busy = 0 ∧
      ([({ idx := i, pc := .spawned } : Worker)]).countP Worker.is_exited = 0 := by
    intro i
    simp [Worker.is_spawned, Worker.is_waiting, Worker.is_busy, Worker.is_exited]
  have htc0 : 0 ≤ s.pool.thread_count := by omega
  rcases push_spawn_cases s.pool s.workers with ⟨hn, hr⟩ | ⟨ths, ths1, hn, hi, hlt, hr⟩ |
      ⟨ths, hn, hc, hr⟩
  · rw [hr]
    have hw := a7.mp hn
    simp only [hw, List.countP_nil, Nat.cast_zero, add_zero] at a4 a5 a6 a9
    obtain ⟨h1, h2, h3, h4⟩ := hsp 0
    refine ⟨a1, ?_, ?_, ?_, ?_, ?_, ?_, a8, ?_, ?_, a11⟩
    · simp [hw]
    · simp only [List.countP_append, h4]; omega
    · simp only [List.countP_append, h2, h3, hw, List.countP_nil]; omega
    · simp only [List.countP_append, h2, hw, List.countP_nil]; omega
    · simp only [List.countP_append, h3, hw, List.countP_nil]; omega
    · simp
    · simp only [List.countP_append, h1, hw, List.countP_nil]
      push_cast
      omega
    · simp only [List.countP_append, h1, hw, List.countP_nil]
      push_cast
      exact ⟨trivial, by omega⟩
  · rw [hr]
    obtain ⟨h1, h2, h3, h4⟩ := hsp s.pool.thread_count
    refine ⟨a1, ?_, ?_, ?_, ?_, ?_, ?_, a8, ?_, ?_, a11⟩
    · intro wk hwk
      simp only [List.mem_append, List.mem_singleton] at hwk
      rcases hwk with hwk | hwk
      · exact a2 wk hwk
      · subst hwk
        exact htc0
    · simp only [List.countP_append, h4]; omega
    · simp only [List.countP_append, h2, h3]; omega
    · simp only [List.countP_append, h2]; omega
    · simp only [List.countP_append, h3]; omega
    · simp only [List.append_eq_nil, List.cons_ne_self, and_false, iff_false]
      simp
    · simp only [List.countP_append, h1]
      push_cast
      omega
    · simp only [List.countP_append, h1]
      push_cast
      omega
  · rw [hr]
    refine ⟨a1, a2, a3, a4, a5, a6, a7, a8, a9, ?_, a11⟩
    simp only
    omega

/-- Every step of an execution keeps the relation between the counters and the
worker threads. -/
theorem CountInv.step_count {M : Int} {cfg : Config} {s s1 : System} {e : Event}
    (inv : CountInv M s) (hs : step cfg s e = some s1) : CountInv M s1 := by
  cases e with
  | push t =>
    obtain ⟨hq, ho⟩ := step_push_inv hs
    unfold thread_pool_push_task at ho
    split at ho
    · simp only [Outcome.state, Option.some.injEq] at ho
      exact ho ▸ inv
    · simp only [hq] at ho
      exact CountInv.after_push_finish (inv.spawn hq t) ho
  | resume =>
    have ho := step_resume_inv hs
    unfold thread_pool_push_task_resume at ho
    have hb := inv.barrier
    cases hq : s.pushers with
    | nil => simp [hq, Outcome.state] at ho
    | cons a l =>
      obtain ⟨t, required⟩ := a
      rw [hq] at hb ho
      cases l with
      | cons b l2 => exact hb.elim
      | nil =>
        simp only at ho
        have inv0 : CountInv M { s with pushers := [(t, required)] } :=
          inv.congr rfl rfl (by simp [hq])
        exact CountInv.after_push_finish inv0 ho
  | register w =>
    obtain ⟨idx, r, hw, hr, h1⟩ := step_register_inv hs
    obtain ⟨p1, h1', pc⟩ := r
    subst h1
    have hx := inv.exit_ne hw
    rcases thread_worker_loop_inv (by exact hx) hr with ⟨e1, e2, e3, _⟩ | ⟨t, e1, _, e2⟩
    · subst e1 e2 e3
      exact inv.worker_move hw _ _ rfl rfl rfl inv.exit_idx rfl rfl
        (by simp [Worker.is_waiting]) (by simp [Worker.is_busy]) (by simp [Worker.is_spawned])
    · obtain ⟨task, _, _, e3, e4⟩ := thread_worker_take_inv e2
      subst e1 e3 e4
      exact inv.worker_move hw _ _ rfl rfl rfl inv.exit_idx rfl rfl
        (by simp [Worker.is_waiting]) (by simp [Worker.is_busy]) (by simp [Worker.is_spawned])
  | wake w =>
    obtain ⟨idx, r, hw, hr, h1⟩ := step_wake_inv hs
    obtain ⟨p1, h1', pc⟩ := r
    subst h1
    have hx := inv.exit_ne hw
    rcases thread_worker_wake_inv hx hr with ⟨e1, e2, e3, _⟩ | ⟨t, e1, _, e2⟩
    · subst e1 e2 e3
      exact inv.worker_move hw _ _ rfl rfl rfl inv.exit_idx rfl rfl
        (by simp [Worker.is_waiting]) (by simp [Worker.is_busy]) (by simp [Worker.is_spawned])
    · obtain ⟨task, _, _, e3, e4⟩ := thread_worker_take_inv e2
      subst e1 e3 e4
      exact inv.worker_move hw _ _ rfl rfl rfl inv.exit_idx rfl rfl
        (by simp [Worker.is_waiting]; omega) (by simp [Worker.is_busy])
        (by simp [Worker.is_spawned])
  | start w =>
    obtain ⟨idx, t, h, hw, _, h1⟩ := step_start_inv hs
    subst h1
    exact inv.worker_move hw s.pool h rfl rfl rfl inv.exit_idx rfl rfl
      (by simp [Worker.is_waiting]) (by simp [Worker.is_busy]) (by simp [Worker.is_spawned])
  | complete w =>
    obtain ⟨idx, t, pool1, h1, r, hw, hf, hr, hs1⟩ := step_complete_inv hs
    obtain ⟨p2, h2, pc⟩ := r
    obtain ⟨e0, _⟩ := thread_worker_finish_inv hf
    subst e0
    have hx := inv.exit_ne hw
    refine CountInv.congr (s := s.worker_update w ⟨idx, .executing t⟩ (p2, h2, pc)) ?_
      (by rw [hs1]) (by rw [hs1]) (by rw [hs1])
    rcases thread_worker_loop_inv (by exact hx) hr with ⟨e1, e2, e3, _⟩ | ⟨u, e1, _, e2⟩
    · subst e1 e2 e3
      exact inv.worker_move hw _ _ rfl rfl rfl inv.exit_idx rfl rfl
        (by simp [Worker.is_waiting]) (by simp [Worker.is_busy]; omega)
        (by simp [Worker.is_spawned])
    · obtain ⟨task, _, _, e3, e4⟩ := thread_worker_take_inv e2
      subst e1 e3 e4
      exact inv.worker_move hw _ _ rfl rfl rfl inv.exit_idx rfl rfl
        (by simp [Worker.is_waiting]) (by simp [Worker.is_busy])
        (by simp [Worker.is_spawned])

theorem CountInv.run_count {M : Int} {cfg : Config} {s s1 : System} {evs : List Event}
    (inv : CountInv M s) (h : run cfg s evs = some s1) : CountInv M s1 :=
  run_invariant cfg (CountInv M) (fun _ _ _ i hs => i.step_count hs) evs s s1 inv h

theorem census_length (ws : List Worker) :
    ws.length = ws.countP Worker.is_spawned + ws.countP Worker.is_waiting +
      ws.countP Worker.is_busy + ws.countP Worker.is_exited := by
  induction ws with
  | nil => rfl
  | cons x xs ih =>
    obtain ⟨i, pc⟩ := x
    simp only [List.length_cons, List.countP_cons, ih]
    cases pc <;>
      simp [Worker.is_spawned, Worker.is_waiting, Worker.is_busy, Worker.is_exited] <;> omega

/-! ## The pool association of pushed tasks -/

theorem Heap.KeepsPool.refl (a : Nat) (h : Heap) : Heap.KeepsPool a h h :=
  fun _ task ht hp => ⟨task, ht, hp⟩

theorem Heap.KeepsPool.trans {a : Nat} {h h1 h2 : Heap} (k1 : Heap.KeepsPool a h h1)
    (k2 : Heap.KeepsPool a h1 h2) : Heap.KeepsPool a h h2 := by
  intro t task ht hp
  obtain ⟨task1, ht1, hp1⟩ := k1 t task ht hp
  exact k2 t task1 ht1 hp1

theorem Heap.KeepsPool.of_set {a : Nat} {h : Heap} {t : Nat} {task : thread_task}
    (v : Option thread_task) (ht : h t = some task)
    (hv : task.pool = some a → ∃ task1, v = some task1 ∧ task1.pool = some a) :
    Heap.KeepsPool a h (h.set t v) := by
  intro u tu hu hp
  by_cases e : u = t
  · subst e
    rw [ht] at hu
    simp only [Option.some.injEq] at hu
    subst hu
    rw [Heap.set_same]
    exact hv hp
  · rw [Heap.set_other _ _ _ _ e]
    exact ⟨tu, hu, hp⟩

theorem thread_worker_take_keeps {a : Nat} {pool p1 : thread_pool} {h h1 : Heap} {t : Nat}
    (e : thread_worker_take pool h = some (p1, h1, t)) : Heap.KeepsPool a h h1 := by
  obtain ⟨task, _, ht, _, e2⟩ := thread_worker_take_inv e
  subst e2
  exact Heap.KeepsPool.of_set _ ht (fun hp => ⟨_, rfl, hp⟩)

theorem thread_worker_after_wait_keeps {a : Nat} {pool p1 : thread_pool} {h h1 : Heap}
    {idx : Int} {pc : WorkerPc}
    (e : thread_worker_after_wait pool h idx = some (p1, h1, pc)) :
    Heap.KeepsPool a h h1 := by
  by_cases hx : pool.thread_idx_that_should_exit = idx
  · unfold thread_worker_after_wait at e
    rw [if_pos hx] at e
    simp only [Option.some.injEq, Prod.mk.injEq] at e
    exact e.2.1 ▸ Heap.KeepsPool.refl a h
  · obtain ⟨t, _, e2⟩ := thread_worker_after_wait_inv hx e
    exact thread_worker_take_keeps e2

theorem thread_worker_wake_keeps {a : Nat} {pool p1 : thread_pool} {h h1 : Heap}
    {idx : Int} {pc : WorkerPc}
    (e : thread_worker_wake pool h idx = some (p1, h1, pc)) : Heap.KeepsPool a h h1 := by
  unfold thread_worker_wake at e
  split at e
  · simp only [Option.some.injEq, Prod.mk.injEq] at e
    exact e.2.1 ▸ Heap.KeepsPool.refl a h
  · exact thread_worker_after_wait_keeps e

theorem thread_worker_start_inv {h h1 : Heap} {t : Nat}
    (e : thread_worker_start h t = some h1) :
    ∃ task, h t = some task ∧ h1 = h.set t (some { task with is_running := true }) := by
  unfold thread_worker_start at e
  cases ht : h t with
  | none => simp [ht] at e
  | some task =>
    simp only [ht, Option.some.injEq] at e
    exact ⟨task, rfl, e.symm⟩

theorem thread_worker_finish_keeps {a : Nat} {pool p1 : thread_pool} {h h1 : Heap} {t : Nat}
    (e : thread_worker_finish pool h t = some (p1, h1)) : Heap.KeepsPool a h h1 := by
  obtain ⟨_, task, ht, hc⟩ := thread_worker_finish_inv e
  rcases hc with ⟨_, e2⟩ | ⟨_, e2⟩
  · subst e2
    refine Heap.KeepsPool.of_set _ ht (fun hp => ⟨task, ?_, hp⟩)
    simp [thread_task_delete, hp]
  · subst e2
    exact Heap.KeepsPool.of_set _ ht (fun hp => ⟨_, rfl, hp⟩)

theorem push_finish_keeps {s s1 : System} {t : Nat} {required : Int}
    {others : List (Nat × Int)}
    (e : (push_finish s t required others).state = some s1) :
    s1.pool_addr = s.pool_addr ∧ Heap.KeepsPool s.pool_addr s.tasks s1.tasks ∧
    (s1.pushed = s.pushed ∨
      (s1.pushed = s.pushed ++ [t] ∧
        ∃ task1, s1.tasks t = some task1 ∧ task1.pool = some s.pool_addr)) := by
  rcases push_finish_inv e with ⟨_, h1⟩ | ⟨_, task, ht, h1⟩
  · subst h1
    exact ⟨rfl, Heap.KeepsPool.refl _ _, Or.inl rfl⟩
  · subst h1
    exact ⟨rfl, Heap.KeepsPool.of_set _ ht (fun _ => ⟨_, rfl, rfl⟩),
      Or.inr ⟨rfl, _, Heap.set_same _ _ _, rfl⟩⟩

/-- What a step does to the association of the tasks with the pool.  This holds
from every state, whatever the counters are. -/
theorem step_keeps_pool {cfg : Config} {s s1 : System} {e : Event}
    (hs : step cfg s e = some s1) :
    s1.pool_addr = s.pool_addr ∧ Heap.KeepsPool s.pool_addr s.tasks s1.tasks ∧
    (s1.pushed = s.pushed ∨
      (∃ t, s1.pushed = s.pushed ++ [t] ∧
        ∃ task1, s1.tasks t = some task1 ∧ task1.pool = some s.pool_addr)) := by
  cases e with
  | push t =>
    obtain ⟨_, ho⟩ := step_push_inv hs
    unfold thread_pool_push_task at ho
    split at ho
    · simp only [Outcome.state, Option.some.injEq] at ho
      subst ho
      exact ⟨rfl, Heap.KeepsPool.refl _ _, Or.inl rfl⟩
    · obtain ⟨k1, k2, k3⟩ := push_finish_keeps ho
      exact ⟨k1, k2, k3.imp id (fun k => ⟨t, k⟩)⟩
  | resume =>
    have ho := step_resume_inv hs
    unfold thread_pool_push_task_resume at ho
    cases hq : s.pushers with
    | nil => simp [hq, Outcome.state] at ho
    | cons a l =>
      obtain ⟨t, required⟩ := a
      rw [hq] at ho
      obtain ⟨k1, k2, k3⟩ := push_finish_keeps ho
      exact ⟨k1, k2, k3.imp id (fun k => ⟨t, k⟩)⟩
  | register w =>
    obtain ⟨idx, r, hw, hr, h1⟩ := step_register_inv hs
    obtain ⟨p1, h1', pc⟩ := r
    subst h1
    exact ⟨rfl, thread_worker_wake_keeps (by exact hr), Or.inl rfl⟩
  | wake w =>
    obtain ⟨idx, r, hw, hr, h1⟩ := step_wake_inv hs
    obtain ⟨p1, h1', pc⟩ := r
    subst h1
    exact ⟨rfl, thread_worker_wake_keeps hr, Or.inl rfl⟩
  | start w =>
    obtain ⟨idx, t, h, hw, hr, h1⟩ := step_start_inv hs
    subst h1
    obtain ⟨task, ht, e2⟩ := thread_worker_start_inv hr
    subst e2
    exact ⟨rfl, Heap.KeepsPool.of_set _ ht (fun hp => ⟨_, rfl, hp⟩), Or.inl rfl⟩
  | complete w =>
    obtain ⟨idx, t, pool1, h1, r, hw, hf, hr, hs1⟩ := step_complete_inv hs
    obtain ⟨p2, h2, pc⟩ := r
    subst hs1
    exact ⟨rfl, (thread_worker_finish_keeps hf).trans (thread_worker_wake_keeps (by exact hr)),
      Or.inl rfl⟩

theorem PushedInv.step_pushed {cfg : Config} {s s1 : System} {e : Event} (inv : PushedInv s)
    (hs : step cfg s e = some s1) : PushedInv s1 := by
  obtain ⟨k1, k2, k3⟩ := step_keeps_pool hs
  intro t ht
  rw [k1]
  rcases k3 with k3 | ⟨u, k3, hu⟩
  · rw [k3] at ht
    obtain ⟨task, h1, h2⟩ := inv t ht
    exact k2 t task h1 h2
  · rw [k3, List.mem_append, List.mem_singleton] at ht
    rcases ht with ht | ht
    · obtain ⟨task, h1, h2⟩ := inv t ht
      exact k2 t task h1 h2
    · exact ht ▸ hu

theorem PushedInv.run_pushed {cfg : Config} {s s1 : System} {evs : List Event} (inv : PushedInv s)
    (h : run cfg s evs = some s1) : PushedInv s1 :=
  run_invariant cfg PushedInv (fun _ _ _ i hs => i.step_pushed hs) evs s s1 inv h

/-! ## Worker threads are created by pushes only -/

theorem step_workers_length {cfg : Config} {s s1 : System} {e : Event}
    (hp : e.is_push = false) (hs : step cfg s e = some s1) :
    s1.workers.length = s.workers.length := by
  cases e with
  | push t => simp [Event.is_push] at hp
  | resume =>
    have ho := step_resume_inv hs
    unfold thread_pool_push_task_resume at ho
    cases hq : s.pushers with
    | nil => simp [hq, Outcome.state] at ho
    | cons a l =>
      obtain ⟨t, required⟩ := a
      rw [hq] at ho
      rcases push_finish_inv ho with ⟨_, h1⟩ | ⟨_, task, _, h1⟩ <;> rw [h1]
  | register w =>
    obtain ⟨idx, r, _, _, h1⟩ := step_register_inv hs
    rw [h1]
    simp [System.worker_update]
  | wake w =>
    obtain ⟨idx, r, _, _, h1⟩ := step_wake_inv hs
    rw [h1]
    simp [System.worker_update]
  | start w =>
    obtain ⟨idx, t, h, _, _, h1⟩ := step_start_inv hs
    rw [h1]
    simp
  | complete w =>
    obtain ⟨idx, t, pool1, h1, r, _, _, _, hs1⟩ := step_complete_inv hs
    rw [hs1]
    simp [System.worker_update]

theorem run_workers_length {cfg : Config} (evs : List Event) :
    ∀ (s s1 : System), evs.all (fun e => !e.is_push) = true → run cfg s evs = some s1 →
      s1.workers.length = s.workers.length := by
  induction evs with
  | nil =>
    intro s s1 _ h
    simp only [run, Option.some.injEq] at h
    rw [h]
  | cons e es ih =>
    intro s s1 hall h
    simp only [List.all_cons, Bool.and_eq_true, Bool.not_eq_true'] at hall
    simp only [run] at h
    cases hst : step cfg s e with
    | none => simp [hst] at h
    | some s2 =>
      rw [hst] at h
      rw [ih s2 s1 hall.2 h, step_workers_length hall.1 hst]

/-- When no call of `thread_pool_push_task` is under way, every worker thread that
was created is live: `thread_count` is the number of threads created. -/
theorem CountInv.thread_count_eq {M : Int} {s : System} (inv : CountInv M s)
    (hq : s.pushers = []) : s.pool.thread_count = s.workers.length := by
  obtain ⟨a1, a2, a3, a4, a5, a6, a7, a8, a9, a10, a11⟩ := inv
  rw [hq] at a10
  simp only at a10
  have := census_length s.workers
  omega

theorem push_outcome {cfg : Config} {s : System} {t : Nat} {task : thread_task}
    (hq : s.pushers = []) (hroom : s.pool.pending_task_count < cfg.TPOOL_MAX_TASKS)
    (ht : s.tasks t = some task) :
    ∃ s1, (thread_pool_push_task cfg s t = .ret .ok s1 ∨
        thread_pool_push_task cfg s t = .blocked s1) ∧
      step cfg s (.push t) = some s1 ∧
      s1.workers = (push_spawn s.pool s.workers).2.1 := by
  have hstep : ∀ s1, (thread_pool_push_task cfg s t = .ret .ok s1 ∨
        thread_pool_push_task cfg s t = .blocked s1) → step cfg s (.push t) = some s1 := by
    intro s1 h
    simp only [step, hq]
    rcases h with h | h <;> rw [h]
  have hnot : ¬ s.pool.pending_task_count ≥ cfg.TPOOL_MAX_TASKS := by omega
  have hpush : thread_pool_push_task cfg s t =
      push_finish { s with pool := (push_spawn s.pool s.workers).1,
                           workers := (push_spawn s.pool s.workers).2.1 }
        t (push_spawn s.pool s.workers).2.2 s.pushers := by
    unfold thread_pool_push_task
    rw [if_neg hnot]
  by_cases hc : (push_spawn s.pool s.workers).1.thread_count = (push_spawn s.pool s.workers).2.2
  · have e : ∃ s1, thread_pool_push_task cfg s t = .ret .ok s1 ∧
        s1.workers = (push_spawn s.pool s.workers).2.1 := by
      rw [hpush]
      unfold push_finish
      rw [if_neg (by simpa using hc), push_enqueue_eq ht]
      exact ⟨_, rfl, rfl⟩
    obtain ⟨s1, e1, e2⟩ := e
    exact ⟨s1, Or.inl e1, hstep _ (Or.inl e1), e2⟩
  · have e : ∃ s1, thread_pool_push_task cfg s t = .blocked s1 ∧
        s1.workers = (push_spawn s.pool s.workers).2.1 := by
      rw [hpush]
      unfold push_finish
      rw [if_pos (by simpa using hc)]
      exact ⟨_, rfl, rfl⟩
    obtain ⟨s1, e1, e2⟩ := e
    exact ⟨s1, Or.inr e1, hstep _ (Or.inr e1), e2⟩

/-! ## Where the pushed tasks are -/

theorem Chain.set_of_not_mem {h : Heap} {t : Nat} (v : Option thread_task) :
    ∀ {L : List Nat} {hd : Option Nat}, Chain h hd L → t ∉ L → Chain (h.set t v) hd L := by
  intro L
  induction L with
  | nil => intro hd hc _; exact hc
  | cons u L ih =>
    intro hd hc hn
    obtain ⟨h1, task, h2, h3⟩ := hc
    simp only [List.mem_cons, not_or] at hn
    refine ⟨h1, task, ?_, ih h3 hn.2⟩
    rw [Heap.set_other _ _ _ _ (fun e => hn.1 e.symm)]
    exact h2

theorem Chain.set_same_next {h : Heap} {t : Nat} {task task1 : thread_task}
    (ht : h t = some task) (hn : task1.next = task.next) :
    ∀ {L : List Nat} {hd : Option Nat}, Chain h hd L → Chain (h.set t (some task1)) hd L := by
  intro L
  induction L with
  | nil => intro hd hc; exact hc
  | cons u L ih =>
    intro hd hc
    obtain ⟨h1, tu, h2, h3⟩ := hc
    by_cases e : u = t
    · subst e
      rw [ht] at h2
      simp only [Option.some.injEq] at h2
      subst h2
      exact ⟨h1, task1, Heap.set_same _ _ _, hn ▸ ih h3⟩
    · exact ⟨h1, tu, by rw [Heap.set_other _ _ _ _ e]; exact h2, ih h3⟩

theorem Heap.Static.set {specs : List ((Int → Int) × Int)} {h : Heap} {t : Nat}
    {task task1 : thread_task} (st : Heap.Static specs h) (ht : h t = some task)
    (hf : task1.function = task.function) (ha : task1.arg = task.arg)
    (hd : task1.is_detached = task.is_detached) :
    Heap.Static specs (h.set t (some task1)) := by
  intro u tu hu
  by_cases e : u = t
  · subst e
    rw [Heap.set_same] at hu
    simp only [Option.some.injEq] at hu
    subst hu
    obtain ⟨fa, h1, h2, h3, h4⟩ := st u task ht
    exact ⟨fa, h1, hf ▸ h2, ha ▸ h3, hd ▸ h4⟩
  · rw [Heap.set_other _ _ _ _ e] at hu
    exact st u tu hu

theorem holds_le_busy (t : Nat) (ws : List Worker) :
    ws.countP (Worker.holds t) ≤ ws.countP Worker.is_busy := by
  apply List.countP_mono_left
  intro x _ hx
  obtain ⟨i, pc⟩ := x
  cases pc <;> simp_all [Worker.holds, Worker.is_busy]

theorem TaskInv.tasks_congr {specs : List ((Int → Int) × Int)} {s s1 : System}
    (inv : TaskInv specs s) (h1 : s1.pool.pending_task_list = s.pool.pending_task_list)
    (h2 : s1.pool.pending_task_count = s.pool.pending_task_count)
    (h3 : s1.tasks = s.tasks)
    (h4 : ∀ t, s1.workers.countP (Worker.holds t) = s.workers.countP (Worker.holds t))
    (h5 : s1.pushed = s.pushed) (h6 : s1.calls = s.calls) : TaskInv specs s1 := by
  obtain ⟨q, st, dn⟩ := inv
  refine ⟨?_, h3 ▸ st, ?_⟩
  · simp only [h1, h2, h3, h4, h5, h6]
    exact q
  · simp only [h3, h6]
    exact dn

/-- The done tasks keep their result when a task is rewritten without touching
`is_finished` and `result`, or when the rewritten task is not done. -/
theorem done_set {h : Heap} {calls : List Nat} {t : Nat} {task task1 : thread_task}
    (dn : ∀ u ∈ calls, ∃ k, h u = some k ∧ k.is_finished = true ∧
      k.result = k.function k.arg)
    (ht : h t = some task)
    (hk : t ∈ calls → task1.is_finished = true ∧ task1.result = task1.function task1.arg) :
    ∀ u ∈ calls, ∃ k, (h.set t (some task1)) u = some k ∧ k.is_finished = true ∧
      k.result = k.function k.arg := by
  intro u hu
  by_cases e : u = t
  · subst e
    exact ⟨task1, Heap.set_same _ _ _, hk hu⟩
  · rw [Heap.set_other _ _ _ _ e]
    exact dn u hu

theorem holds_set_count (t : Nat) (ws : List Worker) (w : Nat) (wk wk1 : Worker)
    (hw : ws[w]? = some wk) :
    (ws.set w wk1).countP (Worker.holds t) + (if wk.holds t then 1 else 0) =
      ws.countP (Worker.holds t) + (if wk1.holds t then 1 else 0) :=
  countP_set_add (Worker.holds t) ws w wk1 wk hw

/-- A push links the task in front of the pending list. -/
theorem TaskInv.enqueue {specs : List ((Int → Int) × Int)} {s : System}
    (inv : TaskInv specs s) {t : Nat} {task : thread_task} (ht : s.tasks t = some task)
    (hnd : (s.pushed ++ [t]).Nodup) (others : List (Nat × Int)) (a : Nat) :
    TaskInv specs { s with
      pool := { s.pool with pending_task_list := some t,
                            pending_task_count := s.pool.pending_task_count + 1 },
      tasks := s.tasks.set t (some { task with pool := some a,
                                               next := s.pool.pending_task_list,
                                               is_finished := false, is_running := false }),
      pushers := others, pushed := s.pushed ++ [t] } := by
  obtain ⟨⟨L, hc, hl, hcount⟩, st, dn⟩ := inv
  have htp : t ∉ s.pushed := by
    intro hmem
    have := List.nodup_append.mp hnd
    exact this.2.2 hmem (List.mem_singleton_self t)
  have h0 : s.pushed.count t = 0 := List.count_eq_zero_of_not_mem htp
  have hc0 := hcount t
  have htL : t ∉ L := by
    rw [← List.count_eq_zero]
    omega
  have htc : t ∉ s.calls := by
    rw [← List.count_eq_zero]
    omega
  refine ⟨⟨t :: L, ⟨rfl, _, Heap.set_same _ _ _, Chain.set_of_not_mem _ hc htL⟩, ?_, ?_⟩,
    st.set ht rfl rfl rfl, done_set dn ht (fun h => absurd h htc)⟩
  · simp only [List.length_cons]
    push_cast
    omega
  · intro u
    have := hcount u
    simp only [List.count_append, List.count_cons, List.count_nil]
    omega

/-- A worker that has no task in hand unlinks the head of the pending list. -/
theorem TaskInv.take {specs : List ((Int → Int) × Int)} {s : System}
    (inv : TaskInv specs s) (hnd : s.pushed.Nodup) {w : Nat} {wk : Worker}
    (hw : s.workers[w]? = some wk) (hfree : ∀ u, wk.holds u = false)
    {pool0 p1 : thread_pool} {h1 : Heap} {t : Nat} (idx : Int)
    (e : thread_worker_take pool0 s.tasks = some (p1, h1, t))
    (hl0 : pool0.pending_task_list = s.pool.pending_task_list)
    (hc0 : pool0.pending_task_count = s.pool.pending_task_count) :
    TaskInv specs { s with pool := p1, tasks := h1,
                           workers := s.workers.set w ⟨idx, .claimed t⟩ } := by
  obtain ⟨⟨L, hc, hl, hcount⟩, st, dn⟩ := inv
  obtain ⟨task, hhd, ht, e1, e2⟩ := thread_worker_take_inv e
  subst e1 e2
  rw [hl0] at hhd
  cases L with
  | nil =>
    simp only [Chain] at hc
    rw [hc] at hhd
    simp at hhd
  | cons u L1 =>
    obtain ⟨c1, tu, c2, c3⟩ := hc
    rw [hhd] at c1
    simp only [Option.some.injEq] at c1
    subst c1
    rw [ht] at c2
    simp only [Option.some.injEq] at c2
    subst c2
    have hle : s.pushed.count t ≤ 1 := List.nodup_iff_count_le_one.mp hnd t
    have hct := hcount t
    simp only [List.count_cons_self] at hct
    have htL1 : t ∉ L1 := by
      rw [← List.count_eq_zero]
      omega
    refine ⟨⟨L1, Chain.set_of_not_mem _ c3 htL1, ?_, ?_⟩, st.set ht rfl rfl rfl,
      done_set dn ht (fun h => ?_)⟩
    · simp only [List.length_cons] at hl
      push_cast at hl
      simp only [hc0]
      omega
    · intro u
      have h1 := hcount u
      have h2 := holds_set_count u s.workers w wk ⟨idx, .claimed t⟩ hw
      rw [hfree u] at h2
      simp only [List.count_cons] at h1
      simp only [Worker.holds, Bool.false_eq_true, if_false, add_zero, decide_eq_true_eq,
        beq_iff_eq] at h1 h2
      simp only
      omega
    · obtain ⟨k, hk1, hk2, hk3⟩ := dn t h
      rw [ht] at hk1
      simp only [Option.some.injEq] at hk1
      subst hk1
      exact ⟨hk2, hk3⟩

/-- A worker sets `is_running` of the task it has in hand. -/
theorem TaskInv.start {specs : List ((Int → Int) × Int)} {s : System}
    (inv : TaskInv specs s) {w : Nat} {idx : Int} {t : Nat} {h : Heap}
    (hw : s.workers[w]? = some ⟨idx, .claimed t⟩)
    (e : thread_worker_start s.tasks t = some h) :
    TaskInv specs { s with tasks := h, workers := s.workers.set w ⟨idx, .executing t⟩ } := by
  obtain ⟨⟨L, hc, hl, hcount⟩, st, dn⟩ := inv
  obtain ⟨task, ht, e1⟩ := thread_worker_start_inv e
  subst e1
  refine ⟨⟨L, Chain.set_same_next ht ?_ hc, hl, ?_⟩, st.set ht rfl rfl rfl,
    done_set dn ht (fun h => ?_)⟩
  · rfl
  · intro u
    have h1 := hcount u
    have h2 := holds_set_count u s.workers w ⟨idx, .claimed t⟩ ⟨idx, .executing t⟩ hw
    simp only [Worker.holds] at h2
    simp only
    omega
  · obtain ⟨k, hk1, hk2, hk3⟩ := dn t h
    rw [ht] at hk1
    simp only [Option.some.injEq] at hk1
    subst hk1
    exact ⟨hk2, hk3⟩

/-- A worker completes the task it has in hand. -/
theorem TaskInv.finish {specs : List ((Int → Int) × Int)} {s : System}
    (inv : TaskInv specs s) {w : Nat} {idx : Int} {t : Nat} {pool1 : thread_pool} {h1 : Heap}
    (hw : s.workers[w]? = some ⟨idx, .executing t⟩)
    (e : thread_worker_finish s.pool s.tasks t = some (pool1, h1)) :
    TaskInv specs { s with pool := pool1, tasks := h1,
                           workers := s.workers.set w ⟨idx, .waiting⟩,
                           calls := s.calls ++ [t] } := by
  obtain ⟨⟨L, hc, hl, hcount⟩, st, dn⟩ := inv
  obtain ⟨e0, task, ht, hcase⟩ := thread_worker_finish_inv e
  subst e0
  obtain ⟨fa, _, _, _, hdet⟩ := st t task ht
  rcases hcase with ⟨hd, _⟩ | ⟨_, e1⟩
  · rw [hdet] at hd
    simp at hd
  · subst e1
    refine ⟨⟨L, Chain.set_same_next ht ?_ hc, hl, ?_⟩, st.set ht rfl rfl rfl, ?_⟩
    · rfl
    · intro u
      have h1 := hcount u
      have h2 := holds_set_count u s.workers w ⟨idx, .executing t⟩ ⟨idx, .waiting⟩ hw
      simp only [Worker.holds, Bool.false_eq_true, if_false, add_zero,
        decide_eq_true_eq] at h2
      simp only [List.count_append, List.count_cons, List.count_nil, beq_iff_eq]
      omega
    · intro u hu
      by_cases e : u = t
      · subst e
        exact ⟨_, Heap.set_same _ _ _, rfl, rfl⟩
      · simp only [Heap.set_other _ _ _ _ e]
        simp only [List.mem_append, List.mem_singleton] at hu
        rcases hu with hu | hu
        · exact dn u hu
        · exact absurd hu e

/-- A worker that has no task in hand moves without taking one. -/
theorem TaskInv.idle {specs : List ((Int → Int) × Int)} {s : System}
    (inv : TaskInv specs s) {w : Nat} {wk : Worker}
    (hw : s.workers[w]? = some wk) (hfree : ∀ u, wk.holds u = false) (wk1 : Worker)
    (hfree1 : ∀ u, wk1.holds u = false) (pool1 : thread_pool)
    (hl0 : pool1.pending_task_list = s.pool.pending_task_list)
    (hc0 : pool1.pending_task_count = s.pool.pending_task_count) :
    TaskInv specs { s with pool := pool1, workers := s.workers.set w wk1 } := by
  refine inv.tasks_congr hl0 hc0 rfl (fun t => ?_) rfl rfl
  have h2 := holds_set_count t s.workers w wk wk1 hw
  rw [hfree t, hfree1 t] at h2
  simpa using h2

theorem TaskInv.tasks_spawn {specs : List ((Int → Int) × Int)} {s : System}
    (inv : TaskInv specs s) :
    TaskInv specs { s with pool := (push_spawn s.pool s.workers).1,
                           workers := (push_spawn s.pool s.workers).2.1 } := by
  have hh : ∀ (i : Int) (t : Nat),
      (s.workers ++ [({ idx := i, pc := .spawned } : Worker)]).countP (Worker.holds t) =
        s.workers.countP (Worker.holds t) := by
    intro i t
    simp [List.countP_append, Worker.holds]
  rcases push_spawn_cases s.pool s.workers with ⟨_, hr⟩ | ⟨ths, _, _, _, _, hr⟩ | ⟨ths, _, _, hr⟩
  · rw [hr]
    exact inv.tasks_congr rfl rfl rfl (hh 0) rfl rfl
  · rw [hr]
    exact inv.tasks_congr rfl rfl rfl (hh _) rfl rfl
  · rw [hr]
    exact inv.tasks_congr rfl rfl rfl (fun _ => rfl) rfl rfl

theorem TaskInv.tasks_after_push_finish {specs : List ((Int → Int) × Int)} {s0 s1 : System}
    {t : Nat} {required : Int} {others : List (Nat × Int)} (inv : TaskInv specs s0)
    (e : (push_finish s0 t required others).state = some s1) (hnd : s1.pushed.Nodup) :
    TaskInv specs s1 := by
  rcases push_finish_inv e with ⟨_, h1⟩ | ⟨_, task, ht, h1⟩
  · subst h1
    exact inv.tasks_congr rfl rfl rfl (fun _ => rfl) rfl rfl
  · subst h1
    exact inv.enqueue ht hnd others s0.pool_addr

theorem step_pushed_nodup {cfg : Config} {s s1 : System} {e : Event}
    (hs : step cfg s e = some s1) (hnd : s1.pushed.Nodup) : s.pushed.Nodup := by
  obtain ⟨_, _, k3⟩ := step_keeps_pool hs
  rcases k3 with k3 | ⟨t, k3, _⟩
  · exact k3 ▸ hnd
  · rw [k3] at hnd
    exact (List.nodup_append.mp hnd).1

/-- Every step of an execution that pushes no task twice keeps the account of the
pushed tasks. -/
theorem TaskInv.step_tasks {specs : List ((Int → Int) × Int)} {M : Int} {cfg : Config}
    {s s1 : System} {e : Event} (inv : TaskInv specs s) (cinv : CountInv M s)
    (hs : step cfg s e = some s1) (hnd1 : s1.pushed.Nodup) : TaskInv specs s1 := by
  have hnd := step_pushed_nodup hs hnd1
  cases e with
  | push t =>
    obtain ⟨_, ho⟩ := step_push_inv hs
    unfold thread_pool_push_task at ho
    split at ho
    · simp only [Outcome.state, Option.some.injEq] at ho
      exact ho ▸ inv
    · exact TaskInv.tasks_after_push_finish inv.tasks_spawn ho hnd1
  | resume =>
    have ho := step_resume_inv hs
    unfold thread_pool_push_task_resume at ho
    cases hq : s.pushers with
    | nil => simp [hq, Outcome.state] at ho
    | cons a l =>
      obtain ⟨t, required⟩ := a
      rw [hq] at ho
      exact TaskInv.tasks_after_push_finish inv ho hnd1
  | register w =>
    obtain ⟨idx, r, hw, hr, h1⟩ := step_register_inv hs
    obtain ⟨p1, h1', pc⟩ := r
    subst h1
    have hx := cinv.exit_ne hw
    have hfree : ∀ u, (⟨idx, .spawned⟩ : Worker).holds u = false := fun _ => rfl
    rcases thread_worker_loop_inv (by exact hx) hr with ⟨e1, e2, e3, _⟩ | ⟨t, e1, _, e2⟩
    · subst e1 e2 e3
      exact inv.idle hw hfree ⟨idx, .waiting⟩ (fun _ => rfl) _ rfl rfl
    · subst e1
      exact inv.take hnd hw hfree idx e2 rfl rfl
  | wake w =>
    obtain ⟨idx, r, hw, hr, h1⟩ := step_wake_inv hs
    obtain ⟨p1, h1', pc⟩ := r
    subst h1
    have hx := cinv.exit_ne hw
    have hfree : ∀ u, (⟨idx, .waiting⟩ : Worker).holds u = false := fun _ => rfl
    rcases thread_worker_wake_inv hx hr with ⟨e1, e2, e3, _⟩ | ⟨t, e1, _, e2⟩
    · subst e1 e2 e3
      exact inv.idle hw hfree ⟨idx, .waiting⟩ (fun _ => rfl) _ rfl rfl
    · subst e1
      exact inv.take hnd hw hfree idx e2 rfl rfl
  | start w =>
    obtain ⟨idx, t, h, hw, hr, h1⟩ := step_start_inv hs
    subst h1
    exact inv.start hw hr
  | complete w =>
    obtain ⟨idx, t, pool1, h1, r, hw, hf, hr, hs1⟩ := step_complete_inv hs
    obtain ⟨p2, h2, pc⟩ := r
    subst hs1
    have hx := cinv.exit_ne hw
    have inv1 := inv.finish hw hf
    obtain ⟨e0, _⟩ := thread_worker_finish_inv hf
    have hx1 : pool1.thread_idx_that_should_exit ≠ idx := by
      rw [e0]
      exact hx
    have hlt : w < s.workers.length := by
      obtain ⟨hlt, _⟩ := List.getElem?_eq_some_iff.mp hw
      exact hlt
    have hw1 : (s.workers.set w ⟨idx, .waiting⟩)[w]? = some ⟨idx, .waiting⟩ := by
      simp [hlt]
    rcases thread_worker_loop_inv hx1 hr with ⟨e1, e2, e3, _⟩ | ⟨u, e1, _, e2⟩
    · subst e1 e2 e3
      exact inv1.tasks_congr rfl rfl rfl (fun _ => rfl) rfl rfl
    · subst e1
      have inv2 := inv1.take hnd hw1 (fun _ => rfl) idx e2 rfl rfl
      refine inv2.tasks_congr rfl rfl rfl (fun v => ?_) rfl rfl
      simp [System.worker_update, List.set_set]

theorem TaskInv.tasks_at_init (specs : List ((Int → Int) × Int)) (pool_addr : Nat)
    (pool : thread_pool) (cfg : Config) (m : Int) (h : thread_pool_new cfg m = .ok pool) :
    TaskInv specs (System.init pool_addr pool (heap_of specs)) := by
  unfold thread_pool_new at h
  split at h
  · simp at h
  · simp only [Except.ok.injEq] at h
    subst h
    refine ⟨⟨[], rfl, rfl, fun t => by simp [System.init]⟩, ?_, fun t ht => ?_⟩
    · intro t task ht
      simp only [System.init, heap_of] at ht
      cases hs : specs[t]? with
      | none => simp [hs] at ht
      | some fa =>
        simp only [hs, Option.map_some', Option.some.injEq] at ht
        subst ht
        exact ⟨fa, rfl, rfl, rfl, rfl⟩
    · simp [System.init] at ht

/-- The relation between the counters and the threads, and the account of the
pushed tasks, hold in every state of an execution that pushes no task
twice. -/
theorem run_task_inv {specs : List ((Int → Int) × Int)} {M : Int} {cfg : Config}
    {s s1 : System} {evs : List Event} (inv : TaskInv specs s) (cinv : CountInv M s)
    (h : run cfg s evs = some s1) (hnd : s1.pushed.Nodup) : TaskInv specs s1 := by
  have key := run_invariant cfg
    (fun x => CountInv M x ∧ (x.pushed.Nodup → TaskInv specs x))
    (fun x e x1 hx hs =>
      ⟨hx.1.step_count hs, fun hn =>
        (hx.2 (step_pushed_nodup hs hn)).step_tasks hx.1 hs hn⟩)
    evs s s1 ⟨cinv, fun _ => inv⟩ h
  exact key.2 hnd

/-! ## Runs in two parts -/

theorem run_append {cfg : Config} (evs evs2 : List Event) :
    ∀ (s s1 s2 : System), run cfg s evs = some s1 → run cfg s1 evs2 = some s2 →
      run cfg s (evs ++ evs2) = some s2 := by
  induction evs with
  | nil =>
    intro s s1 s2 h1 h2
    simp only [run, Option.some.injEq] at h1
    subst h1
    exact h2
  | cons e es ih =>
    intro s s1 s2 h1 h2
    simp only [run, List.cons_append] at h1 ⊢
    cases hst : step cfg s e with
    | none => simp [hst] at h1
    | some s3 =>
      rw [hst] at h1
      exact ih s3 s1 s2 h1 h2

theorem run_pushed_mem {cfg : Config} {t : Nat} (evs : List Event) :
    ∀ (s s1 : System), run cfg s evs = some s1 → t ∈ s.pushed → t ∈ s1.pushed := by
  induction evs with
  | nil =>
    intro s s1 h ht
    simp only [run, Option.some.injEq] at h
    exact h ▸ ht
  | cons e es ih =>
    intro s s1 h ht
    simp only [run] at h
    cases hst : step cfg s e with
    | none => simp [hst] at h
    | some s2 =>
      rw [hst] at h
      refine ih s2 s1 h ?_
      obtain ⟨_, _, k3⟩ := step_keeps_pool hst
      rcases k3 with k3 | ⟨u, k3, _⟩
      · exact k3 ▸ ht
      · rw [k3]
        exact List.mem_append_left _ ht

/-! ## The pending counter -/

/-- What a step that is not a push or the return of a push does to the pending
counter: nothing, or one dequeue. -/
theorem step_pending {M : Int} {cfg : Config} {s s1 : System} {e : Event}
    (cinv : CountInv M s) (hs : step cfg s e = some s1) (hp : e.is_push = false)
    (hr : e ≠ .resume) :
    s1.pushers = s.pushers ∧
    (s1.pool.pending_task_count = s.pool.pending_task_count ∨
      (1 ≤ s.pool.pending_task_count ∧
        s1.pool.pending_task_count = s.pool.pending_task_count - 1)) := by
  cases e with
  | push t => simp [Event.is_push] at hp
  | resume => exact absurd rfl hr
  | register w =>
    obtain ⟨idx, r, hw, hrr, h1⟩ := step_register_inv hs
    obtain ⟨p1, h1', pc⟩ := r
    subst h1
    have hx := cinv.exit_ne hw
    rcases thread_worker_loop_inv (by exact hx) hrr with ⟨_, e2, _, _⟩ | ⟨t, _, hge, e2⟩
    · subst e2
      exact ⟨rfl, Or.inl rfl⟩
    · obtain ⟨task, _, _, e3, _⟩ := thread_worker_take_inv e2
      subst e3
      exact ⟨rfl, Or.inr ⟨hge, rfl⟩⟩
  | wake w =>
    obtain ⟨idx, r, hw, hrr, h1⟩ := step_wake_inv hs
    obtain ⟨p1, h1', pc⟩ := r
    subst h1
    have hx := cinv.exit_ne hw
    rcases thread_worker_wake_inv hx hrr with ⟨_, e2, _, _⟩ | ⟨t, _, hge, e2⟩
    · subst e2
      exact ⟨rfl, Or.inl rfl⟩
    · obtain ⟨task, _, _, e3, _⟩ := thread_worker_take_inv e2
      subst e3
      exact ⟨rfl, Or.inr ⟨hge, rfl⟩⟩
  | start w =>
    obtain ⟨idx, t, h, _, _, h1⟩ := step_start_inv hs
    subst h1
    exact ⟨rfl, Or.inl rfl⟩
  | complete w =>
    obtain ⟨idx, t, pool1, h1, r, hw, hf, hrr, hs1⟩ := step_complete_inv hs
    obtain ⟨p2, h2, pc⟩ := r
    subst hs1
    obtain ⟨e0, _⟩ := thread_worker_finish_inv hf
    subst e0
    have hx := cinv.exit_ne hw
    rcases thread_worker_loop_inv (by exact hx) hrr with ⟨_, e2, _, _⟩ | ⟨u, _, hge, e2⟩
    · subst e2
      exact ⟨rfl, Or.inl rfl⟩
    · obtain ⟨task, _, _, e3, _⟩ := thread_worker_take_inv e2
      subst e3
      exact ⟨rfl, Or.inr ⟨hge, rfl⟩⟩

theorem PendingInv.step_pending_inv {M : Int} {cfg : Config} {s s1 : System} {e : Event}
    (inv : PendingInv cfg s) (cinv : CountInv M s) (hs : step cfg s e = some s1) :
    PendingInv cfg s1 := by
  obtain ⟨b1, b2, b3⟩ := inv
  have hfin : ∀ (s0 : System) (t : Nat) (required : Int),
      s0.pool.pending_task_count = s.pool.pending_task_count →
      s.pool.pending_task_count < cfg.TPOOL_MAX_TASKS →
      (push_finish s0 t required []).state = some s1 → PendingInv cfg s1 := by
    intro s0 t required h0 hlt ho
    rcases push_finish_inv ho with ⟨_, h1⟩ | ⟨_, task, _, h1⟩
    · subst h1
      exact ⟨by simp only; omega, by simp only; omega, fun _ => by simp only; omega⟩
    · subst h1
      exact ⟨by simp only; omega, by simp only; omega, fun h => absurd rfl h⟩
  by_cases hp : e.is_push = true
  · cases e with
    | push t =>
      obtain ⟨hq, ho⟩ := step_push_inv hs
      unfold thread_pool_push_task at ho
      split at ho
      · simp only [Outcome.state, Option.some.injEq] at ho
        exact ho ▸ ⟨b1, b2, b3⟩
      · rename_i hlt
        rw [hq] at ho
        refine hfin _ t _ ?_ (by omega) ho
        rcases push_spawn_cases s.pool s.workers with ⟨_, hr⟩ | ⟨_, _, _, _, _, hr⟩ |
          ⟨_, _, _, hr⟩ <;> rw [hr]
    | resume => simp [Event.is_push] at hp
    | register w => simp [Event.is_push] at hp
    | wake w => simp [Event.is_push] at hp
    | start w => simp [Event.is_push] at hp
    | complete w => simp [Event.is_push] at hp
  · by_cases hr : e = .resume
    · subst hr
      have ho := step_resume_inv hs
      unfold thread_pool_push_task_resume at ho
      have hb := cinv.barrier
      cases hq : s.pushers with
      | nil => simp [hq, Outcome.state] at ho
      | cons a l =>
        obtain ⟨t, required⟩ := a
        rw [hq] at hb ho
        cases l with
        | cons b l2 => exact hb.elim
        | nil => exact hfin s t required rfl (b3 (by simp [hq])) ho
    · obtain ⟨k1, k2⟩ := step_pending cinv hs (by simpa using hp) hr
      refine ⟨by omega, by omega, fun h => ?_⟩
      rw [k1] at h
      have := b3 h
      omega

theorem PendingInv.run_pending {M : Int} {cfg : Config} {s s1 : System} {evs : List Event}
    (inv : PendingInv cfg s) (cinv : CountInv M s) (h : run cfg s evs = some s1) :
    PendingInv cfg s1 :=
  (run_invariant cfg (fun x => CountInv M x ∧ PendingInv cfg x)
    (fun _ _ _ hx hs => ⟨hx.1.step_count hs, hx.2.step_pending_inv hx.1 hs⟩)
    evs s s1 ⟨cinv, inv⟩ h).2

theorem run_pushers_nil {cfg : Config} (evs : List Event) :
    ∀ (s s1 : System), evs.all (fun e => !e.is_push) = true → run cfg s evs = some s1 →
      s.pushers = [] → s1.pushers = [] := by
  induction evs with
  | nil =>
    intro s s1 _ h hq
    simp only [run, Option.some.injEq] at h
    exact h ▸ hq
  | cons e es ih =>
    intro s s1 hall h hq
    simp only [List.all_cons, Bool.and_eq_true, Bool.not_eq_true'] at hall
    simp only [run] at h
    cases hst : step cfg s e with
    | none => simp [hst] at h
    | some s2 =>
      rw [hst] at h
      refine ih s2 s1 hall.2 h ?_
      cases e with
      | push t => simp [Event.is_push] at hall
      | resume =>
        have ho := step_resume_inv hst
        simp [thread_pool_push_task_resume, hq, Outcome.state] at ho
      | register w =>
        obtain ⟨_, _, _, _, h1⟩ := step_register_inv hst
        rw [h1]
        exact hq
      | wake w =>
        obtain ⟨_, _, _, _, h1⟩ := step_wake_inv hst
        rw [h1]
        exact hq
      | start w =>
        obtain ⟨_, _, _, _, _, h1⟩ := step_start_inv hst
        rw [h1]
        exact hq
      | complete w =>
        obtain ⟨_, _, _, _, _, _, _, _, h1⟩ := step_complete_inv hst
        rw [h1]
        exact hq

theorem push_finish_cases (s : System) (t : Nat) (required : Int)
    (others : List (Nat × Int)) :
    push_finish s t required others =
        .blocked { s with pushers := (t, required) :: others } ∨
      (∃ s1, push_finish s t required others = .ret .ok s1) ∨
      push_finish s t required others = .fault := by
  unfold push_finish
  by_cases hc : s.pool.thread_count ≠ required
  · rw [if_pos hc]
    exact Or.inl rfl
  · rw [if_neg hc]
    cases push_enqueue s.pool_addr s.pool s.tasks t with
    | none => exact Or.inr (Or.inr rfl)
    | some r => exact Or.inr (Or.inl ⟨_, rfl⟩)

theorem push_rejected_inv {cfg : Config} {s s1 : System} {t : Nat} {e : thread_pool_errcode}
    (h : thread_pool_push_task cfg s t = .ret (.err e) s1) :
    s.pool.pending_task_count ≥ cfg.TPOOL_MAX_TASKS ∧ e = .TPOOL_ERR_TOO_MANY_TASKS ∧
      s1 = s := by
  unfold thread_pool_push_task at h
  split at h
  · rename_i hc
    simp only [Outcome.ret.injEq, Ret.err.injEq] at h
    exact ⟨hc, h.1.symm, h.2.symm⟩
  · exfalso
    simp only at h
    rcases push_finish_cases _ t _ s.pushers with h2 | ⟨s2, h2⟩ | h2 <;>
      rw [h2] at h <;> simp at h

theorem PendingInv.pending_at_init (cfg : Config) (pool_addr : Nat) (pool : thread_pool)
    (tasks : Heap) (m : Int) (h : thread_pool_new cfg m = .ok pool) :
    PendingInv cfg (System.init pool_addr pool tasks) := by
  unfold thread_pool_new at h
  split at h
  · simp at h
  · simp only [Except.ok.injEq] at h
    subst h
    exact ⟨by simp [System.init], Or.inr rfl, fun hq => absurd rfl hq⟩

/-! ## The pending list is well formed -/

theorem pending_tasks_of_chain {h : Heap} :
    ∀ {L : List Nat} {hd : Option Nat}, Chain h hd L → pending_tasks h L.length hd = L := by
  intro L
  induction L with
  | nil => intro hd _; rfl
  | cons t L ih =>
    intro hd hc
    obtain ⟨h1, task, h2, h3⟩ := hc
    subst h1
    simp only [List.length_cons, pending_tasks, h2, ih h3]

theorem queue_of_chain {s : System} {L : List Nat}
    (hc : Chain s.tasks s.pool.pending_task_list L)
    (hl : (L.length : Int) = s.pool.pending_task_count) : s.queue = L := by
  unfold System.queue
  have : s.pool.pending_task_count.toNat = L.length := by omega
  rw [this]
  exact pending_tasks_of_chain hc

theorem QueueInv.of_list {s : System} {L : List Nat}
    (hc : Chain s.tasks s.pool.pending_task_list L)
    (hl : (L.length : Int) = s.pool.pending_task_count) (hnd : L.Nodup)
    (hown : ∀ t ∈ L, ∃ task, s.tasks t = some task ∧ task.pool = some s.pool_addr)
    (hbar : ∀ p ∈ s.pushers, p.1 ∉ L) : QueueInv s ∧ s.queue = L := by
  have hq := queue_of_chain hc hl
  exact ⟨⟨hq ▸ hc, hq ▸ hl, hq ▸ hnd, hq ▸ hown, hq ▸ hbar⟩, hq⟩

theorem run_guarded_run {cfg : Config} {guard : System → Event → Bool} (evs : List Event) :
    ∀ (s s1 : System), run_guarded cfg guard s evs = some s1 → run cfg s evs = some s1 := by
  induction evs with
  | nil => intro s s1 h; exact h
  | cons e es ih =>
    intro s s1 h
    simp only [run_guarded] at h
    split at h
    · simp only [run]
      cases hst : step cfg s e with
      | none => simp [hst] at h
      | some s2 =>
        rw [hst] at h
        exact ih s2 s1 h
    · simp at h

theorem run_guarded_invariant (cfg : Config) (guard : System → Event → Bool)
    (Inv : System → Prop)
    (hstep : ∀ s e s1, Inv s → guard s e = true → step cfg s e = some s1 → Inv s1) :
    ∀ (evs : List Event) (s s1 : System), Inv s → run_guarded cfg guard s evs = some s1 →
      Inv s1 := by
  intro evs
  induction evs with
  | nil =>
    intro s s1 hs h
    simp only [run_guarded, Option.some.injEq] at h
    exact h ▸ hs
  | cons e es ih =>
    intro s s1 hs h
    simp only [run_guarded] at h
    split at h
    · rename_i hg
      cases hst : step cfg s e with
      | none => simp [hst] at h
      | some s2 =>
        rw [hst] at h
        exact ih s2 s1 (hstep s e s2 hs hg hst) h
    · simp at h

theorem run_guarded_state_after {cfg : Config} {guard : System → Event → Bool}
    {init : System} {evs : List Event}
    (h : (run_guarded cfg guard init evs).isSome = true) :
    run_guarded cfg guard init evs = some (state_after cfg init evs) := by
  cases hr : run_guarded cfg guard init evs with
  | none => simp [hr] at h
  | some s =>
    have := run_guarded_run evs init s hr
    unfold state_after
    rw [this]
    rfl

theorem QueueInv.congr_queue {s : System} (inv : QueueInv s) (s1 : System)
    (h1 : s1.tasks = s.tasks)
    (h2 : s1.pool.pending_task_list = s.pool.pending_task_list)
    (h3 : s1.pool.pending_task_count = s.pool.pending_task_count)
    (h4 : s1.pool_addr = s.pool_addr) (h5 : ∀ p ∈ s1.pushers, p.1 ∉ s.queue) :
    QueueInv s1 ∧ s1.queue = s.queue := by
  apply QueueInv.of_list
  · rw [h1, h2]
    exact inv.chain
  · rw [h3]
    exact inv.length
  · exact inv.nodup
  · rw [h1, h4]
    exact inv.owned
  · exact h5

theorem QueueInv.enqueue_queue {s : System} (inv : QueueInv s) {t : Nat} {task : thread_task}
    (ht : s.tasks t = some task) (hnq : t ∉ s.queue) (s1 : System)
    (h1 : s1.tasks = s.tasks.set t (some { task with pool := some s.pool_addr,
                                                     next := s.pool.pending_task_list,
                                                     is_finished := false,
                                                     is_running := false }))
    (h2 : s1.pool.pending_task_list = some t)
    (h3 : s1.pool.pending_task_count = s.pool.pending_task_count + 1)
    (h4 : s1.pool_addr = s.pool_addr) (h5 : s1.pushers = []) :
    QueueInv s1 ∧ s1.queue = t :: s.queue := by
  apply QueueInv.of_list
  · rw [h1, h2]
    exact ⟨rfl, _, Heap.set_same _ _ _, Chain.set_of_not_mem _ inv.chain hnq⟩
  · rw [h3, ← inv.length]
    simp
  · exact List.nodup_cons.mpr ⟨hnq, inv.nodup⟩
  · intro u hu
    rw [h1, h4]
    by_cases e : u = t
    · subst e
      exact ⟨_, Heap.set_same _ _ _, rfl⟩
    · rw [Heap.set_other _ _ _ _ e]
      simp only [List.mem_cons] at hu
      rcases hu with hu | hu
      · exact absurd hu e
      · exact inv.owned u hu
  · intro p hp
    rw [h5] at hp
    simp at hp

theorem QueueInv.take_queue {s : System} (inv : QueueInv s) {pool0 p1 : thread_pool}
    {h1 : Heap} {t : Nat} (e : thread_worker_take pool0 s.tasks = some (p1, h1, t))
    (hl0 : pool0.pending_task_list = s.pool.pending_task_list)
    (hc0 : pool0.pending_task_count = s.pool.pending_task_count) (s1 : System)
    (k1 : s1.tasks = h1) (k2 : s1.pool.pending_task_list = p1.pending_task_list)
    (k3 : s1.pool.pending_task_count = p1.pending_task_count)
    (k4 : s1.pool_addr = s.pool_addr) (k5 : s1.pushers = s.pushers) :
    QueueInv s1 ∧ s.queue = t :: s1.queue := by
  obtain ⟨task, hhd, ht, e1, e2⟩ := thread_worker_take_inv e
  subst e1 e2
  rw [hl0] at hhd
  have hc := inv.chain
  have hlen := inv.length
  have hnd := inv.nodup
  have hown := inv.owned
  have hbar := inv.barrier
  cases hq : s.queue with
  | nil =>
    rw [hq] at hc
    simp only [Chain] at hc
    rw [hc] at hhd
    simp at hhd
  | cons u L1 =>
    rw [hq] at hc hlen hnd hown hbar
    obtain ⟨c1, tu, c2, c3⟩ := hc
    rw [hhd] at c1
    simp only [Option.some.injEq] at c1
    subst c1
    rw [ht] at c2
    simp only [Option.some.injEq] at c2
    subst c2
    have hnd2 := List.nodup_cons.mp hnd
    have key : QueueInv s1 ∧ s1.queue = L1 := by
      apply QueueInv.of_list
      · rw [k1, k2]
        exact Chain.set_of_not_mem _ c3 hnd2.1
      · rw [k3]
        simp only [List.length_cons] at hlen
        push_cast at hlen
        simp only [hc0]
        omega
      · exact hnd2.2
      · intro v hv
        rw [k1, k4]
        have hvt : v ≠ t := fun e => hnd2.1 (e ▸ hv)
        rw [Heap.set_other _ _ _ _ hvt]
        exact hown v (List.mem_cons_of_mem _ hv)
      · intro p hp
        rw [k5] at hp
        exact fun hm => hbar p hp (List.mem_cons_of_mem _ hm)
    exact ⟨key.1, by rw [key.2]⟩

theorem QueueInv.set_queue {s : System} (inv : QueueInv s) {t : Nat} {task : thread_task}
    (ht : s.tasks t = some task) {h1 : Heap} {v : Option thread_task}
    (e : h1 = s.tasks.set t v)
    (hv : (∃ task1, v = some task1 ∧ task1.next = task.next ∧ task1.pool = task.pool) ∨
      task.pool = none) (s1 : System)
    (k1 : s1.tasks = h1)
    (k2 : s1.pool.pending_task_list = s.pool.pending_task_list)
    (k3 : s1.pool.pending_task_count = s.pool.pending_task_count)
    (k4 : s1.pool_addr = s.pool_addr) (k5 : s1.pushers = s.pushers) :
    QueueInv s1 ∧ s1.queue = s.queue := by
  subst e
  rcases hv with ⟨task1, hv1, hn, hp⟩ | hp
  · subst hv1
    apply QueueInv.of_list
    · rw [k1, k2]
      exact Chain.set_same_next ht hn inv.chain
    · rw [k3]
      exact inv.length
    · exact inv.nodup
    · intro u hu
      rw [k1, k4]
      by_cases e : u = t
      · subst e
        obtain ⟨tu, h1, h2⟩ := inv.owned u hu
        rw [ht] at h1
        simp only [Option.some.injEq] at h1
        subst h1
        exact ⟨task1, Heap.set_same _ _ _, hp ▸ h2⟩
      · rw [Heap.set_other _ _ _ _ e]
        exact inv.owned u hu
    · rw [k5]
      exact inv.barrier
  · have hnq : t ∉ s.queue := by
      intro hm
      obtain ⟨tu, h1, h2⟩ := inv.owned t hm
      rw [ht] at h1
      simp only [Option.some.injEq] at h1
      subst h1
      rw [hp] at h2
      simp at h2
    apply QueueInv.of_list
    · rw [k1, k2]
      exact Chain.set_of_not_mem _ inv.chain hnq
    · rw [k3]
      exact inv.length
    · exact inv.nodup
    · intro u hu
      rw [k1, k4]
      have e : u ≠ t := fun e => hnq (e ▸ hu)
      rw [Heap.set_other _ _ _ _ e]
      exact inv.owned u hu
    · rw [k5]
      exact inv.barrier

theorem push_spawn_pending (pool : thread_pool) (workers : List Worker) :
    (push_spawn pool workers).1.pending_task_list = pool.pending_task_list ∧
    (push_spawn pool workers).1.pending_task_count = pool.pending_task_count := by
  rcases push_spawn_cases pool workers with ⟨_, hr⟩ | ⟨_, _, _, _, _, hr⟩ | ⟨_, _, _, hr⟩ <;>
    rw [hr] <;> exact ⟨rfl, rfl⟩

theorem QueueInv.queue_after_push_finish {s0 s1 : System} {t : Nat} {required : Int}
    (inv0 : QueueInv s0) (hnq : t ∉ s0.queue)
    (ho : (push_finish s0 t required []).state = some s1) :
    QueueInv s1 ∧ (s1.queue = s0.queue ∨ s1.queue = t :: s0.queue) := by
  rcases push_finish_inv ho with ⟨_, h1⟩ | ⟨_, task, ht, h1⟩
  · have := inv0.congr_queue s1 (by rw [h1]) (by rw [h1]) (by rw [h1]) (by rw [h1])
      (fun p hp => by
        rw [h1] at hp
        simp only [List.mem_singleton] at hp
        subst hp
        exact hnq)
    exact ⟨this.1, Or.inl this.2⟩
  · have := inv0.enqueue_queue ht hnq s1 (by rw [h1]) (by rw [h1]) (by rw [h1]) (by rw [h1])
      (by rw [h1])
    exact ⟨this.1, Or.inr this.2⟩

theorem QueueInv.queue_after_spawn {s : System} (inv : QueueInv s) (hq : s.pushers = []) :
    QueueInv { s with pool := (push_spawn s.pool s.workers).1,
                      workers := (push_spawn s.pool s.workers).2.1 } ∧
    System.queue { s with pool := (push_spawn s.pool s.workers).1,
                          workers := (push_spawn s.pool s.workers).2.1 } = s.queue := by
  obtain ⟨h1, h2⟩ := push_spawn_pending s.pool s.workers
  exact inv.congr_queue _ rfl h1 h2 rfl (fun p hp => by
    simp only [hq] at hp
    simp at hp)

theorem QueueInv.queue_after_finish {s : System} (inv : QueueInv s) {t : Nat}
    {pool1 : thread_pool} {h1 : Heap}
    (hf : thread_worker_finish s.pool s.tasks t = some (pool1, h1)) (s1 : System)
    (k1 : s1.tasks = h1) (k2 : s1.pool.pending_task_list = pool1.pending_task_list)
    (k3 : s1.pool.pending_task_count = pool1.pending_task_count)
    (k4 : s1.pool_addr = s.pool_addr) (k5 : s1.pushers = s.pushers) :
    QueueInv s1 ∧ s1.queue = s.queue := by
  obtain ⟨e0, task, ht, hcase⟩ := thread_worker_finish_inv hf
  subst e0
  rcases hcase with ⟨_, e1⟩ | ⟨_, e1⟩
  · refine inv.set_queue ht e1 ?_ s1 k1 k2 k3 k4 k5
    cases hp : task.pool with
    | none => exact Or.inr rfl
    | some a =>
      refine Or.inl ⟨task, ?_, rfl, hp⟩
      simp [thread_task_delete, hp]
  · exact inv.set_queue ht e1 (Or.inl ⟨_, rfl, rfl, rfl⟩) s1 k1 k2 k3 k4 k5

/-- Every step that does not push a task which is in the pending list keeps the
pending list well formed. -/
theorem QueueInv.step_queue {M : Int} {cfg : Config} {s s1 : System} {e : Event}
    (inv : QueueInv s) (cinv : CountInv M s) (hg : push_not_queued s e = true)
    (hs : step cfg s e = some s1) : QueueInv s1 := by
  cases e with
  | push t =>
    have hnq : t ∉ s.queue := by
      simpa [push_not_queued] using hg
    obtain ⟨hq, ho⟩ := step_push_inv hs
    unfold thread_pool_push_task at ho
    split at ho
    · simp only [Outcome.state, Option.some.injEq] at ho
      exact ho ▸ inv
    · obtain ⟨inv0, hq0⟩ := inv.queue_after_spawn hq
      rw [hq] at ho
      exact (inv0.queue_after_push_finish (hq0 ▸ hnq) ho).1
  | resume =>
    have ho := step_resume_inv hs
    unfold thread_pool_push_task_resume at ho
    have hb := cinv.barrier
    cases hq : s.pushers with
    | nil => simp [hq, Outcome.state] at ho
    | cons a l =>
      obtain ⟨t, required⟩ := a
      rw [hq] at hb ho
      cases l with
      | cons b l2 => exact hb.elim
      | nil =>
        have hnq : t ∉ s.queue := inv.barrier (t, required) (by simp [hq])
        exact (inv.queue_after_push_finish hnq ho).1
  | register w =>
    obtain ⟨idx, r, hw, hr, h1⟩ := step_register_inv hs
    obtain ⟨p1, h1', pc⟩ := r
    have hx := cinv.exit_ne hw
    rcases thread_worker_loop_inv (by exact hx) hr with ⟨_, e2, e3, _⟩ | ⟨t, _, _, e2⟩
    · subst e2 e3
      exact (inv.congr_queue s1 (by rw [h1]; rfl) (by rw [h1]; rfl) (by rw [h1]; rfl)
        (by rw [h1]; rfl) (by rw [h1]; exact inv.barrier)).1
    · exact (inv.take_queue e2 rfl rfl s1 (by rw [h1]; rfl) (by rw [h1]; rfl)
        (by rw [h1]; rfl) (by rw [h1]; rfl) (by rw [h1]; rfl)).1
  | wake w =>
    obtain ⟨idx, r, hw, hr, h1⟩ := step_wake_inv hs
    obtain ⟨p1, h1', pc⟩ := r
    have hx := cinv.exit_ne hw
    rcases thread_worker_wake_inv hx hr with ⟨_, e2, e3, _⟩ | ⟨t, _, _, e2⟩
    · subst e2 e3
      exact (inv.congr_queue s1 (by rw [h1]; rfl) (by rw [h1]; rfl) (by rw [h1]; rfl)
        (by rw [h1]; rfl) (by rw [h1]; exact inv.barrier)).1
    · exact (inv.take_queue e2 rfl rfl s1 (by rw [h1]; rfl) (by rw [h1]; rfl)
        (by rw [h1]; rfl) (by rw [h1]; rfl) (by rw [h1]; rfl)).1
  | start w =>
    obtain ⟨idx, t, h, hw, hr, h1⟩ := step_start_inv hs
    obtain ⟨task, ht, e1⟩ := thread_worker_start_inv hr
    exact (inv.set_queue ht e1 (Or.inl ⟨_, rfl, rfl, rfl⟩) s1 (by rw [h1]) (by rw [h1])
      (by rw [h1]) (by rw [h1]) (by rw [h1])).1
  | complete w =>
    obtain ⟨idx, t, pool1, h1, r, hw, hf, hr, hs1⟩ := step_complete_inv hs
    obtain ⟨p2, h2, pc⟩ := r
    have hx := cinv.exit_ne hw
    obtain ⟨inv1, _⟩ := inv.queue_after_finish hf { s with pool := pool1, tasks := h1 }
      rfl rfl rfl rfl rfl
    obtain ⟨e0, _⟩ := thread_worker_finish_inv hf
    have hx1 : pool1.thread_idx_that_should_exit ≠ idx := by
      rw [e0]
      exact hx
    rcases thread_worker_loop_inv hx1 hr with ⟨_, e2, e3, _⟩ | ⟨u, _, _, e2⟩
    · subst e2 e3
      exact (inv1.congr_queue s1 (by rw [hs1]; rfl) (by rw [hs1]; rfl) (by rw [hs1]; rfl)
        (by rw [hs1]; rfl) (by rw [hs1]; exact inv1.barrier)).1
    · exact (inv1.take_queue e2 rfl rfl s1 (by rw [hs1]; rfl) (by rw [hs1]; rfl)
        (by rw [hs1]; rfl) (by rw [hs1]; rfl) (by rw [hs1]; rfl)).1

theorem QueueInv.queue_at_init (pool_addr : Nat) (pool : thread_pool) (tasks : Heap)
    (cfg : Config) (m : Int) (h : thread_pool_new cfg m = .ok pool) :
    QueueInv (System.init pool_addr pool tasks) := by
  unfold thread_pool_new at h
  split at h
  · simp at h
  · simp only [Except.ok.injEq] at h
    subst h
    have hc : Chain (System.init pool_addr (pool_demo m) tasks).tasks
        (System.init pool_addr (pool_demo m) tasks).pool.pending_task_list [] := rfl
    refine (QueueInv.of_list hc rfl List.nodup_nil ?_ ?_).1
    · intro t ht
      simp at ht
    · intro p hp
      simp [System.init] at hp

theorem QueueInv.run_queue {M : Int} {cfg : Config} {s s1 : System} {evs : List Event}
    (inv : QueueInv s) (cinv : CountInv M s)
    (h : run_guarded cfg push_not_queued s evs = some s1) : QueueInv s1 ∧ CountInv M s1 := by
  have key := run_guarded_invariant cfg push_not_queued
    (fun x => CountInv M x ∧ QueueInv x)
    (fun _ _ _ hx hg hs => ⟨hx.1.step_count hs, hx.2.step_queue hx.1 hg hs⟩)
    evs s s1 ⟨cinv, inv⟩ h
  exact ⟨key.2, key.1⟩

/-! ## The life cycle of a task -/

theorem runs_set_count (t : Nat) (ws : List Worker) (w : Nat) (wk wk1 : Worker)
    (hw : ws[w]? = some wk) :
    (ws.set w wk1).countP (Worker.runs t) + (if wk.runs t then 1 else 0) =
      ws.countP (Worker.runs t) + (if wk1.runs t then 1 else 0) :=
  countP_set_add (Worker.runs t) ws w wk1 wk hw

theorem runs_le_holds (t : Nat) (ws : List Worker) :
    ws.countP (Worker.runs t) ≤ ws.countP (Worker.holds t) := by
  apply List.countP_mono_left
  intro x _ hx
  obtain ⟨i, pc⟩ := x
  cases pc <;> simp_all [Worker.holds, Worker.runs]

theorem LifeInv.congr_life {specs : List ((Int → Int) × Int)} {s : System}
    (inv : LifeInv specs s) (s1 : System) (k1 : s1.tasks = s.tasks)
    (k2 : s1.queue = s.queue)
    (k3 : ∀ t, s1.workers.countP (Worker.holds t) = s.workers.countP (Worker.holds t))
    (k4 : ∀ t, s1.workers.countP (Worker.runs t) = s.workers.countP (Worker.runs t))
    (k5 : s1.calls = s.calls)
    (k6 : ∀ p ∈ s1.pushers, s.queue.count p.1 + s.workers.countP (Worker.holds p.1) = 0) :
    LifeInv specs s1 := by
  obtain ⟨a1, a2, a3, a4, a5⟩ := inv
  refine ⟨k1 ▸ a1, ?_, ?_, ?_, ?_⟩
  · intro t
    rw [k2, k3]
    exact a2 t
  · intro p hp
    rw [k2, k3]
    exact k6 p hp
  · intro t task ht
    rw [k4]
    exact a4 t task (k1 ▸ ht)
  · intro t task ht
    rw [k2, k3, k5]
    exact a5 t task (k1 ▸ ht)

theorem LifeInv.enqueue_life {specs : List ((Int → Int) × Int)} {s : System}
    (inv : LifeInv specs s) {t : Nat} {task : thread_task} (ht : s.tasks t = some task)
    (h0 : s.queue.count t + s.workers.countP (Worker.holds t) = 0) (a : Nat)
    (nx : Option Nat) (s1 : System)
    (k1 : s1.tasks = s.tasks.set t (some { task with pool := some a, next := nx,
                                                     is_finished := false,
                                                     is_running := false }))
    (k2 : s1.queue = t :: s.queue) (k3 : s1.workers = s.workers) (k5 : s1.calls = s.calls)
    (k6 : s1.pushers = []) : LifeInv specs s1 := by
  obtain ⟨a1, a2, a3, a4, a5⟩ := inv
  have hr := runs_le_holds t s.workers
  refine ⟨?_, ?_, ?_, ?_, ?_⟩
  · rw [k1]
    exact a1.set ht rfl rfl rfl
  · intro u
    rw [k2, k3]
    have := a2 u
    by_cases e : t = u
    · subst e
      simp only [List.count_cons_self]
      omega
    · rw [List.count_cons_of_ne (fun h => e h.symm)]
      exact this
  · intro p hp
    rw [k6] at hp
    simp at hp
  · intro u tu hu
    rw [k3]
    rw [k1] at hu
    by_cases e : u = t
    · subst e
      rw [Heap.set_same] at hu
      simp only [Option.some.injEq] at hu
      subst hu
      simp only [Bool.false_eq_true, false_iff, not_lt, Nat.le_zero_eq]
      omega
    · rw [Heap.set_other _ _ _ _ e] at hu
      exact a4 u tu hu
  · intro u tu hu
    rw [k2, k3, k5]
    rw [k1] at hu
    by_cases e : u = t
    · subst e
      rw [Heap.set_same] at hu
      simp only [Option.some.injEq] at hu
      subst hu
      simp only [Bool.false_eq_true, List.count_cons_self, false_iff]
      omega
    · rw [Heap.set_other _ _ _ _ e] at hu
      rw [List.count_cons_of_ne e]
      exact a5 u tu hu

theorem LifeInv.take_life {specs : List ((Int → Int) × Int)} {s : System}
    (inv : LifeInv specs s) {w : Nat} {wk : Worker} (hw : s.workers[w]? = some wk)
    (hfree : ∀ u, wk.holds u = false) {t : Nat} {task : thread_task}
    (ht : s.tasks t = some task) (idx : Int) (s1 : System)
    (k1 : s1.tasks = s.tasks.set t (some { task with next := none }))
    (k2 : s.queue = t :: s1.queue) (k3 : s1.workers = s.workers.set w ⟨idx, .claimed t⟩)
    (k5 : s1.calls = s.calls) (k6 : s1.pushers = s.pushers) : LifeInv specs s1 := by
  obtain ⟨a1, a2, a3, a4, a5⟩ := inv
  have hholds : ∀ u, s1.workers.countP (Worker.holds u) =
      s.workers.countP (Worker.holds u) + (if t = u then 1 else 0) := by
    intro u
    have h2 := holds_set_count u s.workers w wk ⟨idx, .claimed t⟩ hw
    rw [hfree u] at h2
    rw [k3]
    simpa [Worker.holds] using h2
  have hruns : ∀ u, s1.workers.countP (Worker.runs u) = s.workers.countP (Worker.runs u) := by
    intro u
    have h2 := runs_set_count u s.workers w wk ⟨idx, .claimed t⟩ hw
    have hf : wk.runs u = false := by
      have := hfree u
      obtain ⟨i, pc⟩ := wk
      cases pc <;> simp_all [Worker.holds, Worker.runs]
    rw [hf] at h2
    rw [k3]
    simpa [Worker.runs] using h2
  have hcount : ∀ u, s.queue.count u = s1.queue.count u + (if t = u then 1 else 0) := by
    intro u
    rw [k2, List.count_cons]
    simp
  refine ⟨?_, ?_, ?_, ?_, ?_⟩
  · rw [k1]
    exact a1.set ht rfl rfl rfl
  · intro u
    have := a2 u
    have := hholds u
    have := hcount u
    omega
  · intro p hp
    rw [k6] at hp
    have := a3 p hp
    have := hholds p.1
    have := hcount p.1
    omega
  · intro u tu hu
    rw [hruns]
    rw [k1] at hu
    by_cases e : u = t
    · subst e
      rw [Heap.set_same] at hu
      simp only [Option.some.injEq] at hu
      subst hu
      exact a4 u task ht
    · rw [Heap.set_other _ _ _ _ e] at hu
      exact a4 u tu hu
  · intro u tu hu
    rw [k5]
    rw [k1] at hu
    have hh := hholds u
    have hc := hcount u
    by_cases e : u = t
    · subst e
      rw [Heap.set_same] at hu
      simp only [Option.some.injEq] at hu
      subst hu
      have old := a5 u task ht
      simp only [if_true] at hh hc
      constructor
      · intro hfin
        have := (old.mp hfin).1
        omega
      · intro hfin
        have := hfin.2.1
        omega
    · rw [Heap.set_other _ _ _ _ e] at hu
      have old := a5 u tu hu
      rw [if_neg (fun h => e h.symm)] at hh hc
      rw [hh, ← hc.trans (Nat.add_zero _)]
      exact old

theorem LifeInv.start_life {specs : List ((Int → Int) × Int)} {s : System}
    (inv : LifeInv specs s) {w : Nat} {idx : Int} {t : Nat} {task : thread_task}
    (hw : s.workers[w]? = some ⟨idx, .claimed t⟩) (ht : s.tasks t = some task) (s1 : System)
    (k1 : s1.tasks = s.tasks.set t (some { task with is_running := true }))
    (k2 : s1.queue = s.queue) (k3 : s1.workers = s.workers.set w ⟨idx, .executing t⟩)
    (k5 : s1.calls = s.calls) (k6 : s1.pushers = s.pushers) : LifeInv specs s1 := by
  obtain ⟨a1, a2, a3, a4, a5⟩ := inv
  have hholds : ∀ u, s1.workers.countP (Worker.holds u) = s.workers.countP (Worker.holds u) := by
    intro u
    have h2 := holds_set_count u s.workers w ⟨idx, .claimed t⟩ ⟨idx, .executing t⟩ hw
    rw [k3]
    simp only [Worker.holds] at h2
    omega
  have hruns : ∀ u, s1.workers.countP (Worker.runs u) =
      s.workers.countP (Worker.runs u) + (if t = u then 1 else 0) := by
    intro u
    have h2 := runs_set_count u s.workers w ⟨idx, .claimed t⟩ ⟨idx, .executing t⟩ hw
    rw [k3]
    simpa [Worker.runs] using h2
  refine ⟨?_, ?_, ?_, ?_, ?_⟩
  · rw [k1]
    exact a1.set ht rfl rfl rfl
  · intro u
    rw [k2, hholds]
    exact a2 u
  · intro p hp
    rw [k6] at hp
    rw [k2, hholds]
    exact a3 p hp
  · intro u tu hu
    rw [k1] at hu
    have hh := hruns u
    by_cases e : u = t
    · subst e
      rw [Heap.set_same] at hu
      simp only [Option.some.injEq] at hu
      subst hu
      simp only [if_true] at hh
      simp only [true_iff]
      omega
    · rw [Heap.set_other _ _ _ _ e] at hu
      rw [if_neg (fun h => e h.symm)] at hh
      rw [hh]
      exact a4 u tu hu
  · intro u tu hu
    rw [k2, hholds, k5]
    rw [k1] at hu
    by_cases e : u = t
    · subst e
      rw [Heap.set_same] at hu
      simp only [Option.some.injEq] at hu
      subst hu
      exact a5 u task ht
    · rw [Heap.set_other _ _ _ _ e] at hu
      exact a5 u tu hu

theorem LifeInv.finish_life {specs : List ((Int → Int) × Int)} {s : System}
    (inv : LifeInv specs s) {w : Nat} {idx : Int} {t : Nat} {task : thread_task}
    (hw : s.workers[w]? = some ⟨idx, .executing t⟩) (ht : s.tasks t = some task)
    (s1 : System)
    (k1 : s1.tasks = s.tasks.set t (some { task with is_running := false, is_finished := true,
                                                     result := task.function task.arg }))
    (k2 : s1.queue = s.queue) (k3 : s1.workers = s.workers.set w ⟨idx, .waiting⟩)
    (k5 : s1.calls = s.calls ++ [t]) (k6 : s1.pushers = s.pushers) : LifeInv specs s1 := by
  obtain ⟨a1, a2, a3, a4, a5⟩ := inv
  have hholds : ∀ u, s1.workers.countP (Worker.holds u) + (if t = u then 1 else 0) =
      s.workers.countP (Worker.holds u) := by
    intro u
    have h2 := holds_set_count u s.workers w ⟨idx, .executing t⟩ ⟨idx, .waiting⟩ hw
    rw [k3]
    simpa [Worker.holds] using h2
  have hruns : ∀ u, s1.workers.countP (Worker.runs u) + (if t = u then 1 else 0) =
      s.workers.countP (Worker.runs u) := by
    intro u
    have h2 := runs_set_count u s.workers w ⟨idx, .executing t⟩ ⟨idx, .waiting⟩ hw
    rw [k3]
    simpa [Worker.runs] using h2
  refine ⟨?_, ?_, ?_, ?_, ?_⟩
  · rw [k1]
    exact a1.set ht rfl rfl rfl
  · intro u
    rw [k2]
    have := a2 u
    have := hholds u
    omega
  · intro p hp
    rw [k6] at hp
    rw [k2]
    have := a3 p hp
    have := hholds p.1
    omega
  · intro u tu hu
    rw [k1] at hu
    have hh := hruns u
    by_cases e : u = t
    · subst e
      rw [Heap.set_same] at hu
      simp only [Option.some.injEq] at hu
      subst hu
      simp only [if_true] at hh
      have h1 := runs_le_holds u s.workers
      have h2 := a2 u
      simp only [Bool.false_eq_true, false_iff, not_lt, Nat.le_zero_eq]
      omega
    · rw [Heap.set_other _ _ _ _ e] at hu
      rw [if_neg (fun h => e h.symm), Nat.add_zero] at hh
      rw [hh]
      exact a4 u tu hu
  · intro u tu hu
    rw [k2, k5]
    rw [k1] at hu
    have hh := hholds u
    by_cases e : u = t
    · subst e
      rw [Heap.set_same] at hu
      simp only [Option.some.injEq] at hu
      subst hu
      simp only [if_true] at hh
      have h2 := a2 u
      simp only [true_iff, List.mem_append, List.mem_singleton, or_true, and_true]
      omega
    · rw [Heap.set_other _ _ _ _ e] at hu
      rw [if_neg (fun h => e h.symm), Nat.add_zero] at hh
      rw [hh]
      simp only [List.mem_append, List.mem_singleton, e, or_false]
      exact a5 u tu hu

theorem LifeInv.idle_life {specs : List ((Int → Int) × Int)} {s : System}
    (inv : LifeInv specs s) {w : Nat} {wk : Worker} (hw : s.workers[w]? = some wk)
    (hfree : ∀ u, wk.holds u = false) (wk1 : Worker) (hfree1 : ∀ u, wk1.holds u = false)
    (s1 : System) (k1 : s1.tasks = s.tasks) (k2 : s1.queue = s.queue)
    (k3 : s1.workers = s.workers.set w wk1) (k5 : s1.calls = s.calls)
    (k6 : s1.pushers = s.pushers) : LifeInv specs s1 := by
  have hr : ∀ (x : Worker), (∀ u, x.holds u = false) → ∀ u, x.runs u = false := by
    intro x hx u
    have := hx u
    obtain ⟨i, pc⟩ := x
    cases pc <;> simp_all [Worker.holds, Worker.runs]
  refine inv.congr_life s1 k1 k2 (fun t => ?_) (fun t => ?_) k5 (fun p hp => ?_)
  · have h2 := holds_set_count t s.workers w wk wk1 hw
    rw [hfree t, hfree1 t] at h2
    rw [k3]
    simpa using h2
  · have h2 := runs_set_count t s.workers w wk wk1 hw
    rw [hr wk hfree t, hr wk1 hfree1 t] at h2
    rw [k3]
    simpa using h2
  · rw [k6] at hp
    exact inv.barrier p hp

theorem push_idle_not_queued {s : System} {e : Event} (hg : push_idle s e = true) :
    push_not_queued s e = true := by
  cases e with
  | push t =>
    simp only [push_idle, Bool.and_eq_true] at hg
    exact hg.1
  | resume => rfl
  | register w => rfl
  | wake w => rfl
  | start w => rfl
  | complete w => rfl

theorem push_idle_facts {s : System} {t : Nat} (hg : push_idle s (.push t) = true) :
    t ∉ s.queue ∧ s.queue.count t + s.workers.countP (Worker.holds t) = 0 := by
  simp only [push_idle, Bool.and_eq_true, Bool.not_eq_true', List.contains_eq_any_beq,
    List.any_eq_false, beq_iff_eq] at hg
  have h1 : t ∉ s.queue := fun hm => hg.1 t hm rfl
  have h2 : s.workers.countP (Worker.holds t) = 0 := by
    rw [List.countP_eq_zero]
    intro x hx
    simpa using hg.2 x hx
  exact ⟨h1, by rw [List.count_eq_zero_of_not_mem h1, h2]⟩

theorem push_spawn_counts (pool : thread_pool) (workers : List Worker) (t : Nat) :
    (push_spawn pool workers).2.1.countP (Worker.holds t) = workers.countP (Worker.holds t) ∧
    (push_spawn pool workers).2.1.countP (Worker.runs t) = workers.countP (Worker.runs t) := by
  rcases push_spawn_cases pool workers with ⟨_, hr⟩ | ⟨_, _, _, _, _, hr⟩ | ⟨_, _, _, hr⟩ <;>
    rw [hr] <;> simp [List.countP_append, Worker.holds, Worker.runs]

theorem LifeInv.life_after_push_finish {specs : List ((Int → Int) × Int)} {s0 s1 : System}
    {t : Nat} {required : Int} (inv0 : LifeInv specs s0) (qinv0 : QueueInv s0)
    (h0 : s0.queue.count t + s0.workers.countP (Worker.holds t) = 0)
    (ho : (push_finish s0 t required []).state = some s1) : LifeInv specs s1 := by
  have hnq : t ∉ s0.queue := by
    rw [← List.count_eq_zero]
    omega
  rcases push_finish_inv ho with ⟨_, h1⟩ | ⟨_, task, ht, h1⟩
  · have hq := (qinv0.congr_queue s1 (by rw [h1]) (by rw [h1]) (by rw [h1]) (by rw [h1])
      (fun p hp => by
        rw [h1] at hp
        simp only [List.mem_singleton] at hp
        subst hp
        exact hnq)).2
    refine inv0.congr_life s1 (by rw [h1]) hq (fun u => by rw [h1]) (fun u => by rw [h1])
      (by rw [h1]) (fun p hp => ?_)
    rw [h1] at hp
    simp only [List.mem_singleton] at hp
    subst hp
    exact h0
  · have hq := (qinv0.enqueue_queue ht hnq s1 (by rw [h1]) (by rw [h1]) (by rw [h1])
      (by rw [h1]) (by rw [h1])).2
    exact inv0.enqueue_life ht h0 s0.pool_addr s0.pool.pending_task_list s1 (by rw [h1]) hq
      (by rw [h1]) (by rw [h1]) (by rw [h1])

/-- Every step that pushes no task which is pending or in the hands of a worker
keeps the life cycle of the tasks. -/
theorem LifeInv.step_life {specs : List ((Int → Int) × Int)} {M : Int} {cfg : Config}
    {s s1 : System} {e : Event} (inv : LifeInv specs s) (qinv : QueueInv s)
    (cinv : CountInv M s) (hg : push_idle s e = true) (hs : step cfg s e = some s1) :
    LifeInv specs s1 := by
  cases e with
  | push t =>
    obtain ⟨hnq, h0⟩ := push_idle_facts hg
    obtain ⟨hq, ho⟩ := step_push_inv hs
    unfold thread_pool_push_task at ho
    split at ho
    · simp only [Outcome.state, Option.some.injEq] at ho
      exact ho ▸ inv
    · obtain ⟨qinv0, hq0⟩ := qinv.queue_after_spawn hq
      have inv0 : LifeInv specs { s with pool := (push_spawn s.pool s.workers).1,
                                         workers := (push_spawn s.pool s.workers).2.1 } :=
        inv.congr_life _ rfl hq0 (fun u => (push_spawn_counts s.pool s.workers u).1)
          (fun u => (push_spawn_counts s.pool s.workers u).2) rfl
          (fun p hp => by
            simp only [hq] at hp
            simp at hp)
      rw [hq] at ho
      refine inv0.life_after_push_finish qinv0 ?_ ho
      rw [hq0]
      simp only [(push_spawn_counts s.pool s.workers t).1]
      exact h0
  | resume =>
    have ho := step_resume_inv hs
    unfold thread_pool_push_task_resume at ho
    have hb := cinv.barrier
    cases hq : s.pushers with
    | nil => simp [hq, Outcome.state] at ho
    | cons a l =>
      obtain ⟨t, required⟩ := a
      rw [hq] at hb ho
      cases l with
      | cons b l2 => exact hb.elim
      | nil => exact inv.life_after_push_finish qinv (inv.barrier (t, required) (by simp [hq])) ho
  | register w =>
    obtain ⟨idx, r, hw, hr, h1⟩ := step_register_inv hs
    obtain ⟨p1, h1', pc⟩ := r
    have hx := cinv.exit_ne hw
    have hfree : ∀ u, (⟨idx, .spawned⟩ : Worker).holds u = false := fun _ => rfl
    rcases thread_worker_loop_inv (by exact hx) hr with ⟨e1, e2, e3, _⟩ | ⟨t, e1, _, e2⟩
    · subst e1 e2 e3
      have hq := (qinv.congr_queue s1 (by rw [h1]; rfl) (by rw [h1]; rfl) (by rw [h1]; rfl)
        (by rw [h1]; rfl) (by rw [h1]; exact qinv.barrier)).2
      exact inv.idle_life hw hfree ⟨idx, .waiting⟩ (fun _ => rfl) s1 (by rw [h1]; rfl) hq
        (by rw [h1]; rfl) (by rw [h1]; rfl) (by rw [h1]; rfl)
    · subst e1
      have hq := (qinv.take_queue e2 rfl rfl s1 (by rw [h1]; rfl) (by rw [h1]; rfl)
        (by rw [h1]; rfl) (by rw [h1]; rfl) (by rw [h1]; rfl)).2
      obtain ⟨task, _, ht, _, e4⟩ := thread_worker_take_inv e2
      exact inv.take_life hw hfree ht idx s1 (by rw [h1]; exact e4) hq (by rw [h1]; rfl)
        (by rw [h1]; rfl) (by rw [h1]; rfl)
  | wake w =>
    obtain ⟨idx, r, hw, hr, h1⟩ := step_wake_inv hs
    obtain ⟨p1, h1', pc⟩ := r
    have hx := cinv.exit_ne hw
    have hfree : ∀ u, (⟨idx, .waiting⟩ : Worker).holds u = false := fun _ => rfl
    rcases thread_worker_wake_inv hx hr with ⟨e1, e2, e3, _⟩ | ⟨t, e1, _, e2⟩
    · subst e1 e2 e3
      have hq := (qinv.congr_queue s1 (by rw [h1]; rfl) (by rw [h1]; rfl) (by rw [h1]; rfl)
        (by rw [h1]; rfl) (by rw [h1]; exact qinv.barrier)).2
      exact inv.idle_life hw hfree ⟨idx, .waiting⟩ (fun _ => rfl) s1 (by rw [h1]; rfl) hq
        (by rw [h1]; rfl) (by rw [h1]; rfl) (by rw [h1]; rfl)
    · subst e1
      have hq := (qinv.take_queue e2 rfl rfl s1 (by rw [h1]; rfl) (by rw [h1]; rfl)
        (by rw [h1]; rfl) (by rw [h1]; rfl) (by rw [h1]; rfl)).2
      obtain ⟨task, _, ht, _, e4⟩ := thread_worker_take_inv e2
      exact inv.take_life hw hfree ht idx s1 (by rw [h1]; exact e4) hq (by rw [h1]; rfl)
        (by rw [h1]; rfl) (by rw [h1]; rfl)
  | start w =>
    obtain ⟨idx, t, h, hw, hr, h1⟩ := step_start_inv hs
    obtain ⟨task, ht, e1⟩ := thread_worker_start_inv hr
    have hq := (qinv.set_queue ht e1 (Or.inl ⟨_, rfl, rfl, rfl⟩) s1 (by rw [h1]) (by rw [h1])
      (by rw [h1]) (by rw [h1]) (by rw [h1])).2
    exact inv.start_life hw ht s1 (by rw [h1]; exact e1) hq (by rw [h1]) (by rw [h1])
      (by rw [h1])
  | complete w =>
    obtain ⟨idx, t, pool1, h1, r, hw, hf, hr, hs1⟩ := step_complete_inv hs
    obtain ⟨p2, h2, pc⟩ := r
    have hx := cinv.exit_ne hw
    obtain ⟨e0, task, ht, hcase⟩ := thread_worker_finish_inv hf
    obtain ⟨fa, _, _, _, hdet⟩ := inv.static t task ht
    have e1 : h1 = s.tasks.set t (some { task with is_running := false, is_finished := true,
                                                   result := task.function task.arg }) := by
      rcases hcase with ⟨hd, _⟩ | ⟨_, e1⟩
      · rw [hdet] at hd
        simp at hd
      · exact e1
    obtain ⟨qinv1, hq1⟩ := qinv.queue_after_finish hf
      { s with pool := pool1, tasks := h1, workers := s.workers.set w ⟨idx, .waiting⟩,
               calls := s.calls ++ [t] } rfl rfl rfl rfl rfl
    have inv1 := inv.finish_life hw ht
      { s with pool := pool1, tasks := h1, workers := s.workers.set w ⟨idx, .waiting⟩,
               calls := s.calls ++ [t] } e1 hq1 rfl rfl rfl
    have hx1 : pool1.thread_idx_that_should_exit ≠ idx := by
      rw [e0]
      exact hx
    have hlt : w < s.workers.length := by
      obtain ⟨hlt, _⟩ := List.getElem?_eq_some_iff.mp hw
      exact hlt
    have hw1 : (s.workers.set w ⟨idx, .waiting⟩)[w]? = some ⟨idx, .waiting⟩ := by
      simp [hlt]
    rcases thread_worker_loop_inv hx1 hr with ⟨e2, e3, e4, _⟩ | ⟨u, e2, _, e3⟩
    · subst e2 e3 e4
      have hq := (qinv1.congr_queue s1 (by rw [hs1]; try rfl) (by rw [hs1]; try rfl) (by rw [hs1]; try rfl)
        (by rw [hs1]; try rfl) (by rw [hs1]; exact qinv1.barrier)).2
      exact inv1.congr_life s1 (by rw [hs1]; try rfl) hq (fun _ => by rw [hs1]; rfl)
        (fun _ => by rw [hs1]; rfl) (by rw [hs1]; try rfl) (by rw [hs1]; exact inv1.barrier)
    · subst e2
      have hq := (qinv1.take_queue e3 rfl rfl s1 (by rw [hs1]; try rfl) (by rw [hs1]; try rfl)
        (by rw [hs1]; try rfl) (by rw [hs1]; try rfl) (by rw [hs1]; try rfl)).2
      obtain ⟨tasku, _, htu, _, e4⟩ := thread_worker_take_inv e3
      exact inv1.take_life hw1 (fun _ => rfl) htu idx s1 (by rw [hs1]; exact e4) hq
        (by rw [hs1]; simp [System.worker_update, List.set_set]) (by rw [hs1]; try rfl)
        (by rw [hs1]; try rfl)

theorem LifeInv.life_at_init (specs : List ((Int → Int) × Int)) (pool_addr : Nat)
    (pool : thread_pool) (cfg : Config) (m : Int) (h : thread_pool_new cfg m = .ok pool) :
    LifeInv specs (System.init pool_addr pool (heap_of specs)) := by
  have tinv := TaskInv.tasks_at_init specs pool_addr pool cfg m h
  have hfresh : ∀ t task, (System.init pool_addr pool (heap_of specs)).tasks t = some task →
      task.is_running = false ∧ task.is_finished = false := by
    intro t task ht
    simp only [System.init, heap_of] at ht
    cases hs : specs[t]? with
    | none => simp [hs] at ht
    | some fa =>
      simp only [hs, Option.map_some', Option.some.injEq] at ht
      subst ht
      exact ⟨rfl, rfl⟩
  refine ⟨tinv.static, ?_, ?_, ?_, ?_⟩
  · intro t
    have hq : (System.init pool_addr pool (heap_of specs)).queue = [] := by
      unfold thread_pool_new at h
      split at h
      · simp at h
      · simp only [Except.ok.injEq] at h
        subst h
        rfl
    rw [hq]
    simp [System.init]
  · intro p hp
    simp [System.init] at hp
  · intro t task ht
    rw [(hfresh t task ht).1]
    simp [System.init]
  · intro t task ht
    rw [(hfresh t task ht).2]
    simp [System.init]

/-- The three invariants hold in every state of an execution in which a task is
pushed only when it is neither pending nor in the hands of a worker. -/
theorem run_life_inv {specs : List ((Int → Int) × Int)} {M : Int} {cfg : Config}
    {pool_addr : Nat} {pool : thread_pool} {s : System} {evs : List Event}
    (hnew : thread_pool_new cfg M = .ok pool)
    (h : run_guarded cfg push_idle (System.init pool_addr pool (heap_of specs)) evs = some s) :
    CountInv M s ∧ QueueInv s ∧ LifeInv specs s :=
  run_guarded_invariant cfg push_idle
    (fun x => CountInv M x ∧ QueueInv x ∧ LifeInv specs x)
    (fun _ _ _ hx hg hs =>
      ⟨hx.1.step_count hs, hx.2.1.step_queue hx.1 (push_idle_not_queued hg) hs,
        hx.2.2.step_life hx.2.1 hx.1 hg hs⟩)
    evs _ s
    ⟨CountInv.at_init pool_addr pool (heap_of specs) cfg M hnew,
      QueueInv.queue_at_init pool_addr pool (heap_of specs) cfg M hnew,
      LifeInv.life_at_init specs pool_addr pool cfg M hnew⟩ h

/-! ## What the worker segments leave alone -/

theorem thread_worker_after_wait_frame {pool : thread_pool} {h : Heap} {idx : Int}
    {r : thread_pool × Heap × WorkerPc} (e : thread_worker_after_wait pool h idx = some r) :
    r.1.thread_count = pool.thread_count ∧ r.1.threads = pool.threads ∧ r.2.2 ≠ .spawned := by
  unfold thread_worker_after_wait at e
  split at e
  · simp only [Option.some.injEq] at e
    subst e
    exact ⟨rfl, rfl, by simp⟩
  · cases ht : thread_worker_take pool h with
    | none => simp [ht] at e
    | some q =>
      obtain ⟨p2, h2, t⟩ := q
      simp only [ht, Option.some.injEq] at e
      subst e
      obtain ⟨task, _, _, e3, _⟩ := thread_worker_take_inv ht
      subst e3
      exact ⟨rfl, rfl, by simp⟩

theorem thread_worker_wake_frame {pool : thread_pool} {h : Heap} {idx : Int}
    {r : thread_pool × Heap × WorkerPc} (e : thread_worker_wake pool h idx = some r) :
    r.1.thread_count = pool.thread_count ∧ r.1.threads = pool.threads ∧ r.2.2 ≠ .spawned := by
  unfold thread_worker_wake at e
  split at e
  · simp only [Option.some.injEq] at e
    subst e
    exact ⟨rfl, rfl, by simp⟩
  · exact thread_worker_after_wait_frame e

theorem thread_worker_loop_frame {pool : thread_pool} {h : Heap} {idx : Int}
    {r : thread_pool × Heap × WorkerPc} (e : thread_worker_loop pool h idx = some r) :
    r.1.thread_count = pool.thread_count ∧ r.1.threads = pool.threads ∧ r.2.2 ≠ .spawned :=
  @thread_worker_wake_frame { pool with idle_thread_count := pool.idle_thread_count + 1 }
    h idx r e

/-- A worker segment leaves the suspended callers, the deleter, the thread array and
the number of threads as they are, does not lower `thread_count`, keeps the
index of every worker, and puts no worker back to its start. -/
theorem step_worker_frame {cfg : Config} {s s1 : System} {e : Event}
    (hs : step cfg s e = some s1) (hp : e.is_push = false) (hr : e ≠ .resume) :
    s1.pushers = s.pushers ∧ s1.deleter = s.deleter ∧ s1.pool.threads = s.pool.threads ∧
    s.pool.thread_count ≤ s1.pool.thread_count ∧
    ∃ w wk pc, s.workers[w]? = some wk ∧ pc ≠ .spawned ∧
      s1.workers = s.workers.set w ⟨wk.idx, pc⟩ := by
  cases e with
  | push t => simp [Event.is_push] at hp
  | resume => exact (hr rfl).elim
  | register w =>
    obtain ⟨idx, r, hw, hreg, h1⟩ := step_register_inv hs
    obtain ⟨a, b, c⟩ := thread_worker_loop_frame hreg
    subst h1
    refine ⟨rfl, rfl, b, ?_, w, _, r.2.2, hw, c, rfl⟩
    simp only [System.worker_update, a]
    omega
  | wake w =>
    obtain ⟨idx, r, hw, hwk, h1⟩ := step_wake_inv hs
    obtain ⟨a, b, c⟩ := thread_worker_wake_frame hwk
    subst h1
    refine ⟨rfl, rfl, b, ?_, w, _, r.2.2, hw, c, rfl⟩
    simp only [System.worker_update, a]
    exact le_refl _
  | start w =>
    obtain ⟨idx, t, h, hw, _, h1⟩ := step_start_inv hs
    subst h1
    exact ⟨rfl, rfl, rfl, le_refl _, w, _, .executing t, hw, by simp, rfl⟩
  | complete w =>
    obtain ⟨idx, t, pool1, h1, r, hw, hf, hl, hs1⟩ := step_complete_inv hs
    obtain ⟨e0, _⟩ := thread_worker_finish_inv hf
    obtain ⟨a, b, c⟩ := thread_worker_loop_frame hl
    subst hs1 e0
    refine ⟨rfl, rfl, b, ?_, w, _, r.2.2, hw, c, rfl⟩
    simp only [System.worker_update, a]
    exact le_refl _

theorem push_spawn_thread_count (pool : thread_pool) (workers : List Worker) :
    (push_spawn pool workers).1.thread_count = pool.thread_count := by
  rcases push_spawn_cases pool workers with ⟨_, hr⟩ | ⟨_, _, _, _, _, hr⟩ | ⟨_, _, _, hr⟩ <;>
    rw [hr]

/-! ## A caller that waits for a count already passed -/

theorem mem_eraseIdx_or {α : Type} (l : List α) (i : Nat) (a x : α)
    (hi : l[i]? = some a) (hx : x ∈ l) : x = a ∨ x ∈ l.eraseIdx i := by
  obtain ⟨j, hj⟩ := List.mem_iff_getElem?.mp hx
  by_cases hji : j = i
  · subst hji
    rw [hi] at hj
    simp only [Option.some.injEq] at hj
    exact Or.inl hj.symm
  · exact Or.inr (List.mem_eraseIdx_iff_getElem?.mpr ⟨j, hji, hj⟩)

/-- `thread_count` never goes down, and a caller suspended at the spawn barrier
with a required count below `thread_count` stays suspended, whatever the
threads do. -/
theorem stuck_pusher_step {cfg : Config} {s s1 : System} {e : OverlapEvent} {p : Nat × Int}
    (hs : step_overlap cfg s e = some s1) (hp : p ∈ s.pushers)
    (hlt : p.2 < s.pool.thread_count) :
    p ∈ s1.pushers ∧ p.2 < s1.pool.thread_count := by
  cases e with
  | call t =>
    simp only [step_overlap] at hs
    unfold thread_pool_push_task at hs
    split at hs
    · simp only [Outcome.state, Option.some.injEq] at hs
      subst hs
      exact ⟨hp, hlt⟩
    · have htc := push_spawn_thread_count s.pool s.workers
      rcases push_finish_inv hs with ⟨_, h1⟩ | ⟨_, task, _, h1⟩
      · subst h1
        exact ⟨List.mem_cons_of_mem _ hp, by simpa [htc] using hlt⟩
      · subst h1
        exact ⟨hp, by simpa [htc] using hlt⟩
  | resume_at i =>
    simp only [step_overlap] at hs
    unfold thread_pool_push_task_resume_at at hs
    cases hi : s.pushers[i]? with
    | none => simp [hi, Outcome.state] at hs
    | some a =>
      obtain ⟨t, required⟩ := a
      simp only [hi] at hs
      rcases push_finish_inv hs with ⟨_, h1⟩ | ⟨hc, task, _, h1⟩
      · subst h1
        refine ⟨?_, hlt⟩
        rcases mem_eraseIdx_or s.pushers i (t, required) p hi hp with h | h
        · rw [h]
          exact List.mem_cons_self _ _
        · exact List.mem_cons_of_mem _ h
      · subst h1
        refine ⟨?_, hlt⟩
        rcases mem_eraseIdx_or s.pushers i (t, required) p hi hp with h | h
        · rw [h] at hlt
          simp only at hlt
          omega
        · exact h
  | worker e =>
    cases e with
    | push t => simp [step_overlap] at hs
    | resume => simp [step_overlap] at hs
    | register w =>
      have hs1 : step cfg s (.register w) = some s1 := hs
      obtain ⟨a, _, _, b, _⟩ := step_worker_frame hs1 rfl (by simp)
      exact ⟨a ▸ hp, by omega⟩
    | wake w =>
      have hs1 : step cfg s (.wake w) = some s1 := hs
      obtain ⟨a, _, _, b, _⟩ := step_worker_frame hs1 rfl (by simp)
      exact ⟨a ▸ hp, by omega⟩
    | start w =>
      have hs1 : step cfg s (.start w) = some s1 := hs
      obtain ⟨a, _, _, b, _⟩ := step_worker_frame hs1 rfl (by simp)
      exact ⟨a ▸ hp, by omega⟩
    | complete w =>
      have hs1 : step cfg s (.complete w) = some s1 := hs
      obtain ⟨a, _, _, b, _⟩ := step_worker_frame hs1 rfl (by simp)
      exact ⟨a ▸ hp, by omega⟩

theorem stuck_pusher_run {cfg : Config} {p : Nat × Int} (evs : List OverlapEvent) :
    ∀ (s s1 : System), run_overlap cfg s evs = some s1 → p ∈ s.pushers →
      p.2 < s.pool.thread_count → p ∈ s1.pushers ∧ p.2 < s1.pool.thread_count := by
  induction evs with
  | nil =>
    intro s s1 h hp hlt
    simp only [run_overlap, Option.some.injEq] at h
    subst h
    exact ⟨hp, hlt⟩
  | cons e es ih =>
    intro s s1 h hp hlt
    simp only [run_overlap] at h
    cases hst : step_overlap cfg s e with
    | none => simp [hst] at h
    | some s2 =>
      rw [hst] at h
      obtain ⟨a, b⟩ := stuck_pusher_step hst hp hlt
      exact ih s2 s1 h a b

/-! ## Indices and handles of the workers -/

theorem realloc_range (n : Nat) : (realloc (List.range n) (n + 1)).set n n = List.range (n + 1) := by
  unfold realloc
  rw [List.take_of_length_le (by simp), List.length_range, List.range_succ,
    List.set_append_right _ _ (by simp)]
  simp

theorem IdxInv.idx_congr {s : System} (inv : IdxInv s) (s1 : System)
    (k1 : s1.workers = s.workers) (k2 : s1.pool.threads = s.pool.threads) : IdxInv s1 := by
  refine ⟨?_, ?_, ?_⟩
  · rw [k1]
    exact inv.idx
  · rw [k1, k2]
    exact inv.threads
  · rw [k1]
    exact inv.last

theorem IdxInv.idx_of_set {s : System} (inv : IdxInv s) {w : Nat} {wk : Worker}
    {pc : WorkerPc} (hw : s.workers[w]? = some wk) (hpc : pc ≠ .spawned) (s1 : System)
    (k1 : s1.workers = s.workers.set w ⟨wk.idx, pc⟩)
    (k2 : s1.pool.threads = s.pool.threads) : IdxInv s1 := by
  refine ⟨?_, ?_, ?_⟩
  · intro i w1 hi
    rw [k1, List.getElem?_set] at hi
    split at hi
    · rename_i hiw
      subst hiw
      split at hi
      · simp only [Option.some.injEq] at hi
        subst hi
        exact inv.idx w wk hw
      · simp at hi
    · exact inv.idx i w1 hi
  · rw [k1, k2, List.length_set]
    exact inv.threads
  · intro i w1 hi hsp
    rw [k1, List.getElem?_set] at hi
    rw [k1, List.length_set]
    split at hi
    · split at hi
      · simp only [Option.some.injEq] at hi
        subst hi
        exact (hpc hsp).elim
      · simp at hi
    · exact inv.last i w1 hi hsp

theorem IdxInv.idx_spawn {M : Int} {s : System} (inv : IdxInv s) (cinv : CountInv M s)
    (hq : s.pushers = []) :
    IdxInv { s with pool := (push_spawn s.pool s.workers).1,
                    workers := (push_spawn s.pool s.workers).2.1 } := by
  have htc := cinv.thread_count_eq hq
  have hns : ∀ w ∈ s.workers, w.pc ≠ .spawned := by
    have hb := cinv.barrier
    rw [hq] at hb
    simp only at hb
    rw [List.countP_eq_zero] at hb
    intro w hw hsp
    exact hb w hw (by simp [Worker.is_spawned, hsp])
  unfold push_spawn
  cases hth : s.pool.threads with
  | none =>
    have hnil := cinv.threads_none.mp hth
    simp only [hnil]
    refine ⟨?_, ?_, ?_⟩
    · intro i w hi
      cases i with
      | zero =>
        simp only [List.nil_append, List.getElem?_cons_zero, Option.some.injEq] at hi
        subst hi
        rfl
      | succ k => simp at hi
    · intro L hL
      simp only [List.length_nil, Option.some.injEq] at hL
      subst hL
      rfl
    · intro i w hi _
      cases i with
      | zero => rfl
      | succ k => simp at hi
  | some ths =>
    have hths := inv.threads ths hth
    by_cases hc : s.pool.idle_thread_count = 0 ∧ s.pool.thread_count < s.pool.max_thread_count
    · simp only [if_pos hc]
      have e1 : (s.pool.thread_count + 1).toNat = s.workers.length + 1 := by omega
      have e2 : s.pool.thread_count.toNat = s.workers.length := by omega
      refine ⟨?_, ?_, ?_⟩
      · intro i w hi
        simp only at hi
        by_cases hlt : i < s.workers.length
        · rw [List.getElem?_append_left hlt] at hi
          exact inv.idx i w hi
        · rw [List.getElem?_append_right (by omega)] at hi
          have : i - s.workers.length = 0 := by
            by_contra hne
            obtain ⟨k, hk⟩ := Nat.exists_eq_succ_of_ne_zero hne
            rw [hk] at hi
            simp at hi
          rw [this] at hi
          simp only [List.getElem?_cons_zero, Option.some.injEq] at hi
          subst hi
          simp only
          omega
      · intro L hL
        simp only [Option.some.injEq] at hL
        subst hL
        simp only [e1, e2, hths, List.length_range, List.length_append, List.length_singleton]
        exact realloc_range s.workers.length
      · intro i w hi hsp
        simp only at hi
        simp only [List.length_append, List.length_singleton]
        by_cases hlt : i < s.workers.length
        · rw [List.getElem?_append_left hlt] at hi
          exact (hns w (List.mem_iff_getElem?.mpr ⟨i, hi⟩) hsp).elim
        · have := (List.getElem?_eq_some_iff.mp hi).1
          simp only [List.length_append, List.length_singleton] at this
          omega
    · simp only [if_neg hc]
      exact inv.idx_congr _ rfl (by simp [hth])

theorem IdxInv.idx_after_push_finish {s s1 : System} {t : Nat} {required : Int}
    {others : List (Nat × Int)} (inv : IdxInv s)
    (ho : (push_finish s t required others).state = some s1) : IdxInv s1 := by
  rcases push_finish_inv ho with ⟨_, h1⟩ | ⟨_, task, _, h1⟩
  · exact inv.idx_congr s1 (by rw [h1]) (by rw [h1])
  · exact inv.idx_congr s1 (by rw [h1]) (by rw [h1])

theorem IdxInv.step_idx {M : Int} {cfg : Config} {s s1 : System} {e : Event}
    (inv : IdxInv s) (cinv : CountInv M s) (hs : step cfg s e = some s1) : IdxInv s1 := by
  by_cases hp : e.is_push = true
  · cases e with
    | push t =>
      obtain ⟨hq, ho⟩ := step_push_inv hs
      unfold thread_pool_push_task at ho
      split at ho
      · simp only [Outcome.state, Option.some.injEq] at ho
        exact ho ▸ inv
      · exact (inv.idx_spawn cinv hq).idx_after_push_finish ho
    | resume => simp [Event.is_push] at hp
    | register w => simp [Event.is_push] at hp
    | wake w => simp [Event.is_push] at hp
    | start w => simp [Event.is_push] at hp
    | complete w => simp [Event.is_push] at hp
  · by_cases hr : e = .resume
    · subst hr
      have ho := step_resume_inv hs
      unfold thread_pool_push_task_resume at ho
      cases hq : s.pushers with
      | nil => simp [hq, Outcome.state] at ho
      | cons a l =>
        obtain ⟨t, required⟩ := a
        rw [hq] at ho
        exact inv.idx_after_push_finish ho
    · obtain ⟨_, _, hth, _, w, wk, pc, hw, hpc, hws⟩ :=
        step_worker_frame hs (by simpa using hp) hr
      exact inv.idx_of_set hw hpc s1 hws hth

theorem IdxInv.idx_at_init (pool_addr : Nat) (pool : thread_pool) (tasks : Heap)
    (cfg : Config) (m : Int) (h : thread_pool_new cfg m = .ok pool) :
    IdxInv (System.init pool_addr pool tasks) := by
  unfold thread_pool_new at h
  split at h
  · simp at h
  · simp only [Except.ok.injEq] at h
    subst h
    refine ⟨?_, ?_, ?_⟩
    · intro i w hi
      simp [System.init] at hi
    · intro L hL
      simp [System.init] at hL
    · intro i w hi
      simp [System.init] at hi

theorem run_idx_inv {M : Int} {cfg : Config} {pool_addr : Nat} {pool : thread_pool}
    {tasks : Heap} {s : System} {evs : List Event}
    (hnew : thread_pool_new cfg M = .ok pool)
    (h : run cfg (System.init pool_addr pool tasks) evs = some s) :
    CountInv M s ∧ IdxInv s :=
  run_invariant cfg (fun x => CountInv M x ∧ IdxInv x)
    (fun _ _ _ hx hs => ⟨hx.1.step_count hs, hx.2.step_idx hx.1 hs⟩)
    evs _ s
    ⟨CountInv.at_init pool_addr pool tasks cfg M hnew,
      IdxInv.idx_at_init pool_addr pool tasks cfg M hnew⟩ h

/-- A worker is live (it has registered itself) exactly when its position is below
`thread_count`. -/
theorem live_iff_below_count {M : Int} {s : System} (cinv : CountInv M s) (inv : IdxInv s)
    (i : Nat) (w : Worker) (hi : s.workers[i]? = some w) :
    w.pc ≠ .spawned ↔ (i : Int) < s.pool.thread_count := by
  have hcen := census_length s.workers
  have htc := cinv.thread_count
  have hex := cinv.no_exited
  have hlt := (List.getElem?_eq_some_iff.mp hi).1
  have hns : s.workers.countP Worker.is_spawned ≤ 1 := by
    have hb := cinv.barrier
    split at hb
    · omega
    · exact hb.1
    · exact hb.elim
  by_cases hsp : w.pc = .spawned
  · have hpos : 0 < s.workers.countP Worker.is_spawned :=
      List.countP_pos_iff.mpr ⟨w, List.mem_iff_getElem?.mpr ⟨i, hi⟩,
        by simp [Worker.is_spawned, hsp]⟩
    have := inv.last i w hi hsp
    constructor
    · intro h
      exact (h hsp).elim
    · intro h
      omega
  · constructor
    · intro _
      by_cases h0 : s.workers.countP Worker.is_spawned = 0
      · omega
      · obtain ⟨a, ha, hsa⟩ := List.countP_pos_iff.mp (Nat.pos_of_ne_zero h0)
        obtain ⟨k, hk⟩ := List.mem_iff_getElem?.mp ha
        have hpa : a.pc = .spawned := by
          unfold Worker.is_spawned at hsa
          split at hsa
          · assumption
          · simp at hsa
        have hlast := inv.last k a hk hpa
        have hne : i ≠ k := by
          intro hik
          subst hik
          rw [hi] at hk
          simp only [Option.some.injEq] at hk
          subst hk
          exact hsp hpa
        omega
    · intro _
      exact hsp

/-! ## Shutdown -/

theorem ShutInv.wake_result {cfg : Config} {n : Nat} {s : System} (inv : ShutInv n s)
    {i : Int} (hd : s.deleter = some (.joining i)) {w : Nat} {idx : Int}
    (hw : s.workers[w]? = some ⟨idx, .waiting⟩) :
    step cfg s (.wake w) =
      some (s.worker_update w ⟨idx, .waiting⟩
        (s.pool, s.tasks, if idx = i then .exited else .waiting)) := by
  have ph := inv.phase
  rw [hd] at ph
  simp only at ph
  obtain ⟨_, _, hx, _⟩ := ph
  have hp := inv.pending
  simp only [step, hw]
  unfold thread_worker_wake thread_worker_must_wait thread_worker_after_wait
  by_cases hi : idx = i
  · simp [hx, hi]
  · have hne : ¬ i = idx := fun h => hi h.symm
    simp [hx, hi, hne, hp]

theorem ShutInv.shut_of_set {n : Nat} {s : System} (inv : ShutInv n s)
    {i : Int} (hd : s.deleter = some (.joining i)) {w : Nat} {idx : Int}
    (hw : s.workers[w]? = some ⟨idx, .waiting⟩) (s1 : System)
    (k1 : s1.workers = s.workers.set w ⟨idx, if idx = i then .exited else .waiting⟩)
    (k2 : s1.pool = s.pool) (k3 : s1.deleter = s.deleter) : ShutInv n s1 := by
  have ph := inv.phase
  rw [hd] at ph
  simp only at ph
  obtain ⟨p1, p2, p3, p4⟩ := ph
  have hidx := inv.idx w _ hw
  simp only at hidx
  refine ⟨by rw [k1, List.length_set]; exact inv.length, ?_, by rw [k2]; exact inv.pending,
    by rw [k2]; exact inv.thread_count, by rw [k2]; exact inv.threads, ?_⟩
  · intro j w1 hj
    rw [k1, List.getElem?_set] at hj
    split at hj
    · rename_i hwj
      subst hwj
      split at hj
      · simp only [Option.some.injEq] at hj
        subst hj
        exact hidx
      · simp at hj
    · exact inv.idx j w1 hj
  · rw [k3, hd]
    simp only
    refine ⟨p1, p2, by rw [k2]; exact p3, ?_⟩
    intro j w1 hj
    rw [k1, List.getElem?_set] at hj
    split at hj
    · rename_i hwj
      subst hwj
      split at hj
      · simp only [Option.some.injEq] at hj
        subst hj
        by_cases hi : idx = i
        · rw [if_pos hi]
          exact ⟨fun _ => rfl, fun h => by omega, fun _ => Or.inr rfl⟩
        · rw [if_neg hi]
          exact p4 w _ hw
      · simp at hj
    · exact p4 j w1 hj

theorem ShutInv.join_result {n : Nat} {s : System} (inv : ShutInv n s)
    {i : Int} (hd : s.deleter = some (.joining i)) {w : Worker}
    (hw : s.workers[i.toNat]? = some w) :
    thread_pool_delete_resume s =
      if w.pc = .exited then
        if i + 1 < n then
          .blocked { s with pool := { s.pool with thread_idx_that_should_exit := i + 1 },
                            deleter := some (.joining (i + 1)) }
        else .ret .ok { s with deleter := some .freed }
      else .blocked s := by
  have ph := inv.phase
  rw [hd] at ph
  simp only at ph
  obtain ⟨p1, p2, p3, p4⟩ := ph
  have hth := inv.threads (by omega)
  have hr : (List.range n)[i.toNat]? = some i.toNat := List.getElem?_range (by omega)
  have htc := inv.thread_count
  unfold thread_pool_delete_resume
  rw [hd, hth]
  simp only [hr, hw]
  obtain ⟨idx, pc⟩ := w
  cases pc with
  | exited =>
    simp only [if_true]
    unfold thread_pool_delete_loop
    by_cases hc : i + 1 < (n : Int)
    · rw [if_pos (by rw [htc]; exact hc), if_pos hc]
    · rw [if_neg (by rw [htc]; exact hc), if_neg hc]
  | spawned => simp
  | waiting => simp
  | claimed t => simp
  | executing t => simp

theorem ShutInv.step_shut {cfg : Config} {n : Nat} {s s1 : System} {e : ShutdownEvent}
    (inv : ShutInv n s) (hs : step_shutdown cfg s e = some s1) : ShutInv n s1 := by
  have ph := inv.phase
  cases e with
  | wake w =>
    have hs1 : step cfg s (.wake w) = some s1 := hs
    obtain ⟨idx, r, hw, _, _⟩ := step_wake_inv hs1
    cases hd : s.deleter with
    | none =>
      rw [hd] at ph
      exact ph.elim
    | some d =>
      cases d with
      | freed =>
        rw [hd] at ph
        have := ph _ (List.mem_iff_getElem?.mpr ⟨w, hw⟩)
        simp at this
      | joining i =>
        rw [inv.wake_result hd hw] at hs1
        simp only [Option.some.injEq] at hs1
        exact inv.shut_of_set hd hw s1 (by rw [← hs1]; rfl) (by rw [← hs1]; rfl)
          (by rw [← hs1]; rfl)
  | join =>
    have hs1 : (thread_pool_delete_resume s).state = some s1 := hs
    cases hd : s.deleter with
    | none =>
      rw [hd] at ph
      exact ph.elim
    | some d =>
      cases d with
      | freed =>
        unfold thread_pool_delete_resume at hs1
        rw [hd] at hs1
        simp [Outcome.state] at hs1
      | joining i =>
        rw [hd] at ph
        simp only at ph
        obtain ⟨p1, p2, p3, p4⟩ := ph
        have hlt : i.toNat < s.workers.length := by
          rw [inv.length]
          omega
        have hw : s.workers[i.toNat]? = some (s.workers.get ⟨i.toNat, hlt⟩) :=
          List.getElem?_eq_getElem hlt
        rw [inv.join_result hd hw] at hs1
        by_cases hex : (s.workers.get ⟨i.toNat, hlt⟩).pc = .exited
        · rw [if_pos hex] at hs1
          by_cases hc : i + 1 < (n : Int)
          · rw [if_pos hc] at hs1
            simp only [Outcome.state, Option.some.injEq] at hs1
            subst hs1
            refine ⟨inv.length, inv.idx, inv.pending, inv.thread_count, inv.threads, ?_⟩
            refine ⟨by omega, hc, rfl, ?_⟩
            intro j w1 hj
            obtain ⟨a, b, c⟩ := p4 j w1 hj
            refine ⟨?_, fun h => b (by omega), fun h => Or.inl (b (by omega))⟩
            intro h
            by_cases hji : (j : Int) < i
            · exact a hji
            · have hj2 : j = i.toNat := by omega
              subst hj2
              rw [hw] at hj
              simp only [Option.some.injEq] at hj
              rw [← hj]
              exact hex
          · rw [if_neg hc] at hs1
            simp only [Outcome.state, Option.some.injEq] at hs1
            subst hs1
            refine ⟨inv.length, inv.idx, inv.pending, inv.thread_count, inv.threads, ?_⟩
            intro w1 hw1
            obtain ⟨j, hj⟩ := List.mem_iff_getElem?.mp hw1
            have hjlt : j < s.workers.length := (List.getElem?_eq_some_iff.mp hj).1
            have hlen := inv.length
            obtain ⟨a, _, _⟩ := p4 j w1 hj
            by_cases hji : (j : Int) < i
            · exact a hji
            · have hj2 : j = i.toNat := by omega
              subst hj2
              rw [hw] at hj
              simp only [Option.some.injEq] at hj
              rw [← hj]
              exact hex
        · rw [if_neg hex] at hs1
          simp only [Outcome.state, Option.some.injEq] at hs1
          exact hs1 ▸ inv

theorem ShutInv.run_shut {cfg : Config} {n : Nat} (evs : List ShutdownEvent) :
    ∀ (s s1 : System), ShutInv n s → run_shutdown cfg s evs = some s1 → ShutInv n s1 := by
  induction evs with
  | nil =>
    intro s s1 inv h
    simp only [run_shutdown, Option.some.injEq] at h
    exact h ▸ inv
  | cons e es ih =>
    intro s s1 inv h
    simp only [run_shutdown] at h
    cases hst : step_shutdown cfg s e with
    | none => simp [hst] at h
    | some s2 =>
      rw [hst] at h
      exact ih s2 s1 (inv.step_shut hst) h

theorem ShutInv.of_delete {M : Int} {s : System} (cinv : CountInv M s) (inv : IdxInv s)
    (hq : s.pushers = []) (hb : thread_pool_has_tasks s.pool = false) :
    ∃ s0, (thread_pool_delete s).state = some s0 ∧ ShutInv s.workers.length s0 ∧
      s0.workers = s.workers := by
  have htc := cinv.thread_count_eq hq
  have hb0 := hb
  simp only [thread_pool_has_tasks, Bool.or_eq_false_iff, decide_eq_false_iff_not,
    not_not] at hb0
  obtain ⟨⟨_, h2⟩, h3⟩ := hb0
  have hall : ∀ a ∈ s.workers, a.pc = .waiting := by
    have hc : s.workers.countP Worker.is_waiting = s.workers.length := by
      have := cinv.idle
      omega
    rw [List.countP_eq_length] at hc
    intro a ha
    have := hc a ha
    unfold Worker.is_waiting at this
    split at this
    · assumption
    · simp at this
  unfold thread_pool_delete
  rw [if_neg (by simp [hb])]
  cases hth : s.pool.threads with
  | none =>
    have hnil := cinv.threads_none.mp hth
    have hpend : s.pool.pending_task_count < 1 := by omega
    refine ⟨_, rfl, ⟨rfl, inv.idx, hpend, htc, ?_, ?_⟩, rfl⟩
    · intro h
      simp [hnil] at h
    · simp only [hnil]
      intro w hw
      simp at hw
  | some L =>
    have hne : s.workers ≠ [] := fun h => by
      have := cinv.threads_none.mpr h
      rw [hth] at this
      simp at this
    have hpos : 0 < s.workers.length := List.length_pos.mpr hne
    have hl : thread_pool_delete_loop s.pool 0 =
        ({ s.pool with thread_idx_that_should_exit := 0 }, .joining 0) := by
      unfold thread_pool_delete_loop
      rw [if_pos (by omega)]
    simp only [hl]
    have hpend : s.pool.pending_task_count < 1 := by omega
    refine ⟨_, rfl, ⟨rfl, inv.idx, hpend, htc, ?_, ?_⟩, rfl⟩
    · intro _
      simp only
      rw [hth, inv.threads L hth]
    · simp only
      refine ⟨le_refl _, by omega, trivial, ?_⟩
      intro j w hj
      have hw := hall w (List.mem_iff_getElem?.mpr ⟨j, hj⟩)
      exact ⟨fun h => by omega, fun _ => hw, fun _ => Or.inl hw⟩

/-- The deletion of the pool comes to its end: from every state of the shutdown
there is a continuation after which the pool is freed. -/
theorem ShutInv.shutdown_completes {cfg : Config} {n : Nat} :
    ∀ (k : Nat) (s : System), ShutInv n s →
      (∀ i, s.deleter = some (.joining i) → n - i.toNat ≤ k) →
      ∃ evs s3, run_shutdown cfg s evs = some s3 ∧ s3.deleter = some .freed := by
  intro k
  induction k with
  | zero =>
    intro s inv hk
    have ph := inv.phase
    cases hd : s.deleter with
    | none =>
      rw [hd] at ph
      exact ph.elim
    | some d =>
      cases d with
      | freed => exact ⟨[], s, rfl, hd⟩
      | joining i =>
        rw [hd] at ph
        simp only at ph
        have := hk i hd
        omega
  | succ k ih =>
    intro s inv hk
    have ph := inv.phase
    cases hd : s.deleter with
    | none =>
      rw [hd] at ph
      exact ph.elim
    | some d =>
      cases d with
      | freed => exact ⟨[], s, rfl, hd⟩
      | joining i =>
        rw [hd] at ph
        simp only at ph
        obtain ⟨p1, p2, p3, p4⟩ := ph
        have hki := hk i hd
        have key : ∀ s2 : System, ShutInv n s2 → s2.deleter = some (.joining i) →
            (∀ w, s2.workers[i.toNat]? = some w → w.pc = .exited) →
            ∃ evs s3, run_shutdown cfg s2 evs = some s3 ∧ s3.deleter = some .freed := by
          intro s2 inv2 hd2 hex2
          have hlt2 : i.toNat < s2.workers.length := by
            rw [inv2.length]
            omega
          have hw2 : s2.workers[i.toNat]? = some (s2.workers.get ⟨i.toNat, hlt2⟩) :=
            List.getElem?_eq_getElem hlt2
          have hj := inv2.join_result hd2 hw2
          rw [if_pos (hex2 _ hw2)] at hj
          by_cases hc : i + 1 < (n : Int)
          · rw [if_pos hc] at hj
            have hst : step_shutdown cfg s2 .join =
                some { s2 with pool := { s2.pool with thread_idx_that_should_exit := i + 1 },
                               deleter := some (.joining (i + 1)) } := by
              simp only [step_shutdown, hj, Outcome.state]
            obtain ⟨evs, s3, hr, hf⟩ := ih _ (inv2.step_shut hst) (by
              intro i2 hd3
              simp only [Option.some.injEq, DeletePc.joining.injEq] at hd3
              subst hd3
              omega)
            exact ⟨.join :: evs, s3, by simp only [run_shutdown, hst]; exact hr, hf⟩
          · rw [if_neg hc] at hj
            exact ⟨[.join], { s2 with deleter := some .freed },
              by simp only [run_shutdown, step_shutdown, hj, Outcome.state], rfl⟩
        have hlt : i.toNat < s.workers.length := by
          rw [inv.length]
          omega
        have hw : s.workers[i.toNat]? = some (s.workers.get ⟨i.toNat, hlt⟩) :=
          List.getElem?_eq_getElem hlt
        by_cases hex : (s.workers.get ⟨i.toNat, hlt⟩).pc = .exited
        · refine key s inv hd (fun w hw2 => ?_)
          rw [hw] at hw2
          simp only [Option.some.injEq] at hw2
          rw [← hw2]
          exact hex
        · have hwait : (s.workers.get ⟨i.toNat, hlt⟩).pc = .waiting :=
            ((p4 i.toNat _ hw).2.2 (by omega)).resolve_right hex
          have hw3 : s.workers[i.toNat]? =
              some ⟨(s.workers.get ⟨i.toNat, hlt⟩).idx, .waiting⟩ := by
            rw [hw, ← hwait]
          have hidx := inv.idx _ _ hw
          have hst : step_shutdown cfg s (.wake i.toNat) =
              some (s.worker_update i.toNat ⟨(s.workers.get ⟨i.toNat, hlt⟩).idx, .waiting⟩
                (s.pool, s.tasks,
                  if (s.workers.get ⟨i.toNat, hlt⟩).idx = i then .exited else .waiting)) :=
            @ShutInv.wake_result cfg n s inv i hd i.toNat _ hw3
          have hi : (s.workers.get ⟨i.toNat, hlt⟩).idx = i := by omega
          obtain ⟨evs, s3, hr, hf⟩ := key _ (inv.step_shut hst) hd (by
            intro w hw4
            simp only [System.worker_update, List.getElem?_set, if_pos hlt, if_true, hi,
              Option.some.injEq] at hw4
            rw [← hw4])
          exact ⟨.wake i.toNat :: evs, s3, by simp only [run_shutdown, hst]; exact hr, hf⟩

/-! ## Pool creation -/

/-- C4: `thread_pool_new` returns `TPOOL_ERR_INVALID_ARGUMENT` (and writes no pool)
exactly when `max_thread_count < 1` or `max_thread_count > TPOOL_MAX_THREADS`;
otherwise it returns 0 with a pool that has no thread, no idle thread, no
pending and no running task, an empty pending list and the given maximum. -/
theorem thread_pool_new_spec (cfg : Config) (m : Int) :
    (thread_pool_new cfg m = .error .TPOOL_ERR_INVALID_ARGUMENT ↔
      (m < 1 ∨ m > cfg.TPOOL_MAX_THREADS)) ∧
    (¬ (m < 1 ∨ m > cfg.TPOOL_MAX_THREADS) →
      ∃ pool, thread_pool_new cfg m = .ok pool ∧ pool.thread_count = 0 ∧
        pool.idle_thread_count = 0 ∧ pool.pending_task_count = 0 ∧
        pool.running_task_count = 0 ∧ pool.pending_task_list = none ∧
        pool.max_thread_count = m ∧ pool.threads = none) := by
  unfold thread_pool_new
  by_cases h : m < 1 ∨ m > cfg.TPOOL_MAX_THREADS
  · simp [h]
  · simp [h]

/-- C4, at concrete inputs: the maximum 0 is rejected, the maximum 4 is
accepted. -/
theorem thread_pool_new_spec_witness :
    thread_pool_new cfg_demo 0 = .error .TPOOL_ERR_INVALID_ARGUMENT ∧
    ∃ pool, thread_pool_new cfg_demo 4 = .ok pool ∧ pool.thread_count = 0 ∧
        pool.idle_thread_count = 0 ∧ pool.pending_task_count = 0 ∧
        pool.running_task_count = 0 ∧ pool.pending_task_list = none ∧
        pool.max_thread_count = 4 ∧ pool.threads = none :=
  ⟨(thread_pool_new_spec cfg_demo 0).1.mpr (by decide),
   (thread_pool_new_spec cfg_demo 4).2 (by decide)⟩

/-! ## Pool deletion -/

theorem thread_pool_delete_has_tasks_aux (s : System) :
    ((∃ s1, thread_pool_delete s = .ret (.err .TPOOL_ERR_HAS_TASKS) s1) ↔
      (s.pool.pending_task_count > 0 ∨ s.pool.running_task_count > 0 ∨
        s.pool.idle_thread_count ≠ s.pool.thread_count)) ∧
    (∀ s1, thread_pool_delete s = .ret (.err .TPOOL_ERR_HAS_TASKS) s1 → s1 = s) := by
  have hb : thread_pool_has_tasks s.pool = true ↔
      (s.pool.pending_task_count > 0 ∨ s.pool.running_task_count > 0 ∨
        s.pool.idle_thread_count ≠ s.pool.thread_count) := by
    simp only [thread_pool_has_tasks, Bool.or_eq_true, decide_eq_true_eq]
    tauto
  have hret : ∀ s1, thread_pool_delete s = .ret (.err .TPOOL_ERR_HAS_TASKS) s1 →
      thread_pool_has_tasks s.pool = true ∧ s1 = s := by
    intro s1 h
    unfold thread_pool_delete at h
    cases hv : thread_pool_has_tasks s.pool with
    | true =>
      rw [hv] at h
      simp only [if_true] at h
      injection h with _ h2
      exact ⟨rfl, h2.symm⟩
    | false =>
      rw [hv] at h
      exfalso
      revert h
      cases s.pool.threads with
      | none => simp
      | some ths =>
        simp only [thread_pool_delete_loop]
        by_cases hlt : (0 : Int) < s.pool.thread_count <;> simp [hlt]
  refine ⟨⟨fun ⟨s1, h⟩ => hb.mp (hret s1 h).1, fun h => ⟨s, ?_⟩⟩, fun s1 h => (hret s1 h).2⟩
  unfold thread_pool_delete
  simp [hb.mpr h]

/-- C7: `thread_pool_delete` returns `TPOOL_ERR_HAS_TASKS` exactly when
`pending_task_count > 0` or `running_task_count > 0` or
`idle_thread_count != thread_count`, and then the whole state (the pool's
counters, list, threads and shutdown index, the workers, the tasks) is as
before the call. -/
theorem thread_pool_delete_has_tasks (s : System) :
    ((∃ s1, thread_pool_delete s = .ret (.err .TPOOL_ERR_HAS_TASKS) s1) ↔
      (s.pool.pending_task_count > 0 ∨ s.pool.running_task_count > 0 ∨
        s.pool.idle_thread_count ≠ s.pool.thread_count)) ∧
    (∀ s1, thread_pool_delete s = .ret (.err .TPOOL_ERR_HAS_TASKS) s1 → s1 = s) :=
  thread_pool_delete_has_tasks_aux s

/-- C7, at a concrete state: with one pending task the call fails and the state
is unchanged. -/
theorem thread_pool_delete_has_tasks_witness :
    (state_after cfg_demo (sys_demo 1 2) trace_two_pushes).pool.pending_task_count > 0 ∧
    thread_pool_delete (state_after cfg_demo (sys_demo 1 2) trace_two_pushes) =
      .ret (.err .TPOOL_ERR_HAS_TASKS)
        (state_after cfg_demo (sys_demo 1 2) trace_two_pushes) := by
  have h := thread_pool_delete_has_tasks (state_after cfg_demo (sys_demo 1 2) trace_two_pushes)
  have hp : (state_after cfg_demo (sys_demo 1 2) trace_two_pushes).pool.pending_task_count > 0 := by
    decide
  obtain ⟨s1, hs1⟩ := h.1.mpr (Or.inl hp)
  have := h.2 s1 hs1
  subst this
  exact ⟨hp, hs1⟩

/-! ## Order of the pending list -/

/-- C1 (as the code behaves): the pending list is a stack.  For every pool, heap and
two different allocated tasks A and B, enqueuing A and then B (lines 198-205)
with no dequeue in between succeeds, the worker's next dequeue (lines 75-80)
takes B, and A is then the head of the pending list. -/
theorem pending_list_lifo (pool_addr : Nat) (pool : thread_pool) (h : Heap) (A B : Nat)
    (a b : thread_task) (hA : h A = some a) (hB : h B = some b) (hne : A ≠ B) :
    ∃ pool1 h1 pool2 h2 pool3 h3,
      push_enqueue pool_addr pool h A = some (pool1, h1) ∧
      push_enqueue pool_addr pool1 h1 B = some (pool2, h2) ∧
      thread_worker_take pool2 h2 = some (pool3, h3, B) ∧
      pool3.pending_task_list = some A := by
  have h1B : ∀ v, (h.set A v) B = some b := fun v => by
    rw [Heap.set_other _ _ _ _ (fun e => hne e.symm), hB]
  refine ⟨_, _, _, _, _, _, push_enqueue_eq hA, push_enqueue_eq (h1B _),
    thread_worker_take_eq rfl (Heap.set_same _ _ _), rfl⟩

/-- C1 (as the code behaves), at a concrete pool: tasks 0 and 1 are enqueued in this
order on a new pool, and the dequeue takes task 1. -/
theorem pending_list_lifo_witness :
    ∃ pool1 h1 pool2 h2 pool3 h3,
      push_enqueue 1000 (pool_demo 1) (heap_of (specs_index 2)) 0 = some (pool1, h1) ∧
      push_enqueue 1000 pool1 h1 1 = some (pool2, h2) ∧
      thread_worker_take pool2 h2 = some (pool3, h3, 1) ∧
      pool3.pending_task_list = some 0 :=
  pending_list_lifo 1000 (pool_demo 1) (heap_of (specs_index 2)) 0 1
    (thread_task_new (fun _ => 0) 0) (thread_task_new (fun _ => 1) 0) rfl rfl (by decide)

/-- C1 fails as stated: on a pool with `max_thread_count = 1`, task 0 is pushed
before task 1 and no worker dequeues in between; the worker's next dequeue
takes task 1, not task 0, and task 0 stays in the list. -/
theorem fifo_order_counterexample :
    (run cfg_demo (sys_demo 1 2) (trace_two_pushes ++ [.wake 0])).map
        (fun s => (s.pushed, s.workers, s.pool.pending_task_list)) =
      some ([0, 1], [⟨0, .claimed 1⟩], some 0) ∧
    (run cfg_demo (sys_demo 1 2) (trace_two_pushes ++ [.wake 0])).map
        (fun s => s.workers) ≠ some [⟨0, .claimed 0⟩] := by
  decide

/-! ## The task ceiling -/

/-- C5 (as the code behaves): `thread_pool_push_task` returns
`TPOOL_ERR_TOO_MANY_TASKS` exactly when `pending_task_count >= TPOOL_MAX_TASKS`;
the running tasks are not counted.  It returns no other error code. -/
theorem push_too_many_tasks_iff (cfg : Config) (s : System) (t : Nat) :
    ((thread_pool_push_task cfg s t).code = some (.err .TPOOL_ERR_TOO_MANY_TASKS) ↔
      s.pool.pending_task_count ≥ cfg.TPOOL_MAX_TASKS) ∧
    (∀ e, (thread_pool_push_task cfg s t).code = some (.err e) →
      e = .TPOOL_ERR_TOO_MANY_TASKS) := by
  unfold thread_pool_push_task
  by_cases hc : s.pool.pending_task_count ≥ cfg.TPOOL_MAX_TASKS
  · simp [hc, Outcome.code]
  · simp only [hc, if_false, iff_false]
    unfold push_finish
    constructor
    · split
      · simp [Outcome.code]
      · split <;> simp [Outcome.code]
    · intro e
      split
      · simp [Outcome.code]
      · split <;> simp [Outcome.code]

/-- C5 fails as stated.  With the ceiling 1, after one task was pushed and
dequeued (0 pending, 1 running), accepting a task makes pending + running 2,
above the ceiling, and the push returns 0.  With the ceiling 100000, on a pool
with 99999 pending and 1 running task the push returns 0 as well. -/
theorem push_ceiling_counterexample :
    (run cfg_one (sys_demo 1 2) trace_one_running).map
        (fun s => (s.pool.pending_task_count, s.pool.running_task_count,
          decide (s.pool.pending_task_count + s.pool.running_task_count + 1 >
            cfg_one.TPOOL_MAX_TASKS),
          (thread_pool_push_task cfg_one s 1).code)) =
      some (0, 1, true, some .ok) ∧
    pool_nearly_full.pending_task_count + pool_nearly_full.running_task_count + 1 >
      cfg_demo.TPOOL_MAX_TASKS ∧
    (thread_pool_push_task cfg_demo
      { sys_demo 1 2 with pool := pool_nearly_full, workers := [⟨0, .executing 3⟩] } 0).code =
      some .ok := by
  decide

/-! ## Joining a completed task -/

/-- C3: for every task that is pushed (its pool association is set) and not
detached, after the worker's completion step (lines 89-101) `thread_task_join`
returns 0, writes to `*result` the value of the task's function at its
argument, and clears the pool association; `thread_task_delete` on the joined
task then returns 0 and frees it. -/
theorem join_after_finish (pool : thread_pool) (h : Heap) (t : Nat) (task : thread_task)
    (p : Nat) (ht : h t = some task) (hp : task.pool = some p)
    (hd : task.is_detached = false) :
    ∃ pool1 h1 task1,
      thread_worker_finish pool h t = some (pool1, h1) ∧ h1 t = some task1 ∧
      task1.is_finished = true ∧
      ∀ out, ∃ task2,
        thread_task_join task1 out = .ret .ok (task.function task.arg, task2) ∧
        task2.pool = none ∧ thread_task_delete task2 = (.ok, none) := by
  have hf : thread_worker_finish pool h t =
      some ({ pool with running_task_count := pool.running_task_count - 1 },
        h.set t (some { task with is_running := false, is_finished := true,
                                  result := task.function task.arg })) := by
    simp [thread_worker_finish, ht, hd]
  refine ⟨_, _, _, hf, Heap.set_same _ _ _, rfl, fun out => ?_⟩
  refine ⟨{ task with is_running := false, is_finished := true,
                      result := task.function task.arg, pool := none }, ?_, rfl, rfl⟩
  simp [thread_task_join, hp]

/-- C3, at a concrete task: task 0 of a new system is pushed, dequeued, started and
completed; the join gives 0 and the value 0 returned by its function. -/
theorem join_after_finish_witness :
    ∃ pool1 h1 task1,
      thread_worker_finish
        (state_after cfg_demo (sys_demo 1 2) (trace_one_running ++ [.start 0])).pool
        (state_after cfg_demo (sys_demo 1 2) (trace_one_running ++ [.start 0])).tasks 0 =
        some (pool1, h1) ∧ h1 0 = some task1 ∧
      task1.is_finished = true ∧
      ∀ out, ∃ task2,
        thread_task_join task1 out = .ret .ok (0, task2) ∧
        task2.pool = none ∧ thread_task_delete task2 = (.ok, none) :=
  join_after_finish _ _ 0
    { thread_task_new (fun _ => 0) 0 with pool := some 1000, is_running := true }
    1000 rfl rfl rfl

/-! ## Invariants of the counters -/

/-- C9: in every state reached from `thread_pool_new(M)` by pushes (not
overlapping) and worker steps, `idle_thread_count + running_task_count <=
thread_count <= max_thread_count = M`, and the number of worker threads ever
created is at most `M`. -/
theorem pool_counters_bounded (cfg : Config) (M : Int) (pool_addr : Nat) (pool : thread_pool)
    (tasks : Heap) (evs : List Event) (s : System)
    (hnew : thread_pool_new cfg M = .ok pool)
    (hrun : run cfg (System.init pool_addr pool tasks) evs = some s) :
    s.pool.idle_thread_count + s.pool.running_task_count ≤ s.pool.thread_count ∧
    s.pool.thread_count ≤ s.pool.max_thread_count ∧
    s.pool.max_thread_count = M ∧
    (s.workers.length : Int) ≤ M := by
  have inv := (CountInv.at_init pool_addr pool tasks cfg M hnew).run_count hrun
  obtain ⟨a1, a2, a3, a4, a5, a6, a7, a8, a9, a10, a11⟩ := inv
  have hl := census_length s.workers
  refine ⟨by omega, by omega, a11, by omega⟩

/-- C9, on a run that spawns all four workers of a pool with maximum 4. -/
theorem pool_counters_bounded_witness :
    thread_pool_new cfg_demo 4 = .ok (pool_demo 4) ∧
    run cfg_demo (sys_demo 4 5) trace_four_workers =
      some (state_after cfg_demo (sys_demo 4 5) trace_four_workers) ∧
    (state_after cfg_demo (sys_demo 4 5) trace_four_workers).pool.thread_count = 4 ∧
    (state_after cfg_demo (sys_demo 4 5) trace_four_workers).pool.idle_thread_count +
      (state_after cfg_demo (sys_demo 4 5) trace_four_workers).pool.running_task_count ≤
      (state_after cfg_demo (sys_demo 4 5) trace_four_workers).pool.thread_count ∧
    ((state_after cfg_demo (sys_demo 4 5) trace_four_workers).workers.length : Int) ≤ 4 :=
  have h := pool_counters_bounded cfg_demo 4 1000 (pool_demo 4) (heap_of (specs_index 5))
    trace_four_workers (state_after cfg_demo (sys_demo 4 5) trace_four_workers) rfl
    (run_state_after (by decide))
  ⟨rfl, run_state_after (by decide), by decide, h.1, h.2.2.2⟩

/-- C6: in every state reached from `thread_pool_new` by pushes and worker steps
(seen with the pool mutex free), `thread_pool_delete` returns
`TPOOL_ERR_HAS_TASKS` exactly when `pending_task_count > 0` or
`running_task_count > 0`.  When both are 0, `idle_thread_count = thread_count`
holds, the test at line 136 passes and the call goes on to shut the workers
down: it returns 0 or waits in `pthread_join` for worker 0. -/
theorem delete_rejects_iff_busy (cfg : Config) (M : Int) (pool_addr : Nat)
    (pool : thread_pool) (tasks : Heap) (evs : List Event) (s : System)
    (hnew : thread_pool_new cfg M = .ok pool)
    (hrun : run cfg (System.init pool_addr pool tasks) evs = some s) :
    ((∃ s1, thread_pool_delete s = .ret (.err .TPOOL_ERR_HAS_TASKS) s1) ↔
      (s.pool.pending_task_count > 0 ∨ s.pool.running_task_count > 0)) ∧
    (s.pool.pending_task_count = 0 → s.pool.running_task_count = 0 →
      s.pool.idle_thread_count = s.pool.thread_count ∧
      ∃ s1, thread_pool_delete s = .ret .ok s1 ∨ thread_pool_delete s = .blocked s1) := by
  have inv := (CountInv.at_init pool_addr pool tasks cfg M hnew).run_count hrun
  obtain ⟨a1, a2, a3, a4, a5, a6, a7, a8, a9, a10, a11⟩ := inv
  have hd := (thread_pool_delete_has_tasks_aux s)
  constructor
  · rw [hd.1]
    constructor
    · rintro (h | h | h)
      · exact Or.inl h
      · exact Or.inr h
      · right; omega
    · rintro (h | h)
      · exact Or.inl h
      · exact Or.inr (Or.inl h)
  · intro hp hr
    have hi : s.pool.idle_thread_count = s.pool.thread_count := by omega
    refine ⟨hi, ?_⟩
    have hb : thread_pool_has_tasks s.pool = false := by
      simp [thread_pool_has_tasks, hp, hr, hi]
    unfold thread_pool_delete
    rw [hb]
    simp only [Bool.false_eq_true, if_false]
    cases s.pool.threads with
    | none => exact ⟨_, Or.inl rfl⟩
    | some ths =>
      simp only [thread_pool_delete_loop]
      by_cases hlt : (0 : Int) < s.pool.thread_count
      · rw [if_pos hlt]
        exact ⟨_, Or.inr rfl⟩
      · rw [if_neg hlt]
        exact ⟨_, Or.inl rfl⟩

/-- C6, on a run that ends quiescent with two idle workers: the delete is not
rejected. -/
theorem delete_rejects_iff_busy_witness :
    thread_pool_new cfg_demo 2 = .ok (pool_demo 2) ∧
    run cfg_demo (sys_demo 2 3) trace_quiescent =
      some (state_after cfg_demo (sys_demo 2 3) trace_quiescent) ∧
    (state_after cfg_demo (sys_demo 2 3) trace_quiescent).pool.idle_thread_count = 2 ∧
    (state_after cfg_demo (sys_demo 2 3) trace_quiescent).pool.thread_count = 2 ∧
    ∃ s1, thread_pool_delete (state_after cfg_demo (sys_demo 2 3) trace_quiescent) =
        .ret .ok s1 ∨
      thread_pool_delete (state_after cfg_demo (sys_demo 2 3) trace_quiescent) =
        .blocked s1 :=
  have h := delete_rejects_iff_busy cfg_demo 2 1000 (pool_demo 2) (heap_of (specs_index 3))
    trace_quiescent (state_after cfg_demo (sys_demo 2 3) trace_quiescent) rfl
    (run_state_after (by decide))
  ⟨rfl, run_state_after (by decide), by decide, by decide, (h.2 (by decide) (by decide)).2⟩

/-! ## Deleting a task -/

/-- C10: in every state of an execution of pushes and worker steps, each task
pushed so far (queued, running, or finished and not joined) is allocated and
`thread_task_delete` on it returns `TPOOL_ERR_TASK_IN_POOL` and leaves it as it
is; the same holds for any task whose pool association is set.
`thread_task_delete` returns 0 and frees the task for a task just created by
`thread_task_new` and for a task on which `thread_task_join` has returned 0. -/
theorem task_delete_in_pool (cfg : Config) (pool_addr : Nat) (pool : thread_pool)
    (tasks : Heap) (evs : List Event) (s : System)
    (hrun : run cfg (System.init pool_addr pool tasks) evs = some s) :
    (∀ t ∈ s.pushed, ∃ task, s.tasks t = some task ∧
      thread_task_delete task = (.err .TPOOL_ERR_TASK_IN_POOL, some task)) ∧
    (∀ task p, task.pool = some p →
      thread_task_delete task = (.err .TPOOL_ERR_TASK_IN_POOL, some task)) ∧
    (∀ f a, thread_task_delete (thread_task_new f a) = (.ok, none)) ∧
    (∀ task out r task1, thread_task_join task out = .ret .ok (r, task1) →
      thread_task_delete task1 = (.ok, none)) := by
  have inv : PushedInv s :=
    PushedInv.run_pushed (s := System.init pool_addr pool tasks) (fun t ht => by simp [System.init] at ht)
      hrun
  have hdel : ∀ task p, task.pool = some p →
      thread_task_delete task = (.err .TPOOL_ERR_TASK_IN_POOL, some task) := by
    intro task p hp
    simp [thread_task_delete, hp]
  refine ⟨?_, hdel, fun f a => rfl, ?_⟩
  · intro t ht
    obtain ⟨task, h1, h2⟩ := inv t ht
    exact ⟨task, h1, hdel task _ h2⟩
  · intro task out r task1 hj
    unfold thread_task_join at hj
    cases hp : task.pool with
    | none => simp [hp] at hj
    | some p =>
      simp only [hp] at hj
      split at hj
      · simp only [Outcome.ret.injEq, Prod.mk.injEq, true_and] at hj
        rw [← hj.2]
        rfl
      · simp at hj

/-- C10, on a run after which task 1 is finished, task 0 is running and task 2 is
queued: the delete is refused for each of them. -/
theorem task_delete_in_pool_witness :
    run cfg_demo (sys_demo 1 3) trace_mixed =
      some (state_after cfg_demo (sys_demo 1 3) trace_mixed) ∧
    ((state_after cfg_demo (sys_demo 1 3) trace_mixed).tasks 1).map
      (fun k => (k.is_finished, k.is_running)) = some (true, false) ∧
    ((state_after cfg_demo (sys_demo 1 3) trace_mixed).tasks 0).map
      (fun k => (k.is_finished, k.is_running)) = some (false, true) ∧
    (state_after cfg_demo (sys_demo 1 3) trace_mixed).pool.pending_task_list = some 2 ∧
    (∃ task, (state_after cfg_demo (sys_demo 1 3) trace_mixed).tasks 0 = some task ∧
      thread_task_delete task = (.err .TPOOL_ERR_TASK_IN_POOL, some task)) ∧
    (∃ task, (state_after cfg_demo (sys_demo 1 3) trace_mixed).tasks 1 = some task ∧
      thread_task_delete task = (.err .TPOOL_ERR_TASK_IN_POOL, some task)) ∧
    (∃ task, (state_after cfg_demo (sys_demo 1 3) trace_mixed).tasks 2 = some task ∧
      thread_task_delete task = (.err .TPOOL_ERR_TASK_IN_POOL, some task)) :=
  have h := task_delete_in_pool cfg_demo 1000 (pool_demo 1) (heap_of (specs_index 3))
    trace_mixed (state_after cfg_demo (sys_demo 1 3) trace_mixed)
    (run_state_after (by decide))
  ⟨run_state_after (by decide), by decide, by decide, by decide,
   h.1 0 (by decide), h.1 1 (by decide), h.1 2 (by decide)⟩

/-! ## Spawning on push -/

/-- C8: in every state reached from `thread_pool_new` in which no push is under
way, a call of `thread_pool_push_task` that is not rejected creates exactly
one worker thread if the pool has no worker yet (`thread_count = 0`),
otherwise exactly one if `idle_thread_count = 0` and `thread_count <
max_thread_count`, otherwise none.  The call returns 0 at once or waits at
the spawn barrier; whenever it has returned (and no other push has started),
`thread_pool_thread_count` is the previous count plus the number of threads
created. -/
theorem push_spawns_worker (cfg : Config) (M : Int) (pool_addr : Nat) (pool : thread_pool)
    (tasks : Heap) (evs : List Event) (s : System) (t : Nat) (task : thread_task)
    (hnew : thread_pool_new cfg M = .ok pool)
    (hrun : run cfg (System.init pool_addr pool tasks) evs = some s)
    (hq : s.pushers = [])
    (hroom : s.pool.pending_task_count < cfg.TPOOL_MAX_TASKS)
    (ht : s.tasks t = some task) :
    ∃ s1, (thread_pool_push_task cfg s t = .ret .ok s1 ∨
        thread_pool_push_task cfg s t = .blocked s1) ∧
      step cfg s (.push t) = some s1 ∧
      (s.pool.thread_count = 0 → s1.workers.length = s.workers.length + 1) ∧
      (s.pool.thread_count ≠ 0 → s.pool.idle_thread_count = 0 →
        s.pool.thread_count < s.pool.max_thread_count →
        s1.workers.length = s.workers.length + 1) ∧
      (s.pool.thread_count ≠ 0 →
        ¬ (s.pool.idle_thread_count = 0 ∧ s.pool.thread_count < s.pool.max_thread_count) →
        s1.workers.length = s.workers.length) ∧
      (∀ evs2 s2, evs2.all (fun e => !e.is_push) = true → run cfg s1 evs2 = some s2 →
        s2.pushers = [] →
        thread_pool_thread_count s2.pool =
          thread_pool_thread_count s.pool + (s1.workers.length - s.workers.length : Nat)) := by
  have inv := (CountInv.at_init pool_addr pool tasks cfg M hnew).run_count hrun
  have htc := inv.thread_count_eq hq
  obtain ⟨s1, ho, hs1, hw⟩ := push_outcome hq hroom ht
  have inv1 := inv.step_count hs1
  have hnone : s.pool.threads = none ↔ s.pool.thread_count = 0 := by
    rw [inv.threads_none, htc]
    constructor
    · intro h
      simp [h]
    · intro h
      exact List.length_eq_zero.mp (by omega)
  refine ⟨s1, ho, hs1, ?_, ?_, ?_, ?_⟩
  · intro h0
    rcases push_spawn_cases s.pool s.workers with ⟨_, hr⟩ | ⟨ths, _, hn, _, _, _⟩ | ⟨ths, hn, _, _⟩
    · rw [hw, hr]
      simp
    · rw [hnone.mpr h0] at hn
      simp at hn
    · rw [hnone.mpr h0] at hn
      simp at hn
  · intro h0 hi hlt
    rcases push_spawn_cases s.pool s.workers with ⟨hn, _⟩ | ⟨ths, _, _, _, _, hr⟩ | ⟨ths, _, hc, _⟩
    · exact absurd (hnone.mp hn) h0
    · rw [hw, hr]
      simp
    · exact absurd ⟨hi, hlt⟩ hc
  · intro h0 hc
    rcases push_spawn_cases s.pool s.workers with ⟨hn, _⟩ | ⟨ths, _, _, hi, hlt, _⟩ | ⟨ths, _, _, hr⟩
    · exact absurd (hnone.mp hn) h0
    · exact absurd ⟨hi, hlt⟩ hc
    · rw [hw, hr]
  · intro evs2 s2 hall hrun2 hq2
    have inv2 := inv1.run_count hrun2
    have h2 := inv2.thread_count_eq hq2
    have hl := run_workers_length evs2 s1 s2 hall hrun2
    have hge : s.workers.length ≤ s1.workers.length := by
      rw [hw]
      rcases push_spawn_cases s.pool s.workers with ⟨_, hr⟩ | ⟨ths, _, _, _, _, hr⟩ | ⟨ths, _, _, hr⟩ <;>
        rw [hr] <;> simp
    simp only [thread_pool_thread_count]
    omega

/-- C8, on a pool of maximum 2 whose only worker is busy: the push of task 1 creates
the second worker, and after that worker has registered and the call has
returned the thread count is 2. -/
theorem push_spawns_worker_witness :
    ∃ s1, (thread_pool_push_task cfg_demo
          (state_after cfg_demo (sys_demo 2 2) trace_one_running) 1 = .ret .ok s1 ∨
        thread_pool_push_task cfg_demo
          (state_after cfg_demo (sys_demo 2 2) trace_one_running) 1 = .blocked s1) ∧
      s1.workers.length = 2 ∧
      (run cfg_demo s1 [.register 1, .resume]).map
        (fun s2 => (s2.pushers, thread_pool_thread_count s2.pool)) = some ([], 2) := by
  obtain ⟨s1, h1, h2, _, h4, _, h6⟩ :=
    push_spawns_worker cfg_demo 2 1000 (pool_demo 2) (heap_of (specs_index 2))
      trace_one_running (state_after cfg_demo (sys_demo 2 2) trace_one_running) 1
      (thread_task_new (fun _ => 1) 0) rfl (run_state_after (by decide)) (by decide)
      (by decide) rfl
  have hlen : s1.workers.length = 2 := h4 (by decide) (by decide) (by decide)
  refine ⟨s1, h1, hlen, ?_⟩
  have hs : step cfg_demo (state_after cfg_demo (sys_demo 2 2) trace_one_running) (.push 1) =
      some (state_after cfg_demo (sys_demo 2 2) (trace_one_running ++ [.push 1])) := by
    rfl
  rw [hs] at h2
  simp only [Option.some.injEq] at h2
  subst h2
  decide

/-! ## Every pushed task runs exactly once -/

theorem tasks_run_exactly_once_aux (cfg : Config) (M : Int) (pool_addr : Nat)
    (pool : thread_pool) (specs : List ((Int → Int) × Int)) (evs : List Event) (s : System)
    (hnew : thread_pool_new cfg M = .ok pool)
    (hrun : run cfg (System.init pool_addr pool (heap_of specs)) evs = some s)
    (hnd : s.pushed.Nodup) :
    s.calls.Nodup ∧ (∀ t ∈ s.calls, t ∈ s.pushed) ∧
    (s.pool.pending_task_count = 0 → s.pool.running_task_count = 0 →
      s.calls.Perm s.pushed ∧
      ∀ t ∈ s.pushed, ∃ fa task, specs[t]? = some fa ∧ s.tasks t = some task ∧
        task.is_finished = true ∧
        ∀ out, ∃ task1, thread_task_join task out = .ret .ok (fa.1 fa.2, task1)) := by
  have cinv := (CountInv.at_init pool_addr pool (heap_of specs) cfg M hnew).run_count hrun
  have tinv := run_task_inv (TaskInv.tasks_at_init specs pool_addr pool cfg M hnew)
    (CountInv.at_init pool_addr pool (heap_of specs) cfg M hnew) hrun hnd
  have pinv : PushedInv s :=
    PushedInv.run_pushed (s := System.init pool_addr pool (heap_of specs))
      (fun t ht => by simp [System.init] at ht) hrun
  obtain ⟨⟨L, hc, hl, hcount⟩, st, dn⟩ := tinv
  have hle : ∀ t, s.pushed.count t ≤ 1 := List.nodup_iff_count_le_one.mp hnd
  refine ⟨?_, ?_, ?_⟩
  · rw [List.nodup_iff_count_le_one]
    intro t
    have := hcount t
    have := hle t
    omega
  · intro t ht
    rw [← List.count_pos_iff] at ht ⊢
    have := hcount t
    omega
  · intro hp hr
    have hL : L = [] := by
      apply List.length_eq_zero.mp
      omega
    have hbusy : s.workers.countP Worker.is_busy = 0 := by
      have := cinv.running
      omega
    have hperm : s.calls.Perm s.pushed := by
      rw [List.perm_iff_count]
      intro t
      have h1 := hcount t
      have h2 := holds_le_busy t s.workers
      rw [hL] at h1
      simp only [List.count_nil] at h1
      omega
    refine ⟨hperm, ?_⟩
    intro t ht
    obtain ⟨task, h1, h2, h3⟩ := dn t (hperm.mem_iff.mpr ht)
    obtain ⟨fa, f1, f2, f3, _⟩ := st t task h1
    obtain ⟨k, k1, k2⟩ := pinv t ht
    rw [h1] at k1
    simp only [Option.some.injEq] at k1
    subst k1
    refine ⟨fa, task, f1, h1, h2, fun out => ⟨{ task with pool := none }, ?_⟩⟩
    simp [thread_task_join, k2, h2, h3, f2, f3]

/-- C2: `N` tasks are created by `thread_task_new` (`specs` gives their functions and
arguments) and pushed, each at most once, by calls that do not overlap, to a
pool created with the maximum `M`.  In every state of every execution the
task functions called so far are pairwise different pushed tasks (no task
runs twice); once the pool is quiescent the tasks called are exactly the
tasks pushed (none is skipped), each is finished, and `thread_task_join` on it
returns 0 with the value of its function at its argument. -/
theorem tasks_run_exactly_once (cfg : Config) (M : Int) (pool_addr : Nat)
    (pool : thread_pool) (specs : List ((Int → Int) × Int)) (evs : List Event) (s : System)
    (hnew : thread_pool_new cfg M = .ok pool)
    (hrun : run cfg (System.init pool_addr pool (heap_of specs)) evs = some s)
    (hnd : s.pushed.Nodup) :
    s.calls.Nodup ∧ (∀ t ∈ s.calls, t ∈ s.pushed) ∧
    (s.pool.pending_task_count = 0 → s.pool.running_task_count = 0 →
      s.calls.Perm s.pushed ∧
      ∀ t ∈ s.pushed, ∃ fa task, specs[t]? = some fa ∧ s.tasks t = some task ∧
        task.is_finished = true ∧
        ∀ out, ∃ task1, thread_task_join task out = .ret .ok (fa.1 fa.2, task1)) :=
  tasks_run_exactly_once_aux cfg M pool_addr pool specs evs s hnew hrun hnd

set_option maxRecDepth 100000 in
/-- C2, on the scenario of the specification: 100 tasks, the i-th returning `i`,
are pushed to a pool of four workers and run to quiescence; the function of
every task was called once and the joins give 0, 1, ..., 99. -/
theorem tasks_run_exactly_once_witness :
    thread_pool_new cfg_demo 4 = .ok (pool_demo 4) ∧
    run cfg_demo (sys_demo 4 100) trace_hundred =
      some (state_after cfg_demo (sys_demo 4 100) trace_hundred) ∧
    (state_after cfg_demo (sys_demo 4 100) trace_hundred).pushed = List.range 100 ∧
    (state_after cfg_demo (sys_demo 4 100) trace_hundred).calls.Nodup ∧
    (state_after cfg_demo (sys_demo 4 100) trace_hundred).calls.Perm (List.range 100) ∧
    (List.range 100).map (join_result (state_after cfg_demo (sys_demo 4 100) trace_hundred)) =
      (List.range 100).map (fun i => some (i : Int)) := by
  have hp : (state_after cfg_demo (sys_demo 4 100) trace_hundred).pushed = List.range 100 := by
    decide
  have h := tasks_run_exactly_once cfg_demo 4 1000 (pool_demo 4) (specs_index 100)
    trace_hundred (state_after cfg_demo (sys_demo 4 100) trace_hundred) rfl
    (run_state_after (by decide)) (by rw [hp]; exact List.nodup_range 100)
  refine ⟨rfl, run_state_after (by decide), hp, h.1, ?_, by decide⟩
  rw [← hp]
  exact (h.2.2 (by decide) (by decide)).1

/-! ## Calls on a task that is not in a pool -/

/-- C11: for a task just created by `thread_task_new` (never pushed),
`thread_task_join`, `thread_task_timed_join` with any timeout and
`thread_task_detach` return `TPOOL_ERR_TASK_NOT_PUSHED` at once (they are not
suspended), leave `*result` as it was and leave the task as it was. -/
theorem not_pushed_calls_fail (function : Int → Int) (arg : Int) (timeout : ℚ) (out : Int) :
    thread_task_join (thread_task_new function arg) out =
      .ret (.err .TPOOL_ERR_TASK_NOT_PUSHED) (out, thread_task_new function arg) ∧
    thread_task_timed_join (thread_task_new function arg) timeout out =
      .ret (.err .TPOOL_ERR_TASK_NOT_PUSHED) (out, thread_task_new function arg) ∧
    thread_task_detach (thread_task_new function arg) =
      (.err .TPOOL_ERR_TASK_NOT_PUSHED, some (thread_task_new function arg)) :=
  ⟨rfl, rfl, rfl⟩

/-- C12: for a pushed and finished task, `thread_task_join` returns 0 and a second
`thread_task_join` on the task it leaves returns `TPOOL_ERR_TASK_NOT_PUSHED`,
does not write `*result` and leaves the task as it is. -/
theorem second_join_not_pushed (task : thread_task) (p : Nat) (out out2 : Int)
    (hp : task.pool = some p) (hf : task.is_finished = true) :
    ∃ task1, thread_task_join task out = .ret .ok (task.result, task1) ∧
      thread_task_join task1 out2 = .ret (.err .TPOOL_ERR_TASK_NOT_PUSHED) (out2, task1) := by
  refine ⟨{ task with pool := none }, ?_, rfl⟩
  simp [thread_task_join, hp, hf]

/-- C12, at a concrete pushed and finished task: the first join gives its result 0,
the second one fails and leaves the output 7 untouched. -/
theorem second_join_not_pushed_witness :
    ∃ task1, thread_task_join
        { thread_task_new (fun _ => 0) 0 with pool := some 1000, is_finished := true } 5 =
        .ret .ok (0, task1) ∧
      thread_task_join task1 7 = .ret (.err .TPOOL_ERR_TASK_NOT_PUSHED) (7, task1) :=
  second_join_not_pushed
    { thread_task_new (fun _ => 0) 0 with pool := some 1000, is_finished := true }
    1000 5 7 rfl rfl

/-! ## Detaching a task -/

/-- C13 fails in the code: `thread_task_detach` does return 0 on a pushed task,
frees a finished task itself (after it has released the task's mutex, lines
318-319) and otherwise marks the task; but the worker's completion step calls
`thread_task_delete` on the marked task while it holds the task's mutex (lines
92-95): the delete succeeds, destroys that mutex and frees the task, and line
102 then unlocks `task->mutex` inside the freed task.  On a pool of one worker
that is executing task 0, the detach of task 0 returns 0 and leaves the task
marked, and the completion step of the worker then has no defined result,
whereas without the detach it stores the result; a detach of the finished
task 1 returns 0 and frees it.  The same holds for every task that is
detached and has its pool association cleared when the worker completes it:
its delete succeeds, and the step ends in the unlock of the freed task. -/
theorem detached_completion_unlocks_freed_task :
    (state_after cfg_demo (sys_demo 1 2) (trace_one_running ++ [.start 0])).workers =
      [⟨0, .executing 0⟩] ∧
    (((state_after cfg_demo (sys_demo 1 2) (trace_one_running ++ [.start 0])).detach 0).map
      (fun r => (r.1, (r.2.tasks 0).map
        (fun x => (x.pool, x.is_detached, x.is_running, x.is_finished))))) =
      some (.ok, some (none, true, true, false)) ∧
    (step cfg_demo state_detached_running (.complete 0)).isSome = false ∧
    (thread_worker_finish state_detached_running.pool state_detached_running.tasks 0).isSome
      = false ∧
    (step cfg_demo (state_after cfg_demo (sys_demo 1 2) (trace_one_running ++ [.start 0]))
      (.complete 0)).isSome = true ∧
    (((state_after cfg_demo (sys_demo 1 3) trace_mixed).tasks 1).map
      (fun x => (x.pool.isSome, x.is_finished))) = some (true, true) ∧
    (((state_after cfg_demo (sys_demo 1 3) trace_mixed).detach 1).map
      (fun r => (r.1, (r.2.tasks 1).isSome))) = some (.ok, false) ∧
    (∀ (pool : thread_pool) (h : Heap) (t : Nat) (task : thread_task),
      h t = some task → task.is_detached = true → task.pool = none →
        thread_task_delete task = (.ok, none) ∧ thread_worker_finish pool h t = none) := by
  refine ⟨by decide, by decide, by decide, by decide, by decide, by decide, by decide, ?_⟩
  intro pool h t task ht hd hp
  have hdel : thread_task_delete task = (.ok, none) := by
    simp [thread_task_delete, hp]
  refine ⟨hdel, ?_⟩
  simp [thread_worker_finish, ht, hd, hdel]

/-! ## A timed join that times out -/

/-- C14: when `thread_task_timed_join` returns `TPOOL_ERR_TIMEOUT` on a pushed task,
at its entry (a timeout below 1e-9 and the task not finished) or after a
`pthread_cond_timedwait` that timed out, `*result` and every field of the
task are as before.  Hence the execution goes on as if no call had been
made: in every continuation in which no task is pushed twice, once the pool
is quiescent the task is finished and `thread_task_join` on it returns 0 with
the value of its function at its argument. -/
theorem timed_join_timeout_keeps (cfg : Config) (M : Int) (pool_addr : Nat)
    (pool : thread_pool) (specs : List ((Int → Int) × Int)) (evs : List Event) (s : System)
    (t : Nat) (task : thread_task) (timeout : ℚ) (timed_out : Bool) (out : Int)
    (hnew : thread_pool_new cfg M = .ok pool)
    (hrun : run cfg (System.init pool_addr pool (heap_of specs)) evs = some s)
    (hpush : t ∈ s.pushed) (ht : s.tasks t = some task) :
    (∀ r, thread_task_timed_join task timeout out = .ret (.err .TPOOL_ERR_TIMEOUT) r →
      r = (out, task)) ∧
    (∀ r, thread_task_timed_join_resume task timed_out out =
        .ret (.err .TPOOL_ERR_TIMEOUT) r → r = (out, task)) ∧
    (timeout < 1 / 1000000000 → task.is_finished = false →
      thread_task_timed_join task timeout out =
        .ret (.err .TPOOL_ERR_TIMEOUT) (out, task)) ∧
    thread_task_timed_join_resume task true out =
      .ret (.err .TPOOL_ERR_TIMEOUT) (out, task) ∧
    (∀ evs2 s2, run cfg s evs2 = some s2 → s2.pushed.Nodup →
      s2.pool.pending_task_count = 0 → s2.pool.running_task_count = 0 →
      ∃ fa task2, specs[t]? = some fa ∧ s2.tasks t = some task2 ∧
        task2.is_finished = true ∧
        ∀ out2, ∃ task3, thread_task_join task2 out2 = .ret .ok (fa.1 fa.2, task3)) := by
  have pinv : PushedInv s :=
    PushedInv.run_pushed (s := System.init pool_addr pool (heap_of specs))
      (fun t ht => by simp [System.init] at ht) hrun
  obtain ⟨k, k1, k2⟩ := pinv t hpush
  rw [ht] at k1
  simp only [Option.some.injEq] at k1
  subst k1
  refine ⟨?_, ?_, ?_, ?_, ?_⟩
  · intro r hr
    unfold thread_task_timed_join at hr
    simp only [k2] at hr
    split at hr
    · split at hr
      · simp only [Outcome.ret.injEq, true_and] at hr
        exact hr.symm
      · simp at hr
    · split at hr <;> simp at hr
  · intro r hr
    unfold thread_task_timed_join_resume at hr
    split at hr
    · simp at hr
    · split at hr
      · simp only [Outcome.ret.injEq, true_and] at hr
        exact hr.symm
      · simp at hr
  · intro hlt hf
    unfold thread_task_timed_join
    simp only [k2]
    rw [if_pos hlt]
    simp [hf]
  · simp [thread_task_timed_join_resume]
  · intro evs2 s2 hrun2 hnd hp hr
    have hall := run_append evs evs2 _ s s2 hrun hrun2
    have h2 := tasks_run_exactly_once_aux cfg M pool_addr pool specs (evs ++ evs2) s2 hnew
      hall hnd
    exact (h2.2.2 hp hr).2 t (run_pushed_mem evs2 s s2 hrun2 hpush)

/-- C14, on a run where task 0 is being executed: a timed join with timeout 0 times
out and changes nothing; after the run has gone on to quiescence the join
gives the value 0 of its function. -/
theorem timed_join_timeout_keeps_witness :
    thread_task_timed_join
        { thread_task_new (fun _ => 0) 0 with pool := some 1000, is_running := true } 0 7 =
      .ret (.err .TPOOL_ERR_TIMEOUT)
        (7, { thread_task_new (fun _ => 0) 0 with pool := some 1000, is_running := true }) ∧
    run cfg_demo (state_after cfg_demo (sys_demo 1 3) trace_mixed) trace_mixed_rest =
      some (state_after cfg_demo (state_after cfg_demo (sys_demo 1 3) trace_mixed)
        trace_mixed_rest) ∧
    join_result (state_after cfg_demo (state_after cfg_demo (sys_demo 1 3) trace_mixed)
      trace_mixed_rest) 0 = some 0 ∧
    ∃ fa task2, (specs_index 3)[0]? = some fa ∧
      (state_after cfg_demo (state_after cfg_demo (sys_demo 1 3) trace_mixed)
        trace_mixed_rest).tasks 0 = some task2 ∧ task2.is_finished = true ∧
      ∀ out2, ∃ task3, thread_task_join task2 out2 = .ret .ok (fa.1 fa.2, task3) := by
  have hrest : run cfg_demo (state_after cfg_demo (sys_demo 1 3) trace_mixed) trace_mixed_rest =
      some (state_after cfg_demo (state_after cfg_demo (sys_demo 1 3) trace_mixed)
        trace_mixed_rest) := run_state_after (by decide)
  have h := timed_join_timeout_keeps cfg_demo 1 1000 (pool_demo 1) (specs_index 3) trace_mixed
    (state_after cfg_demo (sys_demo 1 3) trace_mixed) 0
    { thread_task_new (fun _ => 0) 0 with pool := some 1000, is_running := true } 0 false 7
    rfl (run_state_after (by decide)) (by decide) rfl
  exact ⟨h.2.2.1 (by norm_num) rfl, hrest, by decide,
    h.2.2.2.2 _ _ hrest (by decide) (by decide) (by decide)⟩

/-! ## A rejected push -/

/-- C15: in every state reached from `thread_pool_new` by pushes and worker steps, a
call of `thread_pool_push_task` that returns `TPOOL_ERR_TOO_MANY_TASKS` leaves
the whole state as it was (the pool's counters, list and threads, the worker
threads, every task).  After that, once a worker has dequeued a task, a push
of any allocated task is accepted: it returns 0 at once, or it waits at the
spawn barrier and returns 0 when `thread_count` has reached the count it
waits for. -/
theorem rejected_push_changes_nothing (cfg : Config) (M : Int) (pool_addr : Nat)
    (pool : thread_pool) (tasks : Heap) (evs : List Event) (s s1 : System) (t : Nat)
    (hnew : thread_pool_new cfg M = .ok pool)
    (hrun : run cfg (System.init pool_addr pool tasks) evs = some s)
    (hq : s.pushers = [])
    (hrej : thread_pool_push_task cfg s t = .ret (.err .TPOOL_ERR_TOO_MANY_TASKS) s1) :
    s1 = s ∧ step cfg s (.push t) = some s ∧
    (∀ evs2 s2, evs2.all (fun e => !e.is_push) = true → run cfg s evs2 = some s2 →
      s2.pool.pending_task_count < s.pool.pending_task_count →
      ∀ t2 task2, s2.tasks t2 = some task2 →
        ∃ s3, (thread_pool_push_task cfg s2 t2 = .ret .ok s3 ∨
            (thread_pool_push_task cfg s2 t2 = .blocked s3 ∧
              ∃ required, s3.pushers = [(t2, required)] ∧
                ∀ s4 task4, s4.pushers = [(t2, required)] →
                  s4.pool.thread_count = required → s4.tasks t2 = some task4 →
                  ∃ s5, thread_pool_push_task_resume s4 = .ret .ok s5)) ∧
          step cfg s2 (.push t2) = some s3) := by
  obtain ⟨hfull, _, h1⟩ := push_rejected_inv hrej
  have cinv := (CountInv.at_init pool_addr pool tasks cfg M hnew).run_count hrun
  have pinv := (PendingInv.pending_at_init cfg pool_addr pool tasks M hnew).run_pending
    (CountInv.at_init pool_addr pool tasks cfg M hnew) hrun
  refine ⟨h1, ?_, ?_⟩
  · simp only [step, hq, hrej, h1]
  · intro evs2 s2 hall hrun2 hlt t2 task2 ht2
    have hq2 := run_pushers_nil evs2 s s2 hall hrun2 hq
    have hroom : s2.pool.pending_task_count < cfg.TPOOL_MAX_TASKS := by
      rcases pinv.ceiling with hc | hc
      · omega
      · have pinv2 := pinv.run_pending cinv hrun2
        have := pinv2.nonneg
        omega
    obtain ⟨s3, ho, hs3, _⟩ := push_outcome hq2 hroom ht2
    refine ⟨s3, ?_, hs3⟩
    rcases ho with ho | ho
    · exact Or.inl ho
    · refine Or.inr ⟨ho, ?_⟩
      have hpf : thread_pool_push_task cfg s2 t2 =
          push_finish { s2 with pool := (push_spawn s2.pool s2.workers).1,
                                workers := (push_spawn s2.pool s2.workers).2.1 }
            t2 (push_spawn s2.pool s2.workers).2.2 s2.pushers := by
        unfold thread_pool_push_task
        rw [if_neg (by omega)]
      rw [hpf] at ho
      refine ⟨(push_spawn s2.pool s2.workers).2.2, ?_, ?_⟩
      · rcases push_finish_cases
            { s2 with pool := (push_spawn s2.pool s2.workers).1,
                      workers := (push_spawn s2.pool s2.workers).2.1 }
            t2 (push_spawn s2.pool s2.workers).2.2 s2.pushers with h2 | ⟨s6, h2⟩ | h2
        · rw [h2] at ho
          simp only [Outcome.blocked.injEq] at ho
          rw [← ho, hq2]
        · rw [h2] at ho
          simp at ho
        · rw [h2] at ho
          simp at ho
      · intro s4 task4 hq4 htc4 ht4
        unfold thread_pool_push_task_resume
        rw [hq4]
        simp only
        unfold push_finish
        rw [if_neg (by simpa using htc4), push_enqueue_eq ht4]
        exact ⟨_, rfl⟩

/-- C15, with the task ceiling 1: the push of task 1 is rejected while task 0 is
pending and changes nothing; after the worker has dequeued task 0 the push of
task 1 returns 0. -/
theorem rejected_push_changes_nothing_witness :
    thread_pool_push_task cfg_one (state_after cfg_one (sys_demo 1 3) trace_full) 1 =
      .ret (.err .TPOOL_ERR_TOO_MANY_TASKS) (state_after cfg_one (sys_demo 1 3) trace_full) ∧
    (run cfg_one (state_after cfg_one (sys_demo 1 3) trace_full) [.wake 0]).map
      (fun s2 => (s2.pool.pending_task_count, (thread_pool_push_task cfg_one s2 1).code)) =
      some (0, some .ok) ∧
    step cfg_one (state_after cfg_one (sys_demo 1 3) trace_full) (.push 1) =
      some (state_after cfg_one (sys_demo 1 3) trace_full) := by
  have hrej : thread_pool_push_task cfg_one (state_after cfg_one (sys_demo 1 3) trace_full) 1 =
      .ret (.err .TPOOL_ERR_TOO_MANY_TASKS) (state_after cfg_one (sys_demo 1 3) trace_full) := by
    unfold thread_pool_push_task
    rw [if_pos (by decide)]
  have h := rejected_push_changes_nothing cfg_one 1 1000 (pool_demo 1)
    (heap_of (specs_index 3)) trace_full (state_after cfg_one (sys_demo 1 3) trace_full)
    (state_after cfg_one (sys_demo 1 3) trace_full) 1 rfl (run_state_after (by decide))
    (by decide) hrej
  exact ⟨hrej, by decide, h.2.1⟩

/-! ## The pending count and the pending list -/

/-- C18: in every state reached from `thread_pool_new` by worker steps and pushes of
tasks that are not in the pending list at the time of the push, the links from
`pending_task_list` form a list that ends in `NULL` and has exactly
`pending_task_count` entries, and the count is not negative.  So when
`pending_task_count >= 1` the head is the address of an allocated task, the
dequeue of lines 75-80 succeeds, and a worker that returns from its wait does
not dereference `NULL`. -/
theorem pending_count_is_list_length (cfg : Config) (M : Int) (pool_addr : Nat)
    (pool : thread_pool) (tasks : Heap) (evs : List Event) (s : System)
    (hnew : thread_pool_new cfg M = .ok pool)
    (hrun : run_guarded cfg push_not_queued (System.init pool_addr pool tasks) evs = some s) :
    Chain s.tasks s.pool.pending_task_list s.queue ∧
    (s.queue.length : Int) = s.pool.pending_task_count ∧
    0 ≤ s.pool.pending_task_count ∧
    (1 ≤ s.pool.pending_task_count →
      ∃ t task, s.pool.pending_task_list = some t ∧ s.tasks t = some task ∧
        (thread_worker_take s.pool s.tasks).map (fun r => r.2.2) = some t ∧
        ∀ idx, (thread_worker_wake s.pool s.tasks idx).isSome = true) := by
  obtain ⟨qinv, _⟩ := (QueueInv.queue_at_init pool_addr pool tasks cfg M hnew).run_queue
    (CountInv.at_init pool_addr pool tasks cfg M hnew) hrun
  have hlen := qinv.length
  refine ⟨qinv.chain, hlen, by omega, ?_⟩
  intro h1
  have hc := qinv.chain
  cases hq : s.queue with
  | nil =>
    rw [hq] at hlen
    simp only [List.length_nil, Nat.cast_zero] at hlen
    omega
  | cons t L =>
    rw [hq] at hc
    obtain ⟨hhd, task, ht, _⟩ := hc
    have htake : thread_worker_take s.pool s.tasks =
        some ({ s.pool with pending_task_list := task.next,
                            idle_thread_count := s.pool.idle_thread_count - 1,
                            pending_task_count := s.pool.pending_task_count - 1,
                            running_task_count := s.pool.running_task_count + 1 },
              s.tasks.set t (some { task with next := none }), t) := by
      unfold thread_worker_take
      rw [hhd]
      simp only [ht]
    refine ⟨t, task, hhd, ht, by rw [htake]; rfl, ?_⟩
    intro idx
    unfold thread_worker_wake thread_worker_after_wait
    rw [htake]
    split
    · rfl
    · split <;> rfl

/-- C18, after two pushes on a pool of one worker: the count is 2, the list read
from the head is task 1 then task 0, and the head is not `NULL`. -/
theorem pending_count_is_list_length_witness :
    (state_after cfg_demo (sys_demo 1 2) trace_two_pushes).pool.pending_task_count = 2 ∧
    (state_after cfg_demo (sys_demo 1 2) trace_two_pushes).queue = [1, 0] ∧
    ((state_after cfg_demo (sys_demo 1 2) trace_two_pushes).queue.length : Int) =
      (state_after cfg_demo (sys_demo 1 2) trace_two_pushes).pool.pending_task_count ∧
    ∃ t, (state_after cfg_demo (sys_demo 1 2) trace_two_pushes).pool.pending_task_list =
      some t := by
  have h := pending_count_is_list_length cfg_demo 1 1000 (pool_demo 1)
    (heap_of (specs_index 2)) trace_two_pushes
    (state_after cfg_demo (sys_demo 1 2) trace_two_pushes) rfl
    (run_guarded_state_after (by decide))
  obtain ⟨t, _, ht, _⟩ := h.2.2.2 (by decide)
  exact ⟨by decide, by decide, h.2.1, t, ht⟩

/-! ## A task is queued at most once -/

theorem no_chain_of_self_loop (h : Heap) (t : Nat) (task : thread_task) (ht : h t = some task)
    (hn : task.next = some t) : ∀ L, ¬ Chain h (some t) L := by
  intro L
  induction L with
  | nil =>
    intro hc
    simp [Chain] at hc
  | cons u L ih =>
    intro hc
    obtain ⟨hu, task1, ht1, hc1⟩ := hc
    simp only [Option.some.injEq] at hu
    subst hu
    rw [ht] at ht1
    simp only [Option.some.injEq] at ht1
    subst ht1
    rw [hn] at hc1
    exact ih hc1

/-- C16, as stated, fails: `thread_pool_push_task` never reads `task->pool`.  On a
pool of one worker with tasks 0 and 1 pending, a second push of task 1 returns
0, raises `pending_task_count` to 3 and makes task 1 its own successor: the
list read from the head is 1, 1, 1, ..., no `NULL` ends it, and task 0 is cut
off.  The worker then executes task 1 twice, never task 0, and its third
dequeue dereferences `NULL`. -/
theorem push_queued_task_counterexample :
    (state_after cfg_demo (sys_demo 1 2) trace_two_pushes).queue = [1, 0] ∧
    (thread_pool_push_task cfg_demo
      (state_after cfg_demo (sys_demo 1 2) trace_two_pushes) 1).code = some .ok ∧
    (run cfg_demo (sys_demo 1 2) trace_double_push).isSome = true ∧
    (state_after cfg_demo (sys_demo 1 2) trace_double_push).pool.pending_task_count = 3 ∧
    (state_after cfg_demo (sys_demo 1 2) trace_double_push).queue = [1, 1, 1] ∧
    (state_after cfg_demo (sys_demo 1 2) trace_double_push).queue.count 1 = 3 ∧
    (∀ L, ¬ Chain (state_after cfg_demo (sys_demo 1 2) trace_double_push).tasks
      (state_after cfg_demo (sys_demo 1 2) trace_double_push).pool.pending_task_list L) ∧
    (state_after cfg_demo (sys_demo 1 2)
      (trace_double_push ++ trace_double_push_rest.take 4)).calls = [1] ∧
    (state_after cfg_demo (sys_demo 1 2)
      (trace_double_push ++ trace_double_push_rest.take 4)).workers = [⟨0, .executing 1⟩] ∧
    (state_after cfg_demo (sys_demo 1 2)
      (trace_double_push ++ trace_double_push_rest.take 4)).pool.pending_task_count = 1 ∧
    (state_after cfg_demo (sys_demo 1 2)
      (trace_double_push ++ trace_double_push_rest.take 4)).pool.pending_task_list = none ∧
    (run cfg_demo (sys_demo 1 2) (trace_double_push ++ trace_double_push_rest)).isSome =
      false := by
  refine ⟨by decide, by decide, by decide, by decide, by decide, by decide, ?_, by decide,
    by decide, by decide, by decide, by decide⟩
  have hhd : (state_after cfg_demo (sys_demo 1 2) trace_double_push).pool.pending_task_list =
      some 1 := by decide
  rw [hhd]
  cases ht : (state_after cfg_demo (sys_demo 1 2) trace_double_push).tasks 1 with
  | none =>
    have : ((state_after cfg_demo (sys_demo 1 2) trace_double_push).tasks 1).isSome = true := by
      decide
    rw [ht] at this
    simp at this
  | some task =>
    have hn : ((state_after cfg_demo (sys_demo 1 2) trace_double_push).tasks 1).map
        (fun x => x.next) = some (some 1) := by decide
    rw [ht] at hn
    simp only [Option.map_some', Option.some.injEq] at hn
    exact no_chain_of_self_loop _ 1 task ht hn

/-- C16, amended: when every push is of a task that is, at the time of the push,
neither in the pending list nor in the hands of a worker, then in every state
reached from `thread_pool_new` the pending list is a `NULL`-terminated list
without repetition, every task is in at most one place (once in the list, or
with one worker), and the `pool` field of every task in the list is this
pool. -/
theorem task_queued_at_most_once (cfg : Config) (M : Int) (pool_addr : Nat)
    (pool : thread_pool) (specs : List ((Int → Int) × Int)) (evs : List Event) (s : System)
    (hnew : thread_pool_new cfg M = .ok pool)
    (hrun : run_guarded cfg push_idle (System.init pool_addr pool (heap_of specs)) evs =
      some s) :
    Chain s.tasks s.pool.pending_task_list s.queue ∧
    s.queue.Nodup ∧
    (∀ t, s.queue.count t + s.workers.countP (Worker.holds t) ≤ 1) ∧
    (∀ t ∈ s.queue, ∃ task, s.tasks t = some task ∧ task.pool = some s.pool_addr) := by
  obtain ⟨_, qinv, inv⟩ := run_life_inv hnew hrun
  exact ⟨qinv.chain, qinv.nodup, inv.excl, qinv.owned⟩

/-- C16, amended, on a run of three tasks on one worker where task 1 is finished,
task 0 is being executed and task 2 is pending. -/
theorem task_queued_at_most_once_witness :
    (state_after cfg_demo (sys_demo 1 3) trace_mixed).queue = [2] ∧
    (state_after cfg_demo (sys_demo 1 3) trace_mixed).workers = [⟨0, .executing 0⟩] ∧
    (state_after cfg_demo (sys_demo 1 3) trace_mixed).queue.Nodup ∧
    (∀ t, (state_after cfg_demo (sys_demo 1 3) trace_mixed).queue.count t +
      (state_after cfg_demo (sys_demo 1 3) trace_mixed).workers.countP (Worker.holds t) ≤ 1) := by
  have h := task_queued_at_most_once cfg_demo 1 1000 (pool_demo 1) (specs_index 3) trace_mixed
    (state_after cfg_demo (sys_demo 1 3) trace_mixed) rfl
    (run_guarded_state_after (by decide))
  exact ⟨by decide, by decide, h.2.1, h.2.2.1⟩

/-! ## The flags of a task -/

/-- C19, as stated, fails at its first edge: the worker dequeues the task under the
pool mutex (lines 75-80) and sets `is_running` only at line 86, after it has
released the mutex.  In between, the task has left the pending list, a worker
has it, `running_task_count` counts it, and `thread_task_is_running` is
false.  It also fails when the client pushes a task that a worker is
executing, which `thread_pool_push_task` does not refuse: lines 201-202 clear
`is_running` of the task while the worker is still between line 86 and its
completion step, and once the worker has completed the task, dequeued it
again and passed line 86 again, `thread_task_is_running` and
`thread_task_is_finished` are both true. -/
theorem is_running_from_claim_counterexample :
    (run_guarded cfg_demo push_idle (sys_demo 1 1) trace_one_running).isSome = true ∧
    (state_after cfg_demo (sys_demo 1 1) trace_one_running).workers = [⟨0, .claimed 0⟩] ∧
    (state_after cfg_demo (sys_demo 1 1) trace_one_running).queue = [] ∧
    (state_after cfg_demo (sys_demo 1 1) trace_one_running).pool.running_task_count = 1 ∧
    ((state_after cfg_demo (sys_demo 1 1) trace_one_running).tasks 0).map
      (fun task => (task.is_detached, thread_task_is_running task,
        thread_task_is_finished task)) = some (false, false, false) ∧
    (run cfg_demo (sys_demo 1 1) (trace_repush_running ++ trace_repush_running_rest)).isSome
      = true ∧
    (state_after cfg_demo (sys_demo 1 1) trace_repush_running).workers = [⟨0, .executing 0⟩] ∧
    ((state_after cfg_demo (sys_demo 1 1) trace_repush_running).tasks 0).map
      (fun task => (task.is_detached, thread_task_is_running task,
        thread_task_is_finished task)) = some (false, false, false) ∧
    (state_after cfg_demo (sys_demo 1 1)
      (trace_repush_running ++ trace_repush_running_rest)).workers = [⟨0, .executing 0⟩] ∧
    ((state_after cfg_demo (sys_demo 1 1)
      (trace_repush_running ++ trace_repush_running_rest)).tasks 0).map
      (fun task => (task.is_detached, thread_task_is_running task,
        thread_task_is_finished task)) = some (false, true, true) := by
  decide

/-- C19, amended: when every push is of a task that is neither in the pending list
nor in the hands of a worker, then in every state reached from
`thread_pool_new` on newly created tasks, for every task: it is not detached;
`thread_task_is_running` is true exactly while some worker is between the
store of line 86 and its completion step with this task;
`thread_task_is_finished` is true exactly while the task has been completed
and is neither in the pending list nor in the hands of a worker, that is from
the completion step until lines 198-203 of the next push; and the two are
never true together.  A new task has both flags false, lines 198-203 leave
both false, and the completion step stores the result together with
`is_finished`. -/
theorem task_flags_lifecycle (cfg : Config) (M : Int) (pool_addr : Nat)
    (pool : thread_pool) (specs : List ((Int → Int) × Int)) (evs : List Event) (s : System)
    (t : Nat) (task : thread_task)
    (hnew : thread_pool_new cfg M = .ok pool)
    (hrun : run_guarded cfg push_idle (System.init pool_addr pool (heap_of specs)) evs =
      some s)
    (ht : s.tasks t = some task) :
    task.is_detached = false ∧
    (thread_task_is_running task = true ↔ ∃ w ∈ s.workers, w.pc = .executing t) ∧
    (thread_task_is_finished task = true ↔
      (t ∉ s.queue ∧ (∀ w ∈ s.workers, w.holds t = false) ∧ t ∈ s.calls)) ∧
    ¬ (thread_task_is_running task = true ∧ thread_task_is_finished task = true) ∧
    (∀ f a, thread_task_is_running (thread_task_new f a) = false ∧
      thread_task_is_finished (thread_task_new f a) = false) ∧
    (∃ r, push_enqueue s.pool_addr s.pool s.tasks t = some r ∧
      (r.2 t).map (fun x => (thread_task_is_running x, thread_task_is_finished x)) =
        some (false, false)) ∧
    (∃ r, thread_worker_finish s.pool s.tasks t = some r ∧
      (r.2 t).map (fun x => (thread_task_is_running x, thread_task_is_finished x, x.result)) =
        some (false, true, task.function task.arg)) := by
  obtain ⟨_, qinv, inv⟩ := run_life_inv hnew hrun
  obtain ⟨fa, _, _, _, hdet⟩ := inv.static t task ht
  have hrunning : thread_task_is_running task = true ↔ ∃ w ∈ s.workers, w.pc = .executing t := by
    unfold thread_task_is_running
    rw [inv.running t task ht, List.countP_pos_iff]
    constructor
    · rintro ⟨w, hw, hr⟩
      refine ⟨w, hw, ?_⟩
      unfold Worker.runs at hr
      split at hr
      · rename_i u hu
        simp only [decide_eq_true_eq] at hr
        rw [hu, hr]
      · simp at hr
    · rintro ⟨w, hw, hr⟩
      exact ⟨w, hw, by simp [Worker.runs, hr]⟩
  have hfinished : thread_task_is_finished task = true ↔
      (t ∉ s.queue ∧ (∀ w ∈ s.workers, w.holds t = false) ∧ t ∈ s.calls) := by
    unfold thread_task_is_finished
    rw [inv.finished t task ht, List.count_eq_zero, List.countP_eq_zero]
    simp
  refine ⟨hdet, hrunning, hfinished, ?_, fun _ _ => ⟨rfl, rfl⟩, ?_, ?_⟩
  · rintro ⟨h1, h2⟩
    obtain ⟨w, hw, hpc⟩ := hrunning.mp h1
    have := (hfinished.mp h2).2.1 w hw
    simp [Worker.holds, hpc] at this
  · rw [push_enqueue_eq ht]
    exact ⟨_, rfl, by simp [Heap.set, thread_task_is_running, thread_task_is_finished]⟩
  · unfold thread_worker_finish
    simp only [ht, hdet]
    exact ⟨_, rfl, by simp [Heap.set, thread_task_is_running, thread_task_is_finished]⟩

/-- C19, amended, on a run of three tasks on one worker: task 0 is being executed
and is running, not finished; task 1 was completed and is finished, not
running; task 2 is pending and is neither. -/
theorem task_flags_lifecycle_witness :
    (state_after cfg_demo (sys_demo 1 3) trace_mixed).workers = [⟨0, .executing 0⟩] ∧
    ((state_after cfg_demo (sys_demo 1 3) trace_mixed).tasks 1).map
      (fun x => (thread_task_is_running x, thread_task_is_finished x)) = some (false, true) ∧
    ((state_after cfg_demo (sys_demo 1 3) trace_mixed).tasks 2).map
      (fun x => (thread_task_is_running x, thread_task_is_finished x)) = some (false, false) ∧
    ∃ task, (state_after cfg_demo (sys_demo 1 3) trace_mixed).tasks 0 = some task ∧
      thread_task_is_running task = true ∧ thread_task_is_finished task = false := by
  cases ht : (state_after cfg_demo (sys_demo 1 3) trace_mixed).tasks 0 with
  | none =>
    have : ((state_after cfg_demo (sys_demo 1 3) trace_mixed).tasks 0).isSome = true := by
      decide
    rw [ht] at this
    simp at this
  | some task =>
    have h := task_flags_lifecycle cfg_demo 1 1000 (pool_demo 1) (specs_index 3)
      trace_mixed (state_after cfg_demo (sys_demo 1 3) trace_mixed) 0 task rfl
      (run_guarded_state_after (by decide)) ht
    have hr : thread_task_is_running task = true :=
      h.2.1.mpr ⟨⟨0, .executing 0⟩, by decide, rfl⟩
    refine ⟨by decide, by decide, by decide, task, rfl, hr, ?_⟩
    cases hf : thread_task_is_finished task with
    | false => rfl
    | true => exact (h.2.2.2.1 ⟨hr, hf⟩).elim

/-! ## Two overlapping pushes -/

/-- C17 fails in the code.  On a new pool with `max_thread_count = 1`, thread A calls
`thread_pool_push_task`, creates worker 0 and waits at the spawn barrier
(which releases the pool mutex); thread B calls it before the new worker has
registered, sees `threads != NULL`, `idle_thread_count == 0` and
`thread_count == 0 < 1`, and creates a second worker with the same index 0,
storing its handle over the first one in `threads[0]`.  After both workers
have registered, `thread_count` is 2, above the maximum 1, both workers have
index 0, the handle of the first worker is lost, and both callers wait for
`thread_count == 1`: whatever the threads do from then on, neither call
returns.  If thread A goes on right after the first worker has registered,
it returns, and thread B never does. -/
theorem overlapping_pushes_break_pool :
    (run_overlap cfg_demo (sys_demo 1 2) trace_overlap).isSome = true ∧
    (state_after_overlap cfg_demo (sys_demo 1 2) trace_overlap).pool.max_thread_count = 1 ∧
    (state_after_overlap cfg_demo (sys_demo 1 2) trace_overlap).pool.thread_count = 2 ∧
    (state_after_overlap cfg_demo (sys_demo 1 2) trace_overlap).workers =
      [⟨0, .waiting⟩, ⟨0, .waiting⟩] ∧
    (state_after_overlap cfg_demo (sys_demo 1 2) trace_overlap).pool.threads = some [1] ∧
    (state_after_overlap cfg_demo (sys_demo 1 2) trace_overlap).pushers = [(1, 1), (0, 1)] ∧
    (∀ evs s, run_overlap cfg_demo
        (state_after_overlap cfg_demo (sys_demo 1 2) trace_overlap) evs = some s →
      (0, 1) ∈ s.pushers ∧ (1, 1) ∈ s.pushers ∧ 2 ≤ s.pool.thread_count) ∧
    (run_overlap cfg_demo (sys_demo 1 2) trace_overlap_one_returns).isSome = true ∧
    (state_after_overlap cfg_demo (sys_demo 1 2) trace_overlap_one_returns).pushers =
      [(1, 1)] ∧
    (state_after_overlap cfg_demo (sys_demo 1 2) trace_overlap_one_returns).pool.thread_count =
      2 ∧
    (∀ evs s, run_overlap cfg_demo
        (state_after_overlap cfg_demo (sys_demo 1 2) trace_overlap_one_returns) evs = some s →
      (1, 1) ∈ s.pushers) := by
  refine ⟨by decide, by decide, by decide, by decide, by decide, by decide, ?_, by decide,
    by decide, by decide, ?_⟩
  · intro evs s h
    have h0 := stuck_pusher_run evs _ s h
      (show ((0 : Nat), (1 : Int)) ∈
        (state_after_overlap cfg_demo (sys_demo 1 2) trace_overlap).pushers by decide)
      (by decide)
    have h1 := stuck_pusher_run evs _ s h
      (show ((1 : Nat), (1 : Int)) ∈
        (state_after_overlap cfg_demo (sys_demo 1 2) trace_overlap).pushers by decide)
      (by decide)
    exact ⟨h0.1, h1.1, by have := h0.2; simp only at this; omega⟩
  · intro evs s h
    exact (stuck_pusher_run evs _ s h
      (show ((1 : Nat), (1 : Int)) ∈
        (state_after_overlap cfg_demo (sys_demo 1 2) trace_overlap_one_returns).pushers by
          decide)
      (by decide)).1

/-! ## Worker indices and the shutdown protocol -/

/-- C20: in every state reached from `thread_pool_new` by non-overlapping pushes and
worker steps, the worker with handle `i` has the index `i`, `threads[i]` holds
that handle, and the workers that have registered are exactly those at the
positions `0 .. thread_count - 1`.  When `thread_pool_delete` is then called
with no push under way and passes its test, it starts the shutdown, and in
every state of the shutdown: while the caller joins worker `i` the index told
to exit is `i`, the workers below `i` have exited, the workers above `i` still
wait, a worker that wakes up exits exactly when it is worker `i`; and when
the pool is freed all workers have exited.  The shutdown can always be
brought to its end. -/
theorem shutdown_one_worker_per_signal (cfg : Config) (M : Int) (pool_addr : Nat)
    (pool : thread_pool) (tasks : Heap) (evs : List Event) (s : System)
    (hnew : thread_pool_new cfg M = .ok pool)
    (hrun : run cfg (System.init pool_addr pool tasks) evs = some s) :
    (∀ (i : Nat) (w : Worker), s.workers[i]? = some w →
      w.idx = (i : Int) ∧ (w.pc ≠ .spawned ↔ (i : Int) < s.pool.thread_count) ∧
      ∃ L, s.pool.threads = some L ∧ L[i]? = some i) ∧
    (s.pushers = [] → thread_pool_has_tasks s.pool = false →
      ∃ s0, (thread_pool_delete s).state = some s0 ∧ s0.workers = s.workers ∧
        (∀ evs2 s2, run_shutdown cfg s0 evs2 = some s2 →
          s2.workers.length = s.workers.length ∧ s2.deleter ≠ none ∧
          (∀ i, s2.deleter = some (.joining i) →
            s2.pool.thread_idx_that_should_exit = i ∧
            (∀ (j : Nat) (w : Worker), s2.workers[j]? = some w →
              w.idx = (j : Int) ∧ ((j : Int) < i → w.pc = .exited) ∧
              (i < (j : Int) → w.pc = .waiting) ∧
              ((j : Int) = i → w.pc = .waiting ∨ w.pc = .exited)) ∧
            (∀ w s3, step_shutdown cfg s2 (.wake w) = some s3 →
              s3.workers =
                s2.workers.set w ⟨(w : Int), if (w : Int) = i then .exited else .waiting⟩)) ∧
          (s2.deleter = some .freed → ∀ w ∈ s2.workers, w.pc = .exited)) ∧
        ∃ evs2 s2, run_shutdown cfg s0 evs2 = some s2 ∧ s2.deleter = some .freed) := by
  obtain ⟨cinv, inv⟩ := run_idx_inv hnew hrun
  refine ⟨?_, ?_⟩
  · intro i w hi
    refine ⟨inv.idx i w hi, live_iff_below_count cinv inv i w hi, ?_⟩
    have hlt := (List.getElem?_eq_some_iff.mp hi).1
    cases hth : s.pool.threads with
    | none =>
      have := cinv.threads_none.mp hth
      rw [this] at hlt
      simp at hlt
    | some L =>
      refine ⟨L, rfl, ?_⟩
      rw [inv.threads L hth]
      exact List.getElem?_range hlt
  · intro hq hb
    obtain ⟨s0, h0, sinv, hws⟩ := ShutInv.of_delete cinv inv hq hb
    refine ⟨s0, h0, hws, ?_, ?_⟩
    · intro evs2 s2 hrun2
      have inv2 := ShutInv.run_shut evs2 s0 s2 sinv hrun2
      have ph := inv2.phase
      refine ⟨inv2.length, ?_, ?_, ?_⟩
      · intro hd
        rw [hd] at ph
        exact ph
      · intro i hd
        rw [hd] at ph
        simp only at ph
        obtain ⟨p1, p2, p3, p4⟩ := ph
        refine ⟨p3, fun j w hj => ⟨inv2.idx j w hj, p4 j w hj⟩, ?_⟩
        intro w s3 hst
        have hst1 : step cfg s2 (.wake w) = some s3 := hst
        obtain ⟨idx, _, hw, _, _⟩ := step_wake_inv hst1
        have hidx := inv2.idx w _ hw
        simp only at hidx
        subst hidx
        rw [inv2.wake_result hd hw] at hst1
        simp only [Option.some.injEq] at hst1
        rw [← hst1]
        rfl
      · intro hd w hw
        rw [hd] at ph
        exact ph w hw
    · exact ShutInv.shutdown_completes (s.workers.length + 1) s0 sinv (fun i _ => by omega)

/-- C20, on a quiescent pool of two workers: the indices are the positions, the
deletion starts by telling worker 0 to exit, worker 1 that wakes up first
stays in its wait, and after both signals both workers have exited and the
pool is freed. -/
theorem shutdown_one_worker_per_signal_witness :
    (state_after cfg_demo (sys_demo 2 3) trace_quiescent).workers =
      [⟨0, .waiting⟩, ⟨1, .waiting⟩] ∧
    (state_after cfg_demo (sys_demo 2 3) trace_quiescent).pool.threads = some [0, 1] ∧
    ((thread_pool_delete (state_after cfg_demo (sys_demo 2 3) trace_quiescent)).state.bind
      (fun s0 => run_shutdown cfg_demo s0 (trace_shutdown.take 3))).map
        (fun s => (s.workers, s.deleter)) =
      some ([⟨0, .exited⟩, ⟨1, .waiting⟩], some (.joining 0)) ∧
    ((thread_pool_delete (state_after cfg_demo (sys_demo 2 3) trace_quiescent)).state.bind
      (fun s0 => run_shutdown cfg_demo s0 trace_shutdown)).map
        (fun s => (s.workers, s.deleter)) =
      some ([⟨0, .exited⟩, ⟨1, .exited⟩], some .freed) ∧
    (∀ (i : Nat) (w : Worker),
      (state_after cfg_demo (sys_demo 2 3) trace_quiescent).workers[i]? = some w →
        w.idx = (i : Int)) ∧
    ∃ s0, (thread_pool_delete (state_after cfg_demo (sys_demo 2 3) trace_quiescent)).state =
        some s0 ∧
      ∃ evs2 s2, run_shutdown cfg_demo s0 evs2 = some s2 ∧ s2.deleter = some .freed := by
  have h := shutdown_one_worker_per_signal cfg_demo 2 1000 (pool_demo 2)
    (heap_of (specs_index 3)) trace_quiescent
    (state_after cfg_demo (sys_demo 2 3) trace_quiescent) rfl (run_state_after (by decide))
  obtain ⟨s0, h0, _, _, hend⟩ := h.2 (by decide) (by decide)
  exact ⟨by decide, by decide, by decide, by decide, fun i w hi => (h.1 i w hi).1,
    s0, h0, hend⟩

end ThreadPool

/-!
# Theorems about the file sorter (homework-01/solution.c)
-/

namespace Sorter

/-! ## Exchanging two entries -/

theorem swap_length (a : List Int) (i j : Nat) : (swap a i j).length = a.length := by
  simp [swap]

theorem swap_getD (a : List Int) (i j k : Nat) (hi : i < a.length) (hj : j < a.length) :
    (swap a i j).getD k 0 =
      if k = j then a.getD i 0 else if k = i then a.getD j 0 else a.getD k 0 := by
  unfold swap
  simp only [List.getD_eq_getElem?_getD, List.getElem?_set, List.length_set]
  by_cases h1 : k = j
  · subst h1
    simp [hj]
  · by_cases h2 : k = i
    · subst h2
      have : ¬ j = k := fun h => h1 h.symm
      simp [this, hi, h1]
    · have e1 : ¬ j = k := fun h => h1 h.symm
      have e2 : ¬ i = k := fun h => h2 h.symm
      simp [e1, e2, h1, h2]

theorem swap_perm (a : List Int) (i j : Nat) (hi : i < a.length) (hj : j < a.length) :
    (swap a i j).Perm a := by
  rw [List.perm_iff_count]
  intro v
  unfold swap
  have hi2 : a[i]? = some (a.getD i 0) := by
    rw [List.getD_eq_getElem?_getD, List.getElem?_eq_getElem hi]
    rfl
  have hj2 : (a.set i (a.getD j 0))[j]? = some (if i = j then a.getD j 0 else a.getD j 0) := by
    rw [List.getElem?_set]
    by_cases h : i = j
    · simp [h, hj]
    · rw [if_neg h, List.getD_eq_getElem?_getD, List.getElem?_eq_getElem hj]
      simp
  simp only [ite_self] at hj2
  have c1 := ThreadPool.countP_set_add (fun x => x == v) a i (a.getD j 0) (a.getD i 0) hi2
  have c2 := ThreadPool.countP_set_add (fun x => x == v) (a.set i (a.getD j 0)) j
    (a.getD i 0) (a.getD j 0) hj2
  simp only [List.count]
  omega

/-! ## One pass of the sifting loop -/

theorem int_result_ok {v : Int} (h1 : -2147483648 ≤ v) (h2 : v ≤ 2147483647) :
    int_result v = .ok v := by
  unfold int_result
  rw [if_pos ⟨h1, h2⟩]

theorem array_get_ok (a : List Int) (i : Nat) (h : i < a.length) :
    array_get a (i : Int) = .ok (a.getD i 0) := by
  unfold array_get
  rw [if_pos (by omega), Int.toNat_ofNat, List.getElem?_eq_getElem h,
    List.getD_eq_getElem?_getD, List.getElem?_eq_getElem h]
  rfl

theorem array_set_ok (a : List Int) (i : Nat) (v : Int) (h : i < a.length) :
    array_set a (i : Int) v = .ok (a.set i v) := by
  unfold array_set
  rw [Int.toNat_ofNat, if_pos ⟨by omega, h⟩]

theorem largest_cases (a : List Int) (bound j : Nat) :
    largest a bound j = j ∨
    (largest a bound j = 2 * j + 1 ∧ 2 * j + 1 < bound) ∨
    (largest a bound j = 2 * j + 2 ∧ 2 * j + 2 < bound) := by
  unfold largest
  simp only
  by_cases h1 : 2 * j + 1 < bound ∧ a.getD (2 * j + 1) 0 > a.getD j 0
  · rw [if_pos h1]
    by_cases h2 : 2 * j + 2 < bound ∧ a.getD (2 * j + 2) 0 > a.getD (2 * j + 1) 0
    · rw [if_pos h2]
      exact Or.inr (Or.inr ⟨rfl, h2.1⟩)
    · rw [if_neg h2]
      exact Or.inr (Or.inl ⟨rfl, h1.1⟩)
  · rw [if_neg h1]
    by_cases h2 : 2 * j + 2 < bound ∧ a.getD (2 * j + 2) 0 > a.getD j 0
    · rw [if_pos h2]
      exact Or.inr (Or.inr ⟨rfl, h2.1⟩)
    · rw [if_neg h2]
      exact Or.inl rfl

theorem pick_largest_ok (a : List Int) (bound j : Nat) (hj : j < bound)
    (hb : bound ≤ a.length) (hov : 2 * j + 2 ≤ 2147483647) :
    pick_largest a (bound : Int) (j : Int) = .ok ((largest a bound j : Nat) : Int) := by
  have e1 : int_result (2 * (j : Int) + 1) = .ok ((2 * j + 1 : Nat) : Int) := by
    rw [int_result_ok (by omega) (by omega)]
    push_cast
    rfl
  have e2 : int_result (2 * (j : Int) + 2) = .ok ((2 * j + 2 : Nat) : Int) := by
    rw [int_result_ok (by omega) (by omega)]
    push_cast
    rfl
  have gj := array_get_ok a j (by omega)
  have gl : 2 * j + 1 < bound →
      array_get a ((2 * j + 1 : Nat) : Int) = .ok (a.getD (2 * j + 1) 0) :=
    fun h => array_get_ok a _ (by omega)
  have gr : 2 * j + 2 < bound →
      array_get a ((2 * j + 2 : Nat) : Int) = .ok (a.getD (2 * j + 2) 0) :=
    fun h => array_get_ok a _ (by omega)
  unfold pick_largest largest
  rw [e1, e2]
  simp only [bind, Except.bind, pure, Except.pure, Nat.cast_lt]
  by_cases hl : 2 * j + 1 < bound <;> by_cases hr : 2 * j + 2 < bound <;>
    by_cases c1 : a.getD (2 * j + 1) 0 > a.getD j 0 <;>
    by_cases c2 : a.getD (2 * j + 2) 0 > a.getD (2 * j + 1) 0 <;>
    by_cases c3 : a.getD (2 * j + 2) 0 > a.getD j 0 <;>
    simp only [hl, hr, c1, c2, c3, gj, gl, gr, if_true, if_false, and_self, and_true,
      true_and, and_false, false_and, not_true_eq_false, not_false_eq_true]

theorem exchange_ok (a : List Int) (i j : Nat) (hi : i < a.length) (hj : j < a.length) :
    exchange a (i : Int) (j : Int) = .ok (swap a i j) := by
  unfold exchange swap
  simp only [bind, Except.bind, array_get_ok a i hi, array_get_ok a j hj,
    array_set_ok a i _ hi]
  rw [array_set_ok _ j _ (by rw [List.length_set]; exact hj)]

theorem sift_down_step (fuel : Nat) (a : List Int) (bound j : Nat) (hj : j < bound)
    (hb : bound ≤ a.length) (hov : 2 * j + 2 ≤ 2147483647) :
    sift_down (fuel + 1) a (bound : Int) (j : Int) =
      if largest a bound j = j then .ok a
      else sift_down fuel (swap a j (largest a bound j)) (bound : Int)
        ((largest a bound j : Nat) : Int) := by
  have hg : largest a bound j < a.length := by
    rcases largest_cases a bound j with h | ⟨h, h2⟩ | ⟨h, h2⟩ <;> omega
  rw [sift_down, pick_largest_ok a bound j hj hb hov]
  simp only [bind, Except.bind, pure, Except.pure, Nat.cast_inj]
  by_cases hc : largest a bound j = j
  · rw [if_pos hc, if_pos hc]
  · rw [if_neg hc, if_neg hc, exchange_ok a j _ (by omega) hg]

theorem swap_get_left (a : List Int) (i j : Nat) (hi : i < a.length) (hj : j < a.length)
    (hne : i ≠ j) : (swap a i j).getD i 0 = a.getD j 0 := by
  rw [swap_getD a i j i hi hj, if_neg hne, if_pos rfl]

theorem swap_get_right (a : List Int) (i j : Nat) (hi : i < a.length) (hj : j < a.length) :
    (swap a i j).getD j 0 = a.getD i 0 := by
  rw [swap_getD a i j j hi hj, if_pos rfl]

theorem swap_get_other (a : List Int) (i j k : Nat) (hi : i < a.length) (hj : j < a.length)
    (h1 : k ≠ i) (h2 : k ≠ j) : (swap a i j).getD k 0 = a.getD k 0 := by
  rw [swap_getD a i j k hi hj, if_neg h2, if_neg h1]

theorem largest_ge (a : List Int) (bound j : Nat) :
    a.getD j 0 ≤ a.getD (largest a bound j) 0 ∧
    (2 * j + 1 < bound → a.getD (2 * j + 1) 0 ≤ a.getD (largest a bound j) 0) ∧
    (2 * j + 2 < bound → a.getD (2 * j + 2) 0 ≤ a.getD (largest a bound j) 0) ∧
    (largest a bound j ≠ j → a.getD j 0 < a.getD (largest a bound j) 0) := by
  unfold largest
  simp only
  by_cases h1 : 2 * j + 1 < bound ∧ a.getD (2 * j + 1) 0 > a.getD j 0
  · rw [if_pos h1]
    by_cases h2 : 2 * j + 2 < bound ∧ a.getD (2 * j + 2) 0 > a.getD (2 * j + 1) 0
    · rw [if_pos h2]
      exact ⟨by omega, fun _ => by omega, fun _ => le_refl _, fun _ => by omega⟩
    · rw [if_neg h2]
      refine ⟨by omega, fun _ => le_refl _, fun h => ?_, fun _ => by omega⟩
      by_contra hc
      exact h2 ⟨h, by omega⟩
  · rw [if_neg h1]
    by_cases h2 : 2 * j + 2 < bound ∧ a.getD (2 * j + 2) 0 > a.getD j 0
    · rw [if_pos h2]
      refine ⟨by omega, fun h => ?_, fun _ => le_refl _, fun _ => by omega⟩
      by_contra hc
      exact h1 ⟨h, by omega⟩
    · rw [if_neg h2]
      refine ⟨le_refl _, fun h => ?_, fun h => ?_, fun h => (h rfl).elim⟩
      · by_contra hc
        exact h1 ⟨h, by omega⟩
      · by_contra hc
        exact h2 ⟨h, by omega⟩

theorem almost_heap_after_swap {a : List Int} {lo bound j : Nat} (hj : j < bound)
    (hb : bound ≤ a.length) (hlo : lo ≤ j) (inv : AlmostHeap a lo bound j)
    (hne : largest a bound j ≠ j) :
    AlmostHeap (swap a j (largest a bound j)) lo bound (largest a bound j) := by
  obtain ⟨g1, g2, g3, g4⟩ := largest_ge a bound j
  have hcases := largest_cases a bound j
  generalize largest a bound j = g at *
  have hg : g < bound ∧ (g = 2 * j + 1 ∨ g = 2 * j + 2) := by
    rcases hcases with h | ⟨h, h2⟩ | ⟨h, h2⟩
    · exact (hne h).elim
    · exact ⟨by omega, Or.inl h⟩
    · exact ⟨by omega, Or.inr h⟩
  have hjl : j < a.length := by omega
  have hgl : g < a.length := by omega
  have hjg : j ≠ g := fun h => hne h.symm
  have eL := swap_get_left a j g hjl hgl hjg
  have eR := swap_get_right a j g hjl hgl
  obtain ⟨inv1, inv2⟩ := inv
  constructor
  · intro k hk hkg
    by_cases hkj : k = j
    · subst hkj
      rw [eL]
      constructor
      · intro hc
        by_cases hcg : 2 * k + 1 = g
        · rw [hcg, eR]
          exact g1
        · rw [swap_get_other a k g _ hjl hgl (by omega) hcg]
          exact g2 hc
      · intro hc
        by_cases hcg : 2 * k + 2 = g
        · rw [hcg, eR]
          exact g1
        · rw [swap_get_other a k g _ hjl hgl (by omega) hcg]
          exact g3 hc
    · rw [swap_get_other a j g k hjl hgl hkj hkg]
      have hk1 := inv1 k hk hkj
      constructor
      · intro hc
        by_cases hcj : 2 * k + 1 = j
        · rw [hcj, eL]
          have := inv2 k hk (Or.inl hcj.symm)
          rcases hg.2 with h | h
          · rw [h]
            exact this.1 (by omega)
          · rw [h]
            exact this.2 (by omega)
        · rw [swap_get_other a j g _ hjl hgl hcj (by omega)]
          exact hk1.1 hc
      · intro hc
        by_cases hcj : 2 * k + 2 = j
        · rw [hcj, eL]
          have := inv2 k hk (Or.inr hcj.symm)
          rcases hg.2 with h | h
          · rw [h]
            exact this.1 (by omega)
          · rw [h]
            exact this.2 (by omega)
        · rw [swap_get_other a j g _ hjl hgl hcj (by omega)]
          exact hk1.2 hc
  · intro p hp hchild
    have hpj : p = j := by omega
    subst hpj
    rw [eL]
    have hgk := inv1 g (by omega) (fun h => hjg h.symm)
    constructor
    · intro hc
      rw [swap_get_other a p g _ hjl hgl (by omega) (by omega)]
      exact hgk.1 hc
    · intro hc
      rw [swap_get_other a p g _ hjl hgl (by omega) (by omega)]
      exact hgk.2 hc

/-- The sifting loop comes to an end within `bound - j` passes and repairs the heap:
entered where only `array[j]` may be out of order, it leaves the positions
from `lo` on in order with their children, permutes the entries below
`bound` and leaves the others alone. -/
theorem sift_down_spec (bound lo : Nat) (hbnd : bound ≤ 1073741823) :
    ∀ (fuel : Nat) (a : List Int) (j : Nat), j < bound → bound ≤ a.length → lo ≤ j →
      bound - j ≤ fuel → AlmostHeap a lo bound j →
      ∃ r, sift_down fuel a (bound : Int) (j : Int) = .ok r ∧ r.length = a.length ∧
        r.Perm a ∧ HeapFrom r lo bound ∧ (∀ k, bound ≤ k → r.getD k 0 = a.getD k 0) ∧
        (∀ v, (∀ k, k < bound → a.getD k 0 ≤ v) → ∀ k, k < bound → r.getD k 0 ≤ v) := by
  intro fuel
  induction fuel with
  | zero =>
    intro a j hj _ _ hf _
    omega
  | succ fuel ih =>
    intro a j hj hb hlo hf inv
    rw [sift_down_step fuel a bound j hj hb (by omega)]
    by_cases hc : largest a bound j = j
    · rw [if_pos hc]
      refine ⟨a, rfl, rfl, List.Perm.refl a, ?_, fun _ _ => rfl, fun _ h => h⟩
      intro k hk
      by_cases hkj : k = j
      · subst hkj
        obtain ⟨_, g2, g3, _⟩ := largest_ge a bound k
        rw [hc] at g2 g3
        exact ⟨g2, g3⟩
      · exact inv.1 k hk hkj
    · rw [if_neg hc]
      have hcases := largest_cases a bound j
      have hg : largest a bound j < bound ∧ j < largest a bound j := by
        rcases hcases with h | ⟨h, h2⟩ | ⟨h, h2⟩
        · exact (hc h).elim
        · omega
        · omega
      have hjl : j < a.length := by omega
      have hgl : largest a bound j < a.length := by omega
      obtain ⟨r, h1, h2, h3, h4, h5, h6⟩ := ih (swap a j (largest a bound j))
        (largest a bound j) hg.1 (by rw [swap_length]; exact hb) (by omega) (by omega)
        (almost_heap_after_swap hj hb hlo inv hc)
      refine ⟨r, h1, by rw [h2, swap_length], h3.trans (swap_perm a _ _ hjl hgl), h4, ?_, ?_⟩
      · intro k hk
        rw [h5 k hk, swap_get_other a _ _ k hjl hgl (by omega) (by omega)]
      · intro v hv
        apply h6 v
        intro k hk
        rw [swap_getD a _ _ k hjl hgl]
        split
        · exact hv j hj
        · split
          · exact hv _ hg.1
          · exact hv k hk

/-! ## The two loops of `heap_sort` -/

theorem build_heap_spec (len : Nat) (hlen : len ≤ 1073741823) :
    ∀ (n : Nat) (a : List Int), 2 * n ≤ len → a.length = len → HeapFrom a n len →
      ∃ r, build_heap (len : Int) n a = .ok r ∧ r.length = len ∧ r.Perm a ∧
        HeapFrom r 0 len := by
  intro n
  induction n with
  | zero =>
    intro a _ hl inv
    exact ⟨a, rfl, hl, List.Perm.refl a, inv⟩
  | succ n ih =>
    intro a hn hl inv
    have halmost : AlmostHeap a n len n := by
      constructor
      · intro k hk hkn
        exact inv k (by omega)
      · intro p hp hchild
        omega
    obtain ⟨a1, h1, h2, h3, h4, _, _⟩ := sift_down_spec len n hlen len a n (by omega)
      (by omega) (le_refl _) (by omega) halmost
    obtain ⟨r, k1, k2, k3, k4⟩ := ih a1 (by omega) (by omega) h4
    refine ⟨r, ?_, k2, k3.trans h3, k4⟩
    rw [build_heap]
    simp only [Int.toNat_ofNat, bind, Except.bind, h1]
    exact k1

theorem heap_root_max {a : List Int} {m : Nat} (inv : HeapFrom a 0 m) :
    ∀ k, k < m → a.getD k 0 ≤ a.getD 0 0 := by
  intro k
  induction k using Nat.strong_induction_on with
  | _ k ih =>
    intro hk
    by_cases h0 : k = 0
    · subst h0
      exact le_refl _
    · have hp := ih ((k - 1) / 2) (by omega) (by omega)
      have hc := inv ((k - 1) / 2) (Nat.zero_le _)
      by_cases hodd : k = 2 * ((k - 1) / 2) + 1
      · have := hc.1 (by omega)
        rw [← hodd] at this
        omega
      · have hev : k = 2 * ((k - 1) / 2) + 2 := by omega
        have := hc.2 (by omega)
        rw [← hev] at this
        omega

/-- What holds before each pass of the second loop, with `m` entries still in the
heap: they form a heap, none of them is above an entry behind them, and the
entries behind them are in order. -/
theorem sort_loop_spec (len : Nat) (hlen : len ≤ 1073741823) :
    ∀ (n : Nat) (a : List Int), n + 1 ≤ len → a.length = len → HeapFrom a 0 (n + 1) →
      (∀ k k2, k < n + 1 → n + 1 ≤ k2 → k2 < len → a.getD k 0 ≤ a.getD k2 0) →
      (∀ k1 k2, n + 1 ≤ k1 → k1 ≤ k2 → k2 < len → a.getD k1 0 ≤ a.getD k2 0) →
      ∃ r, sort_loop (len : Int) n a = .ok r ∧ r.length = len ∧ r.Perm a ∧
        ∀ k1 k2, k1 ≤ k2 → k2 < len → r.getD k1 0 ≤ r.getD k2 0 := by
  intro n
  induction n with
  | zero =>
    intro a _ hl _ hlow hsorted
    refine ⟨a, rfl, hl, List.Perm.refl a, ?_⟩
    intro k1 k2 h12 h2
    by_cases h0 : k1 = 0
    · subst h0
      by_cases h20 : k2 = 0
      · subst h20
        exact le_refl _
      · exact hlow 0 k2 (by omega) (by omega) h2
    · exact hsorted k1 k2 (by omega) h12 h2
  | succ n ih =>
    intro a hn hl hheap hlow hsorted
    have h0l : 0 < a.length := by omega
    have hil : n + 1 < a.length := by omega
    have hroot := heap_root_max hheap
    have eL := swap_get_left a 0 (n + 1) h0l hil (by omega)
    have eR := swap_get_right a 0 (n + 1) h0l hil
    have eO : ∀ k, k ≠ 0 → k ≠ n + 1 → (swap a 0 (n + 1)).getD k 0 = a.getD k 0 :=
      fun k h1 h2 => swap_get_other a 0 (n + 1) k h0l hil h1 h2
    have halmost : AlmostHeap (swap a 0 (n + 1)) 0 (n + 1) 0 := by
      constructor
      · intro k _ hk0
        have hc := hheap k (Nat.zero_le _)
        constructor
        · intro h
          rw [eO _ (by omega) (by omega), eO k hk0 (by omega)]
          exact hc.1 (by omega)
        · intro h
          rw [eO _ (by omega) (by omega), eO k hk0 (by omega)]
          exact hc.2 (by omega)
      · intro p _ hchild
        omega
    obtain ⟨a2, h1, h2, h3, h4, h5, h6⟩ := sift_down_spec (n + 1) 0 (by omega) len
      (swap a 0 (n + 1)) 0 (by omega) (by rw [swap_length]; omega) (le_refl _) (by omega)
      halmost
    have hbelow : ∀ v, a.getD (n + 1) 0 ≤ v → (∀ k, k < n + 1 → a.getD k 0 ≤ v) →
        ∀ k, k < n + 1 → a2.getD k 0 ≤ v := by
      intro v hv1 hv2
      apply h6 v
      intro k hk
      by_cases hk0 : k = 0
      · rw [hk0, eL]
        exact hv1
      · rw [eO k hk0 (by omega)]
        exact hv2 k hk
    obtain ⟨r, k1, k2, k3, k4⟩ := ih a2 (by omega) (by rw [h2, swap_length]; exact hl) h4
      (by
        intro k k2 hk hk2 hk2l
        rw [h5 k2 hk2]
        by_cases hkk : k2 = n + 1
        · rw [hkk, eR]
          exact hbelow _ (hroot (n + 1) (by omega)) (fun x hx => hroot x (by omega)) k hk
        · rw [eO k2 (by omega) hkk]
          exact hbelow _ (hlow (n + 1) k2 (by omega) (by omega) hk2l)
            (fun x hx => hlow x k2 (by omega) (by omega) hk2l) k hk)
      (by
        intro k1 k2 hk1 h12 hk2l
        rw [h5 k1 hk1, h5 k2 (by omega)]
        by_cases hk : k1 = n + 1
        · rw [hk, eR]
          by_cases hk2 : k2 = n + 1
          · rw [hk2, eR]
          · rw [eO k2 (by omega) hk2]
            exact hlow 0 k2 (by omega) (by omega) hk2l
        · rw [eO k1 (by omega) hk, eO k2 (by omega) (by omega)]
          exact hsorted k1 k2 (by omega) h12 hk2l)
    refine ⟨r, ?_, k2, (k3.trans h3).trans (swap_perm a 0 (n + 1) h0l hil), k4⟩
    rw [sort_loop]
    have hex := exchange_ok a 0 (n + 1) h0l hil
    simp only [Nat.cast_zero, Nat.cast_add, Nat.cast_one] at hex h1
    simp only [Int.toNat_ofNat, bind, Except.bind, hex, h1]
    exact k1

/-! ## `heap_sort` sorts -/

/-- Below the length at which the index arithmetic leaves `int`, `heap_sort` is
a correct sort: for every array of at most 2^30 - 1 = 1073741823 entries (also
none or one), `heap_sort` called with the number of entries as `size`
returns, and the array is then in non-decreasing order and a permutation of
the array before the call. -/
theorem heap_sort_sorts (array : List Int) (hlen : array.length ≤ 1073741823) :
    ∃ r, heap_sort array (array.length : Int) = .ok r ∧ r.Sorted (fun x y => x ≤ y) ∧
      r.Perm array := by
  have hheap0 : HeapFrom array (array.length / 2) array.length := by
    intro k hk
    constructor <;> intro h <;> omega
  obtain ⟨a1, h1, h2, h3, h4⟩ := build_heap_spec array.length hlen (array.length / 2) array
    (by omega) rfl hheap0
  have e1 : ((array.length : Int) / 2).toNat = array.length / 2 := by omega
  have e2 : ((array.length : Int) - 1).toNat = array.length - 1 := by omega
  unfold heap_sort
  simp only [bind, Except.bind, e1, e2, h1]
  by_cases h0 : array.length = 0
  · have hnil : a1 = [] := List.length_eq_zero.mp (by omega)
    rw [h0, hnil]
    refine ⟨[], rfl, List.sorted_nil, ?_⟩
    rw [← hnil]
    exact h3
  · obtain ⟨n, hn⟩ : ∃ n, array.length = n + 1 := ⟨array.length - 1, by omega⟩
    obtain ⟨r, k1, k2, k3, k4⟩ := sort_loop_spec array.length hlen n a1 (by omega) h2
      (by rw [← hn]; exact h4) (fun k k2 _ hk2 hl => by omega)
      (fun k1 k2 hk1 _ hl => by omega)
    have e3 : array.length - 1 = n := by omega
    rw [e3]
    refine ⟨r, k1, ?_, k3.trans h3⟩
    unfold List.Sorted
    rw [List.pairwise_iff_getElem]
    intro i j hi hj hij
    have := k4 i j (by omega) (by omega)
    rw [List.getD_eq_getElem r 0 hi, List.getD_eq_getElem r 0 hj] at this
    exact this

/-- On an array of ten entries with a repeated value and negative values the
call returns the entries in order. -/
theorem heap_sort_sorts_witness :
    heap_sort [5, 3, 8, 1, 9, 2, 7, 7, -4, 0] 10 = .ok [-4, 0, 1, 2, 3, 5, 7, 7, 8, 9] ∧
    ∃ r, heap_sort [5, 3, 8, 1, 9, 2, 7, 7, -4, 0] 10 = .ok r ∧
      r.Sorted (fun x y => x ≤ y) ∧ r.Perm [5, 3, 8, 1, 9, 2, 7, 7, -4, 0] :=
  ⟨rfl, heap_sort_sorts [5, 3, 8, 1, 9, 2, 7, 7, -4, 0] (by decide)⟩

/-! ## An array too long for the index arithmetic -/

theorem descending_length (n : Nat) : (descending n).length = n := by
  simp [descending]

theorem descending_getD (n k : Nat) (h : k < n) : (descending n).getD k 0 = -(k : Int) := by
  unfold descending
  rw [List.getD_eq_getElem?_getD, List.getElem?_map, List.getElem?_range h]
  rfl

theorem largest_eq_self (a : List Int) (bound j : Nat)
    (h1 : 2 * j + 1 < bound → a.getD (2 * j + 1) 0 ≤ a.getD j 0)
    (h2 : 2 * j + 2 < bound → a.getD (2 * j + 2) 0 ≤ a.getD j 0) :
    largest a bound j = j := by
  have e1 : (if 2 * j + 1 < bound ∧ a.getD (2 * j + 1) 0 > a.getD j 0 then 2 * j + 1 else j) = j :=
    if_neg (fun h => by have := h1 h.1; omega)
  unfold largest
  simp only
  rw [e1, if_neg (fun h => by have := h2 h.1; omega)]

theorem largest_eq_left (a : List Int) (bound j : Nat) (h0 : 2 * j + 1 < bound)
    (h1 : a.getD (2 * j + 1) 0 > a.getD j 0)
    (h2 : 2 * j + 2 < bound → a.getD (2 * j + 2) 0 ≤ a.getD (2 * j + 1) 0) :
    largest a bound j = 2 * j + 1 := by
  have e1 : (if 2 * j + 1 < bound ∧ a.getD (2 * j + 1) 0 > a.getD j 0 then 2 * j + 1 else j)
      = 2 * j + 1 := if_pos ⟨h0, h1⟩
  unfold largest
  simp only
  rw [e1, if_neg (fun h => by have := h2 h.1; omega)]

theorem build_heap_noop (len : Nat) (hlen : len ≤ 2147483647) (a : List Int)
    (hl : a.length = len) (inv : HeapFrom a 0 len) :
    ∀ n, 2 * n ≤ len → build_heap (len : Int) n a = .ok a := by
  intro n
  induction n with
  | zero =>
    intro _
    rfl
  | succ n ih =>
    intro hn
    obtain ⟨f, hf⟩ : ∃ f, len = f + 1 := ⟨len - 1, by omega⟩
    have hstep := sift_down_step f a len n (by omega) (by omega) (by omega)
    have hc := inv n (Nat.zero_le _)
    rw [largest_eq_self a len n hc.1 hc.2, if_pos rfl] at hstep
    rw [build_heap]
    simp only [Int.toNat_ofNat, bind, Except.bind]
    rw [hf] at hstep ⊢
    rw [hstep]
    simp only
    rw [← hf]
    exact ih (by omega)

theorem pick_largest_overflow (a : List Int) (bound : Int) (j : Nat)
    (h : 2147483647 < 2 * j + 2) : pick_largest a bound (j : Int) = .error .overflow := by
  have e2 : int_result (2 * (j : Int) + 2) = .error .overflow := by
    unfold int_result
    rw [if_neg (by simp only [INT_MAX]; omega)]
  unfold pick_largest
  rw [e2]
  cases h1 : int_result (2 * (j : Int) + 1) with
  | error e =>
    unfold int_result at h1
    split at h1
    · simp at h1
    · simp only [Except.error.injEq] at h1
      rw [← h1]
      rfl
  | ok v => rfl

/-- On an array that holds `-k` at every position `k` behind `j`, up to the bound
2^30, and the least value at `j`, the sifting loop follows the left children
from `j` until the index 2^30 - 1, where the index of the right child is no
longer an `int`. -/
theorem sift_down_overflows : ∀ (d j : Nat) (x : List Int) (fuel : Nat),
    (j + 1) * 2 ^ d = 1073741824 → d + 1 ≤ fuel → 1073741824 ≤ x.length →
    x.getD j 0 = -1073741824 → (∀ k, j < k → k < 1073741824 → x.getD k 0 = -(k : Int)) →
    sift_down fuel x 1073741824 (j : Int) = .error .overflow := by
  intro d
  induction d with
  | zero =>
    intro j x fuel hj hf _ _ _
    obtain ⟨f, hf2⟩ : ∃ f, fuel = f + 1 := ⟨fuel - 1, by omega⟩
    rw [hf2, sift_down, pick_largest_overflow x _ j (by omega)]
    rfl
  | succ d ih =>
    intro j x fuel hj hf hl hxj hx
    obtain ⟨f, hf2⟩ : ∃ f, fuel = f + 1 := ⟨fuel - 1, by omega⟩
    have hpos : 1 ≤ 2 ^ d := Nat.one_le_two_pow
    have hj2 : (2 * j + 1 + 1) * 2 ^ d = 1073741824 := by
      rw [← hj, pow_succ]
      ring
    have hb : 2 * j + 2 ≤ 1073741824 := by
      have : (2 * j + 2) * 1 ≤ (2 * j + 1 + 1) * 2 ^ d := Nat.mul_le_mul (by omega) hpos
      omega
    have hstep := sift_down_step f x 1073741824 j (by omega) hl (by omega)
    have hleft := hx (2 * j + 1) (by omega) (by omega)
    have hlg : largest x 1073741824 j = 2 * j + 1 := by
      apply largest_eq_left x 1073741824 j (by omega)
      · rw [hleft, hxj]
        omega
      · intro h
        rw [hleft, hx (2 * j + 2) (by omega) h]
        omega
    rw [hlg, if_neg (by omega)] at hstep
    simp only [Nat.cast_ofNat] at hstep
    rw [hf2, hstep]
    have hjl : j < x.length := by omega
    have hgl : 2 * j + 1 < x.length := by omega
    exact ih (2 * j + 1) (swap x j (2 * j + 1)) f hj2 (by omega)
      (by rw [swap_length]; exact hl)
      (by rw [swap_get_right x j (2 * j + 1) hjl hgl]; exact hxj)
      (fun k hk1 hk2 => by
        rw [swap_get_other x j (2 * j + 1) k hjl hgl (by omega) (by omega)]
        exact hx k (by omega) hk2)

theorem sort_loop_overflows (size : Int) (n : Nat) (a : List Int) (hl : n + 1 < a.length)
    (h : sift_down size.toNat (swap a 0 (n + 1)) ((n : Int) + 1) 0 = .error .overflow) :
    sort_loop size (n + 1) a = .error .overflow := by
  have e := exchange_ok a 0 (n + 1) (by omega) hl
  simp only [Nat.cast_zero, Nat.cast_add, Nat.cast_one] at e
  rw [sort_loop]
  simp only [bind, Except.bind, e, h]

theorem int_half_to_nat : ((1073741825 : Int) / 2).toNat = 536870912 := by
  simp

theorem int_pred_to_nat : ((1073741825 : Int) - 1).toNat = 1073741823 + 1 := by
  simp

theorem int_size_to_nat : (1073741825 : Int).toNat = 1073741825 := by
  simp

theorem heap_from_of_descending (a : List Int)
    (hv : ∀ k, k < 1073741825 → a.getD k 0 = -(k : Int)) : HeapFrom a 0 1073741825 := by
  intro k _
  constructor
  · intro h
    rw [hv _ h, hv k (by omega)]
    omega
  · intro h
    rw [hv _ h, hv k (by omega)]
    omega

theorem build_heap_descending (a : List Int) (hl : a.length = 1073741825)
    (hv : ∀ k, k < 1073741825 → a.getD k 0 = -(k : Int)) :
    build_heap 1073741825 536870912 a = .ok a := by
  have hb := build_heap_noop 1073741825 (by omega) a hl (heap_from_of_descending a hv)
    536870912 (by omega)
  rw [Nat.cast_ofNat] at hb
  exact hb

theorem sift_down_descending (a : List Int) (hl : a.length = 1073741825)
    (hv : ∀ k, k < 1073741825 → a.getD k 0 = -(k : Int)) :
    sift_down 1073741825 (swap a 0 (1073741823 + 1)) 1073741824 0 = .error .overflow := by
  have hjl : 0 < a.length := by omega
  have hgl : 1073741823 + 1 < a.length := by omega
  have hs := sift_down_overflows 30 0 (swap a 0 (1073741823 + 1)) 1073741825 (by norm_num)
    (by omega) (by rw [swap_length]; omega)
    (by rw [swap_get_left a 0 (1073741823 + 1) hjl hgl (by omega), hv _ (by omega)]; norm_num)
    (fun k hk1 hk2 => by
      rw [swap_get_other a 0 (1073741823 + 1) k hjl hgl (by omega) (by omega)]
      exact hv k (by omega))
  rw [Nat.cast_zero] at hs
  exact hs

theorem heap_sort_eq (a a1 : List Int) (size : Int) (n m : Nat) (r : Except Err (List Int))
    (h1 : (size / 2).toNat = n) (h2 : (size - 1).toNat = m)
    (hb : build_heap size n a = .ok a1) (hs : sort_loop size m a1 = r) :
    heap_sort a size = r := by
  unfold heap_sort
  rw [h1, h2, hb, ← hs]
  rfl

theorem sort_loop_descending (a : List Int) (hl : a.length = 1073741825)
    (hv : ∀ k, k < 1073741825 → a.getD k 0 = -(k : Int)) :
    sort_loop 1073741825 (1073741823 + 1) a = .error .overflow := by
  have c1 : ((1073741823 : Nat) : Int) + 1 = 1073741824 := by norm_num
  apply sort_loop_overflows 1073741825 1073741823 a (by omega)
  rw [int_size_to_nat, c1]
  exact sift_down_descending a hl hv

theorem heap_sort_overflows_of (a : List Int) (hl : a.length = 1073741825)
    (hv : ∀ k, k < 1073741825 → a.getD k 0 = -(k : Int)) :
    heap_sort a 1073741825 = .error .overflow :=
  heap_sort_eq a a 1073741825 536870912 (1073741823 + 1) _ int_half_to_nat int_pred_to_nat
    (build_heap_descending a hl hv) (sort_loop_descending a hl hv)

/-- C21 fails in the code: `left` and `right` are computed as `int` before they
are compared with the bound (lines 69-70 and 98-99), so `2 * j + 2` overflows
once `j` reaches 2^30 - 1. The array of 2^30 + 1 entries that holds `-k` at
position `k` is an array of `int` values whose length is an `int`, and on it
`heap_sort` does not return a sorted array: the first loop changes nothing, the
second one moves the least value to position 0 and sifts it down along the left
children to position 2^30 - 1, where line 99 computes `2 * j + 2` = 2^31, which
is not an `int`. -/
theorem heap_sort_index_overflow :
    (descending 1073741825).length = 1073741825 ∧
    (1073741825 : Int) ≤ INT_MAX ∧
    (∀ v ∈ descending 1073741825, INT_MIN ≤ v ∧ v ≤ INT_MAX) ∧
    heap_sort (descending 1073741825) 1073741825 = .error .overflow := by
  refine ⟨descending_length _, by decide, ?_,
    heap_sort_overflows_of _ (descending_length _) (fun k hk => descending_getD _ k hk)⟩
  intro v hv
  unfold descending at hv
  rw [List.mem_map] at hv
  obtain ⟨k, hk, e⟩ := hv
  rw [List.mem_range] at hk
  simp only [INT_MIN, INT_MAX]
  omega

/-! ## The merge loop -/

theorem merge_scan_step_at_max (arrays : List (List Int)) (current_indices : List Nat)
    (hmax : ∀ (i : Nat) (a : List Int) (k : Nat) (v : Int), arrays[i]? = some a →
      current_indices[i]? = some k → a[k]? = some v → INT_MAX ≤ v) (i : Nat) :
    merge_scan_step arrays current_indices (INT_MAX, -1) i = (INT_MAX, -1) := by
  unfold merge_scan_step
  split
  · rename_i a k ha hk
    split
    · rename_i value hv
      have := hmax i a k value ha hk hv
      rw [if_neg (by simp only; omega)]
    · rfl
  · rfl

theorem merge_scan_at_max (arrays : List (List Int)) (current_indices : List Nat)
    (hmax : ∀ (i : Nat) (a : List Int) (k : Nat) (v : Int), arrays[i]? = some a →
      current_indices[i]? = some k → a[k]? = some v → INT_MAX ≤ v) :
    merge_scan arrays current_indices = (INT_MAX, -1) := by
  unfold merge_scan
  induction List.range arrays.length with
  | nil => rfl
  | cons i is ih =>
    rw [List.foldl_cons, merge_scan_step_at_max arrays current_indices hmax i]
    exact ih

/-- C22 fails in the code: the scan starts from `min_value = INT_MAX` and takes a
value only when it is smaller (`value < min_value`), so a current value equal
to `INT_MAX` is never chosen, `min_value_idx` stays -1 and the loop ends.
The one array `{INT_MAX}` is written as nothing at all; of the arrays
`{1, INT_MAX}` and `{2, 3}` only 1, 2, 3 are written, three values for four
elements; and whenever all the values still to be written are `INT_MAX`,
none of them is written. -/
theorem merge_drops_int_max :
    merge [[2147483647]] = .ok [] ∧
    merge [[1, 2147483647], [2, 3]] = .ok [1, 2, 3] ∧
    merge [[1, 4, 9], [2, 3, 10], [], [0]] = .ok [0, 1, 2, 3, 4, 9, 10] ∧
    (∀ arrays : List (List Int), (∀ a ∈ arrays, ∀ v ∈ a, v = INT_MAX) →
      merge arrays = .ok []) := by
  refine ⟨rfl, rfl, rfl, ?_⟩
  intro arrays hall
  unfold merge merge_loop
  have hscan := merge_scan_at_max arrays (List.replicate arrays.length 0) (by
    intro i a k v ha _ hv
    have h1 := hall a (List.mem_iff_getElem?.mpr ⟨i, ha⟩) v (List.mem_iff_getElem?.mpr ⟨k, hv⟩)
    rw [h1])
  simp only [hscan, if_true]

end Sorter

/-!
# Theorems about the user-space file system (homework-03/userfs.c)
-/

namespace UserFs

/-! ## The blocks of a file under appending writes -/

theorem walk_write_eq (len : Nat) : ∀ (n k : Nat), k + n ≤ len →
    walk_write len n k = some (k + n) := by
  intro n
  induction n with
  | zero =>
    intro k _
    rfl
  | succ n ih =>
    intro k h1
    unfold walk_write
    rw [if_pos (by omega), ih (k + 1) (by omega)]
    congr 1
    omega

theorem Laid.occ {blocks : List block} {c : List Nat} {len : Nat} (inv : Laid blocks c len)
    {i : Nat} {b : block} (hi : blocks[i]? = some b) :
    b.occupied = ((min 512 (c.length - 512 * i) : Nat) : Int) :=
  inv.occupied i b hi

theorem Laid.mem {blocks : List block} {c : List Nat} {len : Nat} (inv : Laid blocks c len)
    {i : Nat} {b : block} (hi : blocks[i]? = some b) (j : Nat) (hj : j < 512)
    (hlt : 512 * i + j < c.length) : b.memory j = c.getD (512 * i + j) 0 :=
  inv.memory i b j hi hj hlt

theorem Laid.of_facts {blocks : List block} {c : List Nat} {len : Nat}
    (h1 : blocks.length = len)
    (h2 : ∀ (i : Nat) (b : block), blocks[i]? = some b →
      b.occupied = ((min 512 (c.length - 512 * i) : Nat) : Int))
    (h3 : ∀ (i : Nat) (b : block) (j : Nat), blocks[i]? = some b → j < 512 →
      512 * i + j < c.length → b.memory j = c.getD (512 * i + j) 0) :
    Laid blocks c len :=
  ⟨h1, h2, h3⟩

theorem write_block_open (cfg : Config) {blocks : List block} {c : List Nat} {k : Nat}
    (inv : Laid blocks c ((c.length + 511) / 512))
    (hk : (c.length % 512 ≠ 0 ∧ k = c.length / 512) ∨
      (c.length % 512 = 0 ∧ c.length / 512 ≤ k + 1)) :
    (write_block cfg blocks k).2 = c.length / 512 ∧
    Laid (write_block cfg blocks k).1 c (c.length / 512 + 1) := by
  have hlen := inv.length
  unfold write_block
  rcases hk with ⟨hr, hkq⟩ | ⟨hr, hkq⟩
  · subst hkq
    have hlt : c.length / 512 < blocks.length := by omega
    have hb : blocks[c.length / 512]? = some (blocks.get ⟨c.length / 512, hlt⟩) :=
      List.getElem?_eq_getElem hlt
    have hocc := inv.occ hb
    rw [hb]
    simp only
    rw [if_neg (by simp only [BLOCK_SIZE]; omega)]
    refine ⟨rfl, Laid.of_facts ?_ (fun i b hi => inv.occ hi)
      (fun i b j hi hj hl => inv.mem hi j hj hl)⟩
    show blocks.length = c.length / 512 + 1
    omega
  · have happ : (match blocks[k]? with
        | none => (blocks ++ [{ memory := cfg.malloc_bytes, occupied := 0 }], blocks.length)
        | some b =>
          if b.occupied = BLOCK_SIZE then
            (blocks ++ [{ memory := cfg.malloc_bytes, occupied := 0 }], blocks.length)
          else (blocks, k)) =
        (blocks ++ [{ memory := cfg.malloc_bytes, occupied := 0 }], blocks.length) := by
      cases hb : blocks[k]? with
      | none => rfl
      | some b =>
        have hlt := (List.getElem?_eq_some_iff.mp hb).1
        have hocc := inv.occ hb
        simp only
        rw [if_pos (by simp only [BLOCK_SIZE]; omega)]
    rw [happ]
    refine ⟨by simp only; omega, Laid.of_facts
      (by simp only [List.length_append, List.length_singleton]; omega) ?_ ?_⟩
    · intro i b hi
      simp only at hi
      by_cases hlt : i < blocks.length
      · rw [List.getElem?_append_left hlt] at hi
        exact inv.occ hi
      · rw [List.getElem?_append_right (by omega)] at hi
        have hi0 : i - blocks.length = 0 := by
          by_contra hne
          obtain ⟨m, hm⟩ := Nat.exists_eq_succ_of_ne_zero hne
          rw [hm] at hi
          simp at hi
        rw [hi0] at hi
        simp only [List.getElem?_cons_zero, Option.some.injEq] at hi
        subst hi
        simp only
        omega
    · intro i b j hi hj hlt2
      simp only at hi
      by_cases hlt : i < blocks.length
      · rw [List.getElem?_append_left hlt] at hi
        exact inv.mem hi j hj hlt2
      · omega

theorem write_bytes_laid {blocks : List block} {c src : List Nat}
    (inv : Laid blocks c (c.length / 512 + 1))
    (h1 : 1 ≤ src.length) (h2 : src.length ≤ 512 - c.length % 512) :
    Laid (write_bytes blocks (c.length / 512) (c.length % 512) src) (c ++ src)
      (((c ++ src).length + 511) / 512) := by
  have hlen := inv.length
  have hlt : c.length / 512 < blocks.length := by omega
  have hb : blocks[c.length / 512]? = some (blocks.get ⟨c.length / 512, hlt⟩) :=
    List.getElem?_eq_getElem hlt
  have hocc := inv.occ hb
  unfold write_bytes
  rw [hb]
  simp only
  refine Laid.of_facts (by simp only [List.length_set, List.length_append]; omega) ?_ ?_
  · intro i b hi
    simp only [List.length_append]
    by_cases hqi : c.length / 512 = i
    · rw [← hqi, List.getElem?_set_self (by omega)] at hi
      simp only [Option.some.injEq] at hi
      subst hi
      simp only
      rw [← hqi, if_pos (by omega)]
      omega
    · rw [List.getElem?_set_ne hqi] at hi
      have hlti := (List.getElem?_eq_some_iff.mp hi).1
      have := inv.occ hi
      omega
  · intro i b j hi hj hlt2
    simp only [List.length_append] at hlt2
    by_cases hqi : c.length / 512 = i
    · rw [← hqi, List.getElem?_set_self (by omega)] at hi
      simp only [Option.some.injEq] at hi
      subst hi
      simp only [memcpy]
      by_cases hin : c.length % 512 ≤ j ∧ j < c.length % 512 + src.length
      · rw [if_pos hin, List.getD_append_right _ _ _ _ (by omega)]
        congr 1
        omega
      · rw [if_neg hin, List.getD_append _ _ _ _ (by omega)]
        have := inv.mem hb j hj (by omega)
        rw [← hqi]
        exact this
    · rw [List.getElem?_set_ne hqi] at hi
      have hlti := (List.getElem?_eq_some_iff.mp hi).1
      have hlt3 : 512 * i + j < c.length := by omega
      rw [List.getD_append _ _ _ _ hlt3]
      exact inv.mem hi j hj hlt3

theorem write_loop_laid (cfg : Config) : ∀ (fuel : Nat) (buf : List Nat) (blocks : List block)
    (c : List Nat) (k : Nat), buf.length ≤ fuel → Laid blocks c ((c.length + 511) / 512) →
    ((c.length % 512 ≠ 0 ∧ k = c.length / 512) ∨
      (c.length % 512 = 0 ∧ c.length / 512 ≤ k + 1)) →
    ∃ blocks1, write_loop cfg fuel blocks k c.length buf =
        some (blocks1, c.length + buf.length) ∧
      Laid blocks1 (c ++ buf) (((c ++ buf).length + 511) / 512) := by
  intro fuel
  induction fuel with
  | zero =>
    intro buf blocks c k hf inv _
    have hb : buf = [] := List.length_eq_zero.mp (by omega)
    subst hb
    exact ⟨blocks, by simp [write_loop], by simpa using inv⟩
  | succ fuel ih =>
    intro buf blocks c k hf inv hk
    by_cases hb : buf = []
    · subst hb
      exact ⟨blocks, by simp [write_loop], by simpa using inv⟩
    · have hpos : 1 ≤ buf.length := List.length_pos.mpr hb
      obtain ⟨hk2, hopen⟩ := write_block_open cfg inv hk
      unfold write_loop
      rw [if_neg hb]
      simp only [BLOCK_SIZE, hk2]
      generalize hn : (if buf.length > 512 - c.length % 512 then 512 - c.length % 512
        else buf.length) = n
      have hn1 : 1 ≤ n := by
        rw [← hn]
        split <;> omega
      have hn2 : n ≤ 512 - c.length % 512 := by
        rw [← hn]
        split <;> omega
      have hn3 : n ≤ buf.length := by
        rw [← hn]
        split <;> omega
      have htl : (buf.take n).length = n := by
        rw [List.length_take]
        omega
      have inv2 := write_bytes_laid hopen (by omega : 1 ≤ (buf.take n).length)
        (by omega : (buf.take n).length ≤ 512 - c.length % 512)
      have e : c.length + n = (c ++ buf.take n).length := by
        rw [List.length_append, htl]
      rw [e]
      obtain ⟨blocks1, h1, h2⟩ := ih (buf.drop n) _ (c ++ buf.take n) (c.length / 512)
        (by rw [List.length_drop]; omega) inv2 (by
          rw [← e]
          by_cases hfull : c.length % 512 + n = 512
          · right
            omega
          · left
            omega)
      refine ⟨blocks1, ?_, ?_⟩
      · rw [h1, List.length_drop, ← e]
        congr 2
        omega
      · rw [List.append_assoc, List.take_append_drop] at h2
        exact h2

/-! ## Reading what was written -/

theorem to_ssize_eq {m : Nat} (hm : m < 2 ^ 63) : to_ssize m = (m : Int) := by
  unfold to_ssize
  have h1 : m % 2 ^ 64 = m := Nat.mod_eq_of_lt (by omega)
  rw [h1, if_pos hm]

theorem block_offset_eq {o : Nat} (ho : o ≤ MAX_FILE_SIZE) :
    Int.tmod (to_int o) BLOCK_SIZE = ((o % 512 : Nat) : Int) := by
  unfold to_int
  simp only [MAX_FILE_SIZE] at ho
  have h1 : o % 2 ^ 32 = o := Nat.mod_eq_of_lt (by omega)
  rw [h1, if_pos (by omega)]
  exact (Int.ofNat_tmod o 512).symm

theorem drop_cons_facts {α : Type} {l : List α} {q : Nat} {b : α} {rest : List α}
    (h : b :: rest = l.drop q) : l[q]? = some b ∧ rest = l.drop (q + 1) := by
  constructor
  · have := List.getElem?_drop l q 0
    rw [← h] at this
    simpa using this.symm
  · have := List.drop_drop 1 q l
    rw [← h] at this
    simpa using this

theorem block_bytes {blocks : List block} {c : List Nat} {len : Nat} (inv : Laid blocks c len)
    {q : Nat} {b : block} (hb : blocks[q]? = some b) (r t : Nat) (h1 : r + t ≤ 512)
    (h2 : 512 * q + r + t ≤ c.length) :
    (List.range t).map (fun i => b.memory (r + i)) = (c.drop (512 * q + r)).take t := by
  apply List.ext_getElem?
  intro i
  by_cases hi : i < t
  · rw [List.getElem?_map, List.getElem?_range hi, List.getElem?_take, if_pos hi,
      List.getElem?_drop]
    simp only [Option.map_some']
    have e : 512 * q + (r + i) = 512 * q + r + i := by omega
    rw [inv.mem hb (r + i) (by omega) (by omega), List.getD_eq_getElem?_getD, e,
      List.getElem?_eq_getElem (by omega : 512 * q + r + i < c.length)]
    rfl
  · rw [List.getElem?_eq_none (by simp; omega), List.getElem?_eq_none (by
      rw [List.length_take, List.length_drop]
      omega)]

theorem read_loop_laid {blocks : List block} {c : List Nat} (m : Nat) (hm : m < 2 ^ 63)
    (inv : Laid blocks c ((c.length + 511) / 512)) (hmax : c.length ≤ MAX_FILE_SIZE) :
    ∀ (bs : List block) (o rc : Nat) (out : List Nat), rc ≤ m → o ≤ c.length →
      (rc = m ∨ (o = c.length ∧ bs = []) ∨ (o < c.length ∧ bs = blocks.drop (o / 512))) →
      read_loop m bs o (rc : Int) out =
        some (((rc + min (m - rc) (c.length - o) : Nat) : Int),
              out ++ (c.drop o).take (min (m - rc) (c.length - o)),
              o + min (m - rc) (c.length - o)) := by
  have hlen := inv.length
  intro bs
  induction bs with
  | nil =>
    intro o rc out hrc ho H
    have h0 : min (m - rc) (c.length - o) = 0 := by
      rcases H with h | ⟨h, _⟩ | ⟨h, hd⟩
      · omega
      · omega
      · have := List.drop_eq_nil_iff.mp hd.symm
        omega
    rw [h0]
    simp [read_loop]
  | cons b rest ih =>
    intro o rc out hrc ho H
    unfold read_loop
    rw [to_ssize_eq hm]
    by_cases hlt : rc < m
    · rw [if_pos (by omega)]
      have hH : o < c.length ∧ b :: rest = blocks.drop (o / 512) := by
        rcases H with h | ⟨_, h⟩ | h
        · omega
        · simp at h
        · exact h
      obtain ⟨hb, hrest⟩ := drop_cons_facts hH.2
      have hocc := inv.occ hb
      rw [block_offset_eq (by omega)]
      simp only
      rw [if_neg (by omega), if_neg (by omega)]
      have e1 : (b.occupied - ((o % 512 : Nat) : Int)).toNat =
          min 512 (c.length - 512 * (o / 512)) - o % 512 := by omega
      have e2 : ((rc : Int)).toNat = rc := Int.toNat_ofNat rc
      have e3 : (((o % 512 : Nat) : Int)).toNat = o % 512 := Int.toNat_ofNat _
      rw [e1, e2, e3]
      generalize ht : (if min 512 (c.length - 512 * (o / 512)) - o % 512 > m - rc then m - rc
        else min 512 (c.length - 512 * (o / 512)) - o % 512) = t
      have ht1 : t ≤ m - rc := by
        rw [← ht]
        split <;> omega
      have ht2 : t ≤ min 512 (c.length - 512 * (o / 512)) - o % 512 := by
        rw [← ht]
        split <;> omega
      have ht3 : t = m - rc ∨ t = min 512 (c.length - 512 * (o / 512)) - o % 512 := by
        rw [← ht]
        split
        · exact Or.inl rfl
        · exact Or.inr rfl
      have hbytes := block_bytes inv hb (o % 512) t (by omega) (by omega)
      have eo : 512 * (o / 512) + o % 512 = o := by omega
      rw [eo] at hbytes
      rw [hbytes]
      have hcast : (rc : Int) + (t : Int) = ((rc + t : Nat) : Int) := by push_cast; rfl
      have hrc2 : rc + t ≤ m := by omega
      have ho2 : o + t ≤ c.length := by omega
      have hH2 : rc + t = m ∨ (o + t = c.length ∧ rest = []) ∨
          (o + t < c.length ∧ rest = blocks.drop ((o + t) / 512)) := by
        rcases ht3 with h | h
        · left
          omega
        · by_cases hend : o + t = c.length
          · right
            left
            refine ⟨hend, ?_⟩
            rw [hrest]
            exact List.drop_eq_nil_of_le (by omega)
          · right
            right
            have hq : (o + t) / 512 = o / 512 + 1 := by omega
            refine ⟨by omega, ?_⟩
            rw [hrest, hq]
      have emin : min (m - rc) (c.length - o) =
          t + min (m - (rc + t)) (c.length - (o + t)) := by omega
      have hih := ih (o + t) (rc + t) (out ++ List.take t (List.drop o c)) hrc2 ho2 hH2
      rw [hcast, hih, emin, List.take_add, List.drop_drop]
      simp only [List.append_assoc, Nat.add_assoc]
    · have h0 : min (m - rc) (c.length - o) = 0 := by omega
      rw [if_neg (by omega), h0]
      simp

/-! ## Descriptors -/

theorem lookup_inv {st : State} {fd : Int} {d : filedesc}
    (h : lookup st fd = some (some d)) :
    0 ≤ fd - 1 ∧ fd - 1 < st.file_descriptor_capacity ∧
    st.file_descriptors[(fd - 1).toNat]? = some (.desc d) := by
  unfold lookup at h
  split at h
  · simp at h
  · rename_i hc
    refine ⟨by omega, by omega, ?_⟩
    split at h
    · simp at h
    · simp at h
    · simp at h
    · rename_i d1 hs
      simp only [Option.some.injEq] at h
      rw [hs, h]

theorem lookup_of_slot {st : State} {fd : Int} {d : filedesc}
    (h1 : 0 ≤ fd - 1) (h2 : fd - 1 < st.file_descriptor_capacity)
    (h3 : st.file_descriptors[(fd - 1).toNat]? = some (.desc d)) :
    lookup st fd = some (some d) := by
  unfold lookup
  rw [if_neg (by omega), h3]

theorem lookup_after_set {st : State} {fd : Int} {d : filedesc}
    (h : lookup st fd = some (some d)) (st1 : State) (d1 : filedesc)
    (k1 : st1.file_descriptor_capacity = st.file_descriptor_capacity)
    (k2 : st1.file_descriptors = st.file_descriptors.set (fd - 1).toNat (.desc d1)) :
    lookup st1 fd = some (some d1) := by
  obtain ⟨h1, h2, h3⟩ := lookup_inv h
  have hidx : (fd - 1).toNat < st.file_descriptors.length :=
    (List.getElem?_eq_some_iff.mp h3).1
  apply lookup_of_slot h1 (by rw [k1]; exact h2)
  rw [k2, List.getElem?_set_self hidx]

theorem walk_read_eq : ∀ (n : Nat) (bs : List block), n ≤ bs.length →
    walk_read n bs = some (bs.drop n) := by
  intro n
  induction n with
  | zero =>
    intro bs _
    rfl
  | succ n ih =>
    intro bs h
    cases bs with
    | nil => simp at h
    | cons b rest =>
      unfold walk_read
      rw [ih rest (by simpa using h)]
      rfl

/-- A write at the end of the file appends the bytes: the call returns their number,
the descriptor moves to the new end, and the file holds the old bytes
followed by the new ones. -/
theorem ufs_write_appends (cfg : Config) {st : State} {fd : Int} {a flags : Nat}
    {name : String} {c : List Nat} (buf : List Nat)
    (hd : lookup st fd = some (some ⟨a, flags, c.length⟩))
    (hw : can_write cfg flags = true) (hf : FileHas st a name c)
    (hmax : c.length + buf.length ≤ MAX_FILE_SIZE) :
    ∃ st1, ufs_write cfg st fd buf = some ((buf.length : Int), st1) ∧
      lookup st1 fd = some (some ⟨a, flags, (c ++ buf).length⟩) ∧
      FileHas st1 a name (c ++ buf) ∧ st1.file_list = st.file_list ∧
      (WellFormed st → WellFormed st1) := by
  obtain ⟨h1, h2, h3⟩ := lookup_inv hd
  obtain ⟨f, hfa, hname, hsize, inv⟩ := hf
  unfold ufs_write
  rw [hd]
  simp only
  rw [if_neg (by simp [hw])]
  by_cases hb : buf.length = 0
  · have hnil : buf = [] := List.length_eq_zero.mp hb
    subst hnil
    rw [if_pos hb]
    exact ⟨st, rfl, by simpa using hd, by simpa using ⟨f, hfa, hname, hsize, inv⟩, rfl,
      fun h => h⟩
  · rw [if_neg hb, hfa]
    simp only
    have hmax2 : f.size + buf.length ≤ 104857600 := by
      simp only [MAX_FILE_SIZE] at hmax
      omega
    have hmod : (f.size + buf.length) % 2 ^ 64 = f.size + buf.length :=
      Nat.mod_eq_of_lt (by omega)
    rw [hmod, if_neg (by simp only [MAX_FILE_SIZE]; omega)]
    have hlen : f.blocks.length = (c.length + 511) / 512 := inv.length
    have hwalk : walk_write f.blocks.length (c.length / BLOCK_SIZE) 0 =
        some (c.length / 512) := by
      rw [walk_write_eq _ _ _ (by simp only [BLOCK_SIZE]; omega)]
      simp [BLOCK_SIZE]
    rw [hwalk]
    simp only
    obtain ⟨blocks1, hloop, inv1⟩ := write_loop_laid cfg buf.length buf f.blocks c
      (c.length / 512) (le_refl _) inv (by
        by_cases hr : c.length % 512 = 0
        · right
          omega
        · left
          exact ⟨hr, rfl⟩)
    rw [hloop]
    simp only
    have hidx : (fd - 1).toNat < st.file_descriptors.length :=
      (List.getElem?_eq_some_iff.mp h3).1
    have ha : a < st.files.length := (List.getElem?_eq_some_iff.mp hfa).1
    refine ⟨_, rfl, ?_, ?_, rfl, ?_⟩
    · rw [List.length_append]
      exact lookup_after_set hd _ _ rfl rfl
    · refine ⟨_, List.getElem?_set_self ha, hname, ?_, inv1⟩
      simp only [List.length_append]
      rw [if_pos (by omega)]
    · intro hwf
      unfold WellFormed at hwf ⊢
      simp only [List.length_set]
      exact hwf

/-- A read gives the bytes of the file from the descriptor's offset on, as many as
the buffer takes, and moves the descriptor past them. -/
theorem ufs_read_gives (cfg : Config) {st : State} {fd : Int} {a flags : Nat}
    {name : String} {c : List Nat} {o : Nat} (m : Nat)
    (hd : lookup st fd = some (some ⟨a, flags, o⟩))
    (hr : can_read cfg flags = true) (hf : FileHas st a name c)
    (ho : o ≤ c.length) (hmax : c.length ≤ MAX_FILE_SIZE) (hm : m < 2 ^ 63) :
    ∃ st1, ufs_read cfg st fd m =
        some ((((c.drop o).take m).length : Int), (c.drop o).take m, st1) ∧
      lookup st1 fd = some (some ⟨a, flags, o + ((c.drop o).take m).length⟩) ∧
      FileHas st1 a name c := by
  obtain ⟨h1, h2, h3⟩ := lookup_inv hd
  obtain ⟨f, hfa, hname, hsize, inv⟩ := hf
  have hlen : f.blocks.length = (c.length + 511) / 512 := inv.length
  have htake : ((c.drop o).take m).length = min m (c.length - o) := by
    rw [List.length_take, List.length_drop]
  unfold ufs_read
  rw [hd]
  simp only
  rw [if_neg (by simp [hr]), hfa]
  simp only
  rw [walk_read_eq _ _ (by simp only [BLOCK_SIZE]; omega)]
  simp only
  by_cases hend : o ≥ f.size
  · rw [if_pos hend]
    have hnil : (c.drop o).take m = [] := by
      rw [List.drop_eq_nil_of_le (by omega), List.take_nil]
    rw [hnil]
    exact ⟨st, rfl, by simpa using hd, f, hfa, hname, hsize, inv⟩
  · rw [if_neg hend]
    have hloop := read_loop_laid m hm inv hmax (f.blocks.drop (o / 512)) o 0 [] (by omega) ho
      (Or.inr (Or.inr ⟨by omega, rfl⟩))
    simp only [Nat.cast_zero, Nat.sub_zero, Nat.zero_add, List.nil_append] at hloop
    simp only [BLOCK_SIZE]
    rw [hloop]
    simp only
    have hidx : (fd - 1).toNat < st.file_descriptors.length :=
      (List.getElem?_eq_some_iff.mp h3).1
    have htk : (c.drop o).take (min m (c.length - o)) = (c.drop o).take m := by
      rw [List.take_eq_take, List.length_drop]
      omega
    rw [htake, ← htk]
    exact ⟨_, rfl, lookup_after_set hd _ _ rfl rfl, f, hfa, hname, hsize, inv⟩

/-! ## Opening a file -/

theorem install_descriptor_inv {st st1 : State} {idx a flags : Nat} {fd : Int}
    (h : install_descriptor st idx a flags = some (fd, st1)) :
    fd = (idx : Int) + 1 ∧ idx < st.file_descriptors.length ∧
    ∃ f, st.files[a]? = some f ∧
      st1 = { st with
        file_descriptors :=
          st.file_descriptors.set idx (.desc { file := a, open_flags := flags, offset := 0 }),
        file_descriptor_used := st.file_descriptor_used + 1,
        files := st.files.set a { f with refs := f.refs + 1 } } := by
  unfold install_descriptor at h
  cases hf : st.files[a]? with
  | none => simp [hf] at h
  | some f =>
    simp only [hf] at h
    split at h
    · rename_i hlt
      simp only [Option.some.injEq, Prod.mk.injEq] at h
      exact ⟨h.1.symm, hlt, f, rfl, h.2.symm⟩
    · simp at h

theorem open_file_frame {cfg : Config} {st st0 : State} {name : String} {flags a : Nat}
    (h : open_file cfg st name flags = some (st0, a)) :
    st0.file_descriptors = st.file_descriptors ∧
    st0.file_descriptor_capacity = st.file_descriptor_capacity ∧
    (find_file st name = some a ∧ st0 = st ∨
      find_file st name = none ∧ a = st.files.length ∧
        st0.file_list = a :: st.file_list ∧
        st0.files = st.files ++ [{ blocks := [], refs := 0, size := 0, name := name }]) := by
  unfold open_file at h
  cases hf : find_file st name with
  | some a1 =>
    simp only [hf, Option.some.injEq, Prod.mk.injEq] at h
    obtain ⟨h1, h2⟩ := h
    subst h1 h2
    exact ⟨rfl, rfl, Or.inl ⟨rfl, rfl⟩⟩
  | none =>
    simp only [hf] at h
    split at h
    · simp at h
    · simp only [Option.some.injEq, Prod.mk.injEq] at h
      obtain ⟨h1, h2⟩ := h
      subst h1 h2
      exact ⟨rfl, rfl, Or.inr ⟨rfl, rfl, rfl, rfl⟩⟩

theorem init_descriptors_facts (st : State) (hwf : WellFormed st) :
    WellFormed (init_descriptors st) ∧ 0 < (init_descriptors st).file_descriptor_capacity ∧
    (init_descriptors st).files = st.files ∧ (init_descriptors st).file_list = st.file_list := by
  unfold init_descriptors
  split
  · exact ⟨by simp [WellFormed], by simp, rfl, rfl⟩
  · exact ⟨hwf, by omega, rfl, rfl⟩

theorem ufs_open_inv {cfg : Config} {st st1 : State} {name : String} {flags : Nat} {fd : Int}
    (hwf : WellFormed st) (h : ufs_open cfg st name flags = some (fd, st1)) (hfd : 0 < fd) :
    ∃ st0 a st2 idx, open_file cfg st name (open_flags cfg flags) = some (st0, a) ∧
      st2.files = st0.files ∧ st2.file_list = st0.file_list ∧ WellFormed st2 ∧
      install_descriptor st2 idx a (open_flags cfg flags) = some (fd, st1) := by
  unfold ufs_open at h
  simp only at h
  cases ho : open_file cfg st name (open_flags cfg flags) with
  | none =>
    simp only [ho, Option.some.injEq, Prod.mk.injEq] at h
    omega
  | some r =>
    obtain ⟨st0, a⟩ := r
    simp only [ho] at h
    obtain ⟨e1, e2, _⟩ := open_file_frame ho
    have hwf0 : WellFormed st0 := by
      unfold WellFormed at hwf ⊢
      rw [e1, e2]
      exact hwf
    obtain ⟨i1, i2, i3, i4⟩ := init_descriptors_facts st0 hwf0
    split at h
    · split at h
      · simp only [Option.some.injEq, Prod.mk.injEq] at h
        omega
      · rename_i idx _
        exact ⟨st0, a, init_descriptors st0, idx, rfl, i3, i4, i1, h⟩
    · refine ⟨st0, a, _, _, rfl, ?_, ?_, ?_, h⟩
      · exact i3
      · exact i4
      · unfold WellFormed at i1 ⊢
        simp only [List.length_append, List.length_replicate]
        push_cast
        omega

/-- A successful `ufs_open` gives a descriptor at offset 0 on the file with this
name, which it creates when there is none; the files keep what they hold. -/
theorem ufs_open_gives {cfg : Config} {st st1 : State} {name : String} {flags : Nat}
    {fd : Int} (hwf : WellFormed st) (h : ufs_open cfg st name flags = some (fd, st1))
    (hfd : 0 < fd) :
    ∃ st0 a, open_file cfg st name (open_flags cfg flags) = some (st0, a) ∧
      lookup st1 fd = some (some ⟨a, open_flags cfg flags, 0⟩) ∧ WellFormed st1 ∧
      st1.file_list = st0.file_list ∧
      (∀ a1 nm c, FileHas st0 a1 nm c → FileHas st1 a1 nm c) := by
  obtain ⟨st0, a, st2, idx, ho, e1, e2, hwf2, hi⟩ := ufs_open_inv hwf h hfd
  obtain ⟨hfd2, hidx, f, hf, hst1⟩ := install_descriptor_inv hi
  refine ⟨st0, a, ho, ?_, ?_, ?_, ?_⟩
  · unfold WellFormed at hwf2
    apply lookup_of_slot (by omega) (by rw [hst1]; simp only; omega)
    rw [hst1]
    simp only
    have e : (fd - 1).toNat = idx := by omega
    rw [e, List.getElem?_set_self hidx]
  · unfold WellFormed at hwf2 ⊢
    rw [hst1]
    simp only [List.length_set]
    exact hwf2
  · rw [hst1]
    exact e2
  · intro a1 nm c hfh
    obtain ⟨f1, hf1, hn1, hs1, inv1⟩ := hfh
    rw [← e1] at hf1
    by_cases ha : a = a1
    · subst ha
      rw [hf] at hf1
      simp only [Option.some.injEq] at hf1
      subst hf1
      refine ⟨{ f with refs := f.refs + 1 }, ?_, hn1, hs1, inv1⟩
      rw [hst1]
      exact List.getElem?_set_self (List.getElem?_eq_some_iff.mp hf).1
    · refine ⟨f1, ?_, hn1, hs1, inv1⟩
      rw [hst1]
      simp only
      rw [List.getElem?_set_ne ha]
      exact hf1

theorem find_file_head {st : State} {a : Nat} {tl : List Nat} {name : String} {c : List Nat}
    (hl : st.file_list = a :: tl) (hf : FileHas st a name c) : find_file st name = some a := by
  obtain ⟨f, hfa, hname, _, _⟩ := hf
  unfold find_file
  rw [hl, List.find?_cons]
  simp [hfa, hname]

theorem file_has_new (st : State) (name : String) :
    FileHas { st with files := st.files ++ [{ blocks := [], refs := 0, size := 0,
                                               name := name }],
                      file_list := st.files.length :: st.file_list }
      st.files.length name [] := by
  refine ⟨{ blocks := [], refs := 0, size := 0, name := name }, ?_, rfl, rfl, ?_⟩
  · simp
  · refine ⟨rfl, ?_, ?_⟩
    · intro i b hi
      simp at hi
    · intro i b j hi
      simp at hi

/-! ## Sequences of writes and reads -/

theorem write_all_appends (cfg : Config) {fd : Int} {a flags : Nat} {name : String}
    (hw : can_write cfg flags = true) : ∀ (chunks : List (List Nat)) (st : State)
    (c : List Nat), lookup st fd = some (some ⟨a, flags, c.length⟩) → FileHas st a name c →
    WellFormed st → c.length + chunks.flatten.length ≤ MAX_FILE_SIZE →
    ∃ st2, write_all cfg fd st chunks = some (chunks.map (fun x => (x.length : Int)), st2) ∧
      lookup st2 fd = some (some ⟨a, flags, (c ++ chunks.flatten).length⟩) ∧
      FileHas st2 a name (c ++ chunks.flatten) ∧ st2.file_list = st.file_list ∧
      WellFormed st2 := by
  intro chunks
  induction chunks with
  | nil =>
    intro st c hd hf hwf _
    exact ⟨st, rfl, by simpa using hd, by simpa using hf, rfl, hwf⟩
  | cons x xs ih =>
    intro st c hd hf hwf hmax
    simp only [List.flatten_cons, List.length_append] at hmax
    obtain ⟨st1, h1, h2, h3, h4, h5⟩ := ufs_write_appends cfg x hd hw hf (by omega)
    obtain ⟨st2, k1, k2, k3, k4, k5⟩ := ih st1 (c ++ x) h2 h3 (h5 hwf) (by
      rw [List.length_append]
      omega)
    refine ⟨st2, ?_, ?_, ?_, ?_, k5⟩
    · simp only [write_all, h1, k1, List.map_cons]
    · simpa [List.append_assoc] using k2
    · simpa [List.append_assoc] using k3
    · rw [k4, h4]

theorem drop_after_read (c : List Nat) (o m : Nat) :
    (c.drop o).drop m = c.drop (o + ((c.drop o).take m).length) := by
  rw [List.drop_drop, List.length_take, List.length_drop]
  by_cases h : m ≤ c.length - o
  · rw [Nat.min_eq_left h]
  · rw [List.drop_eq_nil_of_le (by omega), List.drop_eq_nil_of_le (by omega)]

theorem read_all_gives (cfg : Config) {fd : Int} {a flags : Nat} {name : String}
    {c : List Nat} (hr : can_read cfg flags = true) (hmax : c.length ≤ MAX_FILE_SIZE) :
    ∀ (sizes : List Nat) (st : State) (o : Nat), (∀ m ∈ sizes, m < 2 ^ 63) →
    lookup st fd = some (some ⟨a, flags, o⟩) → o ≤ c.length → FileHas st a name c →
    ∃ st4, read_all cfg fd st sizes = some (chop (c.drop o) sizes, st4) ∧
      lookup st4 fd = some (some ⟨a, flags, min c.length (o + sizes.sum)⟩) ∧
      FileHas st4 a name c := by
  intro sizes
  induction sizes with
  | nil =>
    intro st o _ hd ho hf
    exact ⟨st, rfl, by simpa [Nat.min_eq_right ho] using hd, hf⟩
  | cons m ms ih =>
    intro st o hsz hd ho hf
    obtain ⟨st1, h1, h2, h3⟩ := ufs_read_gives cfg m hd hr hf ho hmax
      (hsz m (List.mem_cons_self _ _))
    have hlen : ((c.drop o).take m).length = min m (c.length - o) := by
      rw [List.length_take, List.length_drop]
    obtain ⟨st4, k1, k2, k3⟩ := ih st1 (o + ((c.drop o).take m).length)
      (fun x hx => hsz x (List.mem_cons_of_mem _ hx)) h2 (by omega) h3
    refine ⟨st4, ?_, ?_, k3⟩
    · simp only [read_all, h1, k1, chop, drop_after_read]
    · rw [k2]
      congr 3
      simp only [List.sum_cons]
      omega

theorem chop_flatten : ∀ (sizes : List Nat) (b : List Nat),
    ((chop b sizes).map (fun p => p.2)).flatten = b.take sizes.sum := by
  intro sizes
  induction sizes with
  | nil =>
    intro b
    simp [chop]
  | cons m ms ih =>
    intro b
    simp only [chop, List.map_cons, List.flatten_cons, ih, List.sum_cons, List.take_add]

/-! ## A write inside a full block -/

set_option maxRecDepth 100000 in
set_option maxHeartbeats 4000000 in
/-- C24 fails in the code: when the block at the descriptor's offset is full
(`occupied == BLOCK_SIZE`), `ufs_write` does not write into it but links a new
block at the end of the file and writes there (line 265).  On a file of 512
bytes 7, a write of the byte 9 at offset 0 returns 1 and leaves the size 512,
but the file then reads as 513 bytes: the 512 old bytes, unchanged, followed
by 9.  Written at offset 100, the bytes 9, 9 leave a file that reads as 614
bytes, among them 100 bytes of the new block that were never written.  On a
file of 600 bytes, the bytes written at offset 0 go to a third block and are
not read back at all.  A write inside a block that is not full replaces the
bytes as the claim says. -/
theorem write_in_full_block_appends :
    overwrite_run (List.replicate 512 7) 0 [9] =
      some (512, 1, 513, List.replicate 512 7 ++ [9], 512) ∧
    overwrite_run (List.replicate 512 7) 100 [9, 9] =
      some (512, 2, 614, List.replicate 512 7 ++ List.replicate 100 170 ++ [9, 9], 512) ∧
    overwrite_run ((List.range 600).map (fun i => i % 10)) 0 [99, 99] =
      some (600, 2, 600, (List.range 600).map (fun i => i % 10), 600) ∧
    overwrite_run [1, 2, 3] 1 [9] = some (3, 1, 3, [1, 9, 3], 3) := by
  refine ⟨by decide!, by decide!, by decide!, by decide!⟩

/-! ## Write and read back -/

/-- C23: let `ufs_open` create a file (no file of this name existed) and return a
writable descriptor, and let the chunks of a byte string of at most
`MAX_FILE_SIZE` bytes be written through it one after the other.  Then every
`ufs_write` returns the number of bytes it was given; and through any
descriptor that a later `ufs_open` of the same name returns with read
permission, reads with any buffer sizes (each the size of a real buffer,
below 2^63) return the bytes in order: each read returns the next bytes, as
many as its buffer takes and the file still has, so that the reads together
return the first bytes of the string, all of them once the buffer sizes add
up to its length, and every read after that returns 0. -/
theorem write_read_round_trip (cfg : Config) (st st1 : State) (name : String)
    (flags1 : Nat) (fd1 : Int) (chunks : List (List Nat))
    (hwf : WellFormed st) (hnew : find_file st name = none)
    (hopen : ufs_open cfg st name flags1 = some (fd1, st1)) (hfd1 : 0 < fd1)
    (hw : can_write cfg (open_flags cfg flags1) = true)
    (hlen : chunks.flatten.length ≤ MAX_FILE_SIZE) :
    ∃ st2, write_all cfg fd1 st1 chunks =
        some (chunks.map (fun x => (x.length : Int)), st2) ∧
      ∀ (flags2 : Nat) (fd2 : Int) (st3 : State),
        ufs_open cfg st2 name flags2 = some (fd2, st3) → 0 < fd2 →
        can_read cfg (open_flags cfg flags2) = true →
        ∀ sizes : List Nat, (∀ m ∈ sizes, m < 2 ^ 63) →
          ∃ st4, read_all cfg fd2 st3 sizes = some (chop chunks.flatten sizes, st4) ∧
            ((chop chunks.flatten sizes).map (fun p => p.2)).flatten =
              chunks.flatten.take sizes.sum ∧
            (chunks.flatten.length ≤ sizes.sum → ∀ m, m < 2 ^ 63 →
              ∃ st5, ufs_read cfg st4 fd2 m = some (0, [], st5)) := by
  obtain ⟨st0, a, ho, hd1, hwf1, hl1, hkeep1⟩ := ufs_open_gives hwf hopen hfd1
  obtain ⟨_, _, hcase⟩ := open_file_frame ho
  rcases hcase with ⟨hfound, _⟩ | ⟨_, ha, hl0, hf0⟩
  · rw [hnew] at hfound
    simp at hfound
  · have hfile0 : FileHas st0 a name [] := by
      refine ⟨{ blocks := [], refs := 0, size := 0, name := name }, ?_, rfl, rfl, ?_⟩
      · rw [hf0, ha]
        simp
      · refine ⟨rfl, ?_, ?_⟩
        · intro i b hi
          simp at hi
        · intro i b j hi
          simp at hi
    obtain ⟨st2, hwr, hd2, hfile2, hl2, hwf2⟩ := write_all_appends cfg hw chunks st1 []
      hd1 (hkeep1 a name [] hfile0) hwf1 (by simpa using hlen)
    simp only [List.nil_append] at hd2 hfile2
    refine ⟨st2, hwr, ?_⟩
    intro flags2 fd2 st3 hopen2 hfd2 hr sizes hsz
    obtain ⟨st0b, a2, ho2, hd3, _, _, hkeep3⟩ := ufs_open_gives hwf2 hopen2 hfd2
    have hfind : find_file st2 name = some a :=
      find_file_head (by rw [hl2, hl1, hl0]) hfile2
    obtain ⟨_, _, hcase2⟩ := open_file_frame ho2
    rcases hcase2 with ⟨hfound2, hst0b⟩ | ⟨hnone2, _⟩
    · rw [hfind] at hfound2
      simp only [Option.some.injEq] at hfound2
      subst hfound2 hst0b
      obtain ⟨st4, hrd, hd4, hfile4⟩ := read_all_gives cfg hr hlen sizes st3 0 hsz hd3
        (Nat.zero_le _) (hkeep3 a name _ hfile2)
      simp only [List.drop_zero, Nat.zero_add] at hrd hd4
      refine ⟨st4, hrd, chop_flatten sizes _, ?_⟩
      intro hall m hm
      rw [Nat.min_eq_left hall] at hd4
      obtain ⟨st5, h5, _, _⟩ := ufs_read_gives cfg m hd4 hr hfile4 (le_refl _) hlen hm
      rw [List.drop_eq_nil_of_le (le_refl _), List.take_nil] at h5
      exact ⟨st5, h5⟩
    · rw [hfind] at hnone2
      simp at hnone2

set_option maxRecDepth 100000 in
/-- C23, on the bytes 1, 2, 3, 4, 5 written as 1, 2, 3 and then 4, 5 to a new file:
the writes return 3 and 2, and reads with the buffer sizes 2, 2, 5, 1 return
1, 2, then 3, 4, then 5, then nothing. -/
theorem write_read_round_trip_witness :
    (∃ st2, write_all cfg_fs 1 state_opened [[1, 2, 3], [4, 5]] = some ([3, 2], st2)) ∧
    round_trip_run [[1, 2, 3], [4, 5]] [2, 2, 5, 1] =
      some ([3, 2], [(2, [1, 2]), (2, [3, 4]), (1, [5]), (0, [])]) ∧
    chop [1, 2, 3, 4, 5] [2, 2, 5, 1] = [(2, [1, 2]), (2, [3, 4]), (1, [5]), (0, [])] := by
  obtain ⟨st2, h, _⟩ := write_read_round_trip cfg_fs State.init state_opened "f" 1 1
    [[1, 2, 3], [4, 5]] rfl rfl rfl (by decide) (by decide) (by decide)
  exact ⟨⟨st2, h⟩, by decide, by decide⟩

end UserFs
